import Mathlib

/-!
Verification of the findminhs exact minimum-hitting-set solver.

This file is a shallow embedding, in Lean 4, of the data structures and
algorithms of the Rust sources, together with proofs of (or counterexamples
to) the specified properties.

Embedding conventions:
* `usize`/`u32` indices are embedded as `Nat`.  The `u32::MAX` sentinel
  `INVALID` of the index structs is embedded as the literal value
  `4294967295` where it is stored as data, and as `Option.none` where the
  code only ever tests validity (the `prev`/`next`/`first`/`last` pointers
  of `SkipVec`).
* fallible code (Rust `Result`, and arithmetic that can panic such as the
  `usize` underflow / division by zero in `calc_max_degree_bound`) is
  embedded in `Except String`.
* stateful code is explicit state passing; loops become structural or
  well-founded recursion.
-/

namespace FindMinHS

/-- The `u32::MAX` sentinel used by the index structs of `small_indices.rs`. -/
def INVALID_IDX : Nat := 4294967295

/-! ## SkipVec (`data_structures/skipvec.rs`)

Fixed-size vector with O(1) delete and LIFO restore via a doubly linked
list over the live slots.  `prev`/`next`/`first`/`last` are `u32` indices
with an `INVALID` sentinel in the source; validity is the only thing ever
tested on them, so they are embedded as `Option Nat`. -/

structure SVEntry (α : Type) where
  prev : Option Nat
  next : Option Nat
  value : α
  deriving Repr, DecidableEq

instance {α : Type} [Inhabited α] : Inhabited (SVEntry α) :=
  ⟨{ prev := none, next := none, value := default }⟩

structure SkipVec (α : Type) where
  entries : List (SVEntry α)
  first : Option Nat
  last : Option Nat
  len : Nat
  deriving Repr, DecidableEq

namespace SkipVec

/-- `Entry::new`: a fresh entry with invalid pointers. -/
def entryNew {α : Type} (value : α) : SVEntry α :=
  { prev := none, next := none, value := value }

/-- `SkipVec::from_entry_vec`: link all entries sequentially. -/
def from_entry_vec {α : Type} (vals : List α) : SkipVec α :=
  let n := vals.length
  { entries :=
      (List.range n).zip vals |>.map fun p =>
        { prev := if p.1 = 0 then none else some (p.1 - 1)
          next := if p.1 + 1 = n then none else some (p.1 + 1)
          value := p.2 }
    first := if n = 0 then none else some 0
    last := if n = 0 then none else some (n - 1)
    len := n }

/-- Collect a list of results into a result of a list, propagating the
first error (the `collect::<Result<Vec<_>, _>>()` inside
`try_sorted_from`). -/
def collectResults {α : Type} (items : List (Except String α)) :
    Except String (List α) :=
  items.foldr (fun it acc => do
    let v ← it
    let rest ← acc
    pure (v :: rest)) (pure [])

/-- `SkipVec::try_sorted_from` over an already collected list of results:
collect (propagating the first error), sort by value, link.  The source
uses `sort_unstable_by`; since elements comparing equal are identical
values at every call site, insertion sort computes the same list (and, by
contrast with merge sort, reduces inside the kernel). -/
def try_sorted_from {α : Type} (le : α → α → Bool)
    (items : List (Except String α)) : Except String (SkipVec α) := do
  let vals ← collectResults items
  pure (from_entry_vec (vals.insertionSort fun a b => le a b = true))

/-- `SkipVec::with_len` (entries of the default value, fully linked). -/
def with_len {α : Type} (dflt : α) (n : Nat) : SkipVec α :=
  from_entry_vec (List.replicate n dflt)

/-- Total read of an entry's `prev` pointer (`none` when out of bounds). -/
def entryPrev {α : Type} (v : SkipVec α) (i : Nat) : Option Nat :=
  match v.entries.get? i with
  | none => none
  | some e => e.prev

/-- Total read of an entry's `next` pointer (`none` when out of bounds). -/
def entryNext {α : Type} (v : SkipVec α) (i : Nat) : Option Nat :=
  match v.entries.get? i with
  | none => none
  | some e => e.next

/-- Modify the `next` pointer of entry `i`. -/
def setNext {α : Type} (v : SkipVec α) (i : Nat) (p : Option Nat) : SkipVec α :=
  { v with entries :=
      v.entries.modify (fun e => { e with next := p }) i }

/-- Modify the `prev` pointer of entry `i`. -/
def setPrev {α : Type} (v : SkipVec α) (i : Nat) (p : Option Nat) : SkipVec α :=
  { v with entries :=
      v.entries.modify (fun e => { e with prev := p }) i }

/-- `SkipVec::delete`: unlink entry `index` from the live chain.  The entry's
own fields are untouched, which is what makes the LIFO `restore` work. -/
def delete {α : Type} (v : SkipVec α) (index : Nat) : SkipVec α :=
  match v.entries.get? index with
  | none => v
  | some e =>
    let v := { v with len := v.len - 1 }
    let v :=
      match e.prev with
      | some p => v.setNext p e.next
      | none => { v with first := e.next }
    match e.next with
    | some nx => v.setPrev nx e.prev
    | none => { v with last := e.prev }

/-- `SkipVec::restore`: relink entry `index`; only correct when restores
happen in reverse order of the deletes. -/
def restore {α : Type} (v : SkipVec α) (index : Nat) : SkipVec α :=
  match v.entries.get? index with
  | none => v
  | some e =>
    let v := { v with len := v.len + 1 }
    let v :=
      match e.prev with
      | some p => v.setNext p (some index)
      | none => { v with first := some index }
    match e.next with
    | some nx => v.setPrev nx (some index)
    | none => { v with last := some index }

/-- Follow `next` pointers starting at `o`, collecting the visited indices;
`fuel` bounds the walk (the linked structure itself guarantees termination
in the source, where chains are acyclic). -/
def chase {α : Type} (entries : List (SVEntry α)) : Option Nat → Nat → Option (List Nat)
  | none, _ => some []
  | some _, 0 => none
  | some i, fuel + 1 =>
    match entries.get? i with
    | none => none
    | some e => (chase entries e.next fuel).map (i :: ·)

/-- The canonical live chain of a skip vector (indices in iteration order). -/
def liveIdx {α : Type} (v : SkipVec α) : List Nat :=
  (chase v.entries v.first (v.entries.length + 1)).getD []

/-- `SkipVec::iter`: the `(index, value)` pairs of the live chain, in order. -/
def toList {α : Type} [Inhabited α] (v : SkipVec α) : List (Nat × α) :=
  v.liveIdx.map fun i => (i, (v.entries.get? i).getD default |>.value)

/-- A doubly linked segment: walking `l`, every entry has the expected
`prev` (the preceding index, or the incoming `p`) and `next` (the following
index, or `none` at the end). -/
def Seg {α : Type} (v : SkipVec α) : Option Nat → List Nat → Prop
  | _, [] => True
  | p, i :: rest =>
    i < v.entries.length ∧ v.entryPrev i = p ∧ v.entryNext i = rest.head? ∧
      Seg v (some i) rest

/-- Well-formedness of a skip vector relative to its live chain `l`. -/
def Chains {α : Type} (v : SkipVec α) (l : List Nat) : Prop :=
  Seg v none l ∧ v.first = l.head? ∧ v.last = l.getLast? ∧
    v.len = l.length ∧ l.Nodup

instance {α : Type} (v : SkipVec α) : ∀ (l : List Nat) (p : Option Nat),
    Decidable (Seg v p l)
  | [], _ => .isTrue trivial
  | i :: rest, p =>
    have : Decidable (Seg v (some i) rest) := instDecidableSeg v rest (some i)
    inferInstanceAs (Decidable (_ ∧ _ ∧ _ ∧ _))

instance {α : Type} (v : SkipVec α) (l : List Nat) : Decidable (Chains v l) :=
  inferInstanceAs (Decidable (_ ∧ _ ∧ _ ∧ _ ∧ _))

/-- Computable well-formedness: the vector chains its canonical live list. -/
def Wf {α : Type} (v : SkipVec α) : Prop :=
  Chains v v.liveIdx

instance {α : Type} (v : SkipVec α) : Decidable (Wf v) :=
  inferInstanceAs (Decidable (Chains v v.liveIdx))

end SkipVec

/-! ## ContiguousIdxVec (`data_structures/cont_idx_vec.rs`)

Stores ids `0..n` with O(1) delete/restore by swapping to the end of the
live prefix `data[0..len]`. -/

structure ContiguousIdxVec where
  data : List Nat
  indices : List Nat
  len : Nat
  deriving Repr, DecidableEq

namespace ContiguousIdxVec

/-- `FromIterator`: the identity layout over `0..n`. -/
def init (n : Nat) : ContiguousIdxVec :=
  { data := List.range n, indices := List.range n, len := n }

/-- `is_deleted`. -/
def is_deleted (c : ContiguousIdxVec) (id : Nat) : Bool :=
  c.indices.getD id 0 ≥ c.len

/-- Swap the values at two positions of a list. -/
def lswap (l : List Nat) (i j : Nat) : List Nat :=
  (l.set i (l.getD j 0)).set j (l.getD i 0)

/-- `delete`: swap the target with the last live slot and shrink. -/
def delete (c : ContiguousIdxVec) (id : Nat) : ContiguousIdxVec :=
  let idx := c.indices.getD id 0
  let last_id := c.data.getD (c.len - 1) 0
  { data := lswap c.data idx (c.len - 1)
    indices := lswap c.indices id last_id
    len := c.len - 1 }

/-- `restore`: inverse swap using the first dead slot. -/
def restore (c : ContiguousIdxVec) (id : Nat) : ContiguousIdxVec :=
  let idx := c.indices.getD id 0
  let after_last_id := c.data.getD c.len 0
  { data := lswap c.data idx c.len
    indices := lswap c.indices id after_last_id
    len := c.len + 1 }

/-- The live prefix (`Deref` to `&data[..len]`). -/
def alive (c : ContiguousIdxVec) : List Nat :=
  c.data.take c.len

/-- Well-formedness: `data` and `indices` are mutually inverse permutations
of `0..n`, where `n` is the (common) length. -/
def Wf (c : ContiguousIdxVec) (n : Nat) : Prop :=
  c.data.length = n ∧ c.indices.length = n ∧ c.len ≤ n ∧
    (∀ id < n, c.indices.getD id 0 < n ∧
      c.data.getD (c.indices.getD id 0) 0 = id) ∧
    (∀ k < n, c.data.getD k 0 < n ∧ c.indices.getD (c.data.getD k 0) 0 = k)

instance (c : ContiguousIdxVec) (n : Nat) : Decidable (Wf c n) :=
  inferInstanceAs (Decidable (_ ∧ _ ∧ _ ∧ _ ∧ _))

end ContiguousIdxVec

/-! ## Instance (`instance.rs`)

Bidirectional incidence representation: for each node the `SkipVec` of
`(edge, mirror-entry)` pairs, for each edge the `SkipVec` of
`(node, mirror-entry)` pairs. -/

instance {α : Type} : Inhabited (SkipVec α) :=
  ⟨{ entries := [], first := none, last := none, len := 0 }⟩

namespace SkipVec

/-- `IndexMut`: overwrite the stored value of a slot (dead or alive). -/
def setValue {α : Type} (v : SkipVec α) (i : Nat) (val : α) : SkipVec α :=
  { v with entries := v.entries.modify (fun e => { e with value := val }) i }

/-- The value stored at a slot, dead or alive. -/
def atVal {α : Type} (v : SkipVec α) (k : Nat) : Option α :=
  (v.entries.get? k).map SVEntry.value

end SkipVec

structure Instance where
  nodes : ContiguousIdxVec
  edges : ContiguousIdxVec
  node_incidences : List (SkipVec (Nat × Nat))
  edge_incidences : List (SkipVec (Nat × Nat))
  deriving Repr, DecidableEq

/-- Lexicographic comparison of `(NodeIdx, EntryIdx)` pairs, as used by the
`sort_unstable_by` call inside `SkipVec::try_sorted_from`. -/
def pairLe (a b : Nat × Nat) : Bool :=
  a.1 < b.1 ∨ (a.1 = b.1 ∧ a.2 ≤ b.2)

/-- State of `ParsedEdgeHandler`: the edge incidence lists built so far and
the node degree counters. -/
abbrev HandlerState := List (SkipVec (Nat × Nat)) × List Nat

namespace Instance

/-- `ParsedEdgeHandler::handle_edge`: check indices against the universe,
build the sorted incidence list, reject empty edges, count degrees. -/
def handle_edge (st : HandlerState) (node_indices : List Nat) :
    Except String HandlerState := do
  let incidences ← SkipVec.try_sorted_from pairLe
    (node_indices.map fun idx =>
      if idx < st.2.length then Except.ok ((idx, INVALID_IDX) : Nat × Nat)
      else Except.error "invalid node idx in edge")
  if incidences.len > 0 then
    let degs := incidences.toList.foldl
      (fun ds p => ds.set p.2.1 (ds.getD p.2.1 0 + 1)) st.2
    pure (st.1 ++ [incidences], degs)
  else
    Except.error "edges may not be empty"

/-- The second phase of `Instance::load`: build the node incidence lists and
fill in the mirror entry indices on both sides. -/
def finishLoad (num_nodes num_edges : Nat) (st : HandlerState) : Instance :=
  let node_degrees := st.2
  let nodeIncs0 : List (SkipVec (Nat × Nat)) :=
    node_degrees.map fun len => SkipVec.with_len (INVALID_IDX, INVALID_IDX) len
  let filled :=
    (List.range st.1.length).foldl
      (fun acc edge =>
        let (nodeIncs, edgeIncs, rem) := acc
        (edgeIncs.getD edge default).liveIdx.foldl
          (fun acc2 j =>
            let (nodeIncs, edgeIncs, rem) := acc2
            let node := (((edgeIncs.getD edge default).entries.get? j).getD
              default).value.1
            let nlen := (nodeIncs.getD node default).len
            let nidx := nlen - rem.getD node 0
            (nodeIncs.modify (fun sv => sv.setValue nidx (edge, j)) node,
             edgeIncs.modify (fun sv => sv.setValue j (node, nidx)) edge,
             rem.set node (rem.getD node 0 - 1)))
          (nodeIncs, edgeIncs, rem))
      (nodeIncs0, st.1, node_degrees)
  { nodes := ContiguousIdxVec.init num_nodes
    edges := ContiguousIdxVec.init num_edges
    node_incidences := filled.1
    edge_incidences := filled.2.1 }

/-- `Instance::load` over already parsed edge vertex lists (this is the code
path of `load_from_json`; `num_edges` is `edges.len()` there). -/
def load (num_nodes num_edges : Nat) (vertex_lists : List (List Nat)) :
    Except String Instance := do
  let st ← vertex_lists.foldlM handle_edge (([], List.replicate num_nodes 0) :
    HandlerState)
  pure (finishLoad num_nodes num_edges st)

/-- `Instance::load_from_text` over pre-lexed lines: each line is the list
of its decimal numbers (`split_ascii_whitespace` + `parse`).  A missing line
reads as the empty line.  The first line must be exactly `N M`; each of the
following `M` lines is a degree (skipped without validation) followed by
the edge's vertex indices. -/
def textEdgeStep (lines : List (List Nat)) (st : HandlerState) (i : Nat) :
    Except String HandlerState :=
  match lines.getD (i + 1) [] with
  | [] => Except.error "empty edge line in input, expected degree"
  | _ :: vs => handle_edge st vs

def load_from_text (lines : List (List Nat)) : Except String Instance := do
  match lines.getD 0 [] with
  | [] => Except.error "Missing node count"
  | [_] => Except.error "Missing edge count"
  | [num_nodes, num_edges] => do
    let st ← (List.range num_edges).foldlM (textEdgeStep lines)
      (([], List.replicate num_nodes 0) : HandlerState)
    pure (finishLoad num_nodes num_edges st)
  | _ => Except.error "Too many numbers in first input line"

/-- `num_nodes`: number of alive nodes. -/
def num_nodes (I : Instance) : Nat := I.nodes.len

/-- `num_edges`: number of alive edges. -/
def num_edges (I : Instance) : Nat := I.edges.len

/-- `num_nodes_total`. -/
def num_nodes_total (I : Instance) : Nat := I.node_incidences.length

/-- `num_edges_total`. -/
def num_edges_total (I : Instance) : Nat := I.edge_incidences.length

/-- `Instance::node`: edges incident to a node, in live-chain order. -/
def nodeList (I : Instance) (v : Nat) : List Nat :=
  ((I.node_incidences.getD v default).toList).map fun p => p.2.1

/-- `Instance::edge`: nodes incident to an edge, in live-chain order. -/
def edgeList (I : Instance) (e : Nat) : List Nat :=
  ((I.edge_incidences.getD e default).toList).map fun p => p.2.1

/-- `Instance::nodes`: alive nodes, in arbitrary order. -/
def aliveNodes (I : Instance) : List Nat := I.nodes.alive

/-- `Instance::edges`: alive edges, in arbitrary order. -/
def aliveEdges (I : Instance) : List Nat := I.edges.alive

/-- `node_degree`. -/
def node_degree (I : Instance) (v : Nat) : Nat :=
  (I.node_incidences.getD v default).len

/-- `edge_size`. -/
def edge_size (I : Instance) (e : Nat) : Nat :=
  (I.edge_incidences.getD e default).len

/-- The `(index, (opposite, mirror))` live entries of a node's incidences. -/
def nodeEntries (I : Instance) (v : Nat) : List (Nat × (Nat × Nat)) :=
  (I.node_incidences.getD v default).toList

/-- The `(index, (opposite, mirror))` live entries of an edge's incidences. -/
def edgeEntries (I : Instance) (e : Nat) : List (Nat × (Nat × Nat)) :=
  (I.edge_incidences.getD e default).toList

/-- `Instance::delete_node`: delete every mirror entry in the incident edge
lists, then remove the node from the alive set. -/
def delete_node (I : Instance) (v : Nat) : Instance :=
  let I' := (I.nodeEntries v).foldl
    (fun acc p =>
      { acc with edge_incidences :=
          acc.edge_incidences.modify (fun sv => sv.delete p.2.2) p.2.1 })
    I
  { I' with nodes := I'.nodes.delete v }

/-- `Instance::delete_edge`. -/
def delete_edge (I : Instance) (e : Nat) : Instance :=
  let I' := (I.edgeEntries e).foldl
    (fun acc p =>
      { acc with node_incidences :=
          acc.node_incidences.modify (fun sv => sv.delete p.2.2) p.2.1 })
    I
  { I' with edges := I'.edges.delete e }

/-- `Instance::restore_node`: restore the mirror entries in reverse order,
then re-add the node to the alive set. -/
def restore_node (I : Instance) (v : Nat) : Instance :=
  let I' := (I.nodeEntries v).reverse.foldl
    (fun acc p =>
      { acc with edge_incidences :=
          acc.edge_incidences.modify (fun sv => sv.restore p.2.2) p.2.1 })
    I
  { I' with nodes := I'.nodes.restore v }

/-- `Instance::restore_edge`. -/
def restore_edge (I : Instance) (e : Nat) : Instance :=
  let I' := (I.edgeEntries e).reverse.foldl
    (fun acc p =>
      { acc with node_incidences :=
          acc.node_incidences.modify (fun sv => sv.restore p.2.2) p.2.1 })
    I
  { I' with edges := I'.edges.restore e }

/-- `Instance::delete_incident_edges`: the node must already be deleted; its
incidence list is `mem::take`n out while the edges are deleted. -/
def delete_incident_edges (I : Instance) (v : Nat) : Instance :=
  let incidence := I.node_incidences.getD v default
  let I1 := { I with node_incidences := I.node_incidences.set v default }
  let I2 := incidence.toList.foldl (fun acc p => acc.delete_edge p.2.1) I1
  { I2 with node_incidences := I2.node_incidences.set v incidence }

/-- `Instance::restore_incident_edges`: reverses `delete_incident_edges`,
restoring the edges in reverse order. -/
def restore_incident_edges (I : Instance) (v : Nat) : Instance :=
  let incidence := I.node_incidences.getD v default
  let I1 := { I with node_incidences := I.node_incidences.set v default }
  let I2 := incidence.toList.reverse.foldl (fun acc p => acc.restore_edge p.2.1)
    I1
  { I2 with node_incidences := I2.node_incidences.set v incidence }

end Instance

instance : Inhabited Instance :=
  ⟨{ nodes := ContiguousIdxVec.init 0, edges := ContiguousIdxVec.init 0,
     node_incidences := [], edge_incidences := [] }⟩

/-- Convenience: the instance loaded from parsed edge lists, defaulting on a
load error (used only to name concrete, successfully loading instances). -/
def loadD (num_nodes num_edges : Nat) (vertex_lists : List (List Nat)) :
    Instance :=
  match Instance.load num_nodes num_edges vertex_lists with
  | .ok I => I
  | .error _ => default

/-! ## Lower bounds (`lower_bound.rs`) -/

/-- Rust's `usize::MAX`. -/
def USIZE_MAX : Nat := 18446744073709551615

/-- `calc_max_degree_bound`: maximum alive-node degree, then
`(num_edges + max_degree - 1) / max_degree`.  When `max_degree = 0` the
Rust expression panics (usize subtraction overflow in debug builds, and
division by zero in any build); this is embedded as an error. -/
def calc_max_degree_bound (I : Instance) : Except String (Option Nat) :=
  match (I.aliveNodes.map fun v => I.node_degree v).max? with
  | none => .ok none
  | some max_degree =>
    if max_degree = 0 then
      .error "panic: subtract with overflow / divide by zero"
    else
      .ok (some ((I.num_edges + max_degree - 1) / max_degree))

/-- The max-degree bound check of the reduction loop (`reductions.rs`,
`reduce`): substitute `usize::MAX` for a `None` bound and compare against
the lower-bound breakpoint; `true` means the branch is pruned as
`Unsolvable`. -/
def max_degree_bound_check (I : Instance) (lower_bound_breakpoint : Nat) :
    Except String Bool :=
  (calc_max_degree_bound I).map fun o =>
    decide (o.getD USIZE_MAX ≥ lower_bound_breakpoint)

/-! ## Settings deserialization (`report.rs` and `main.rs`)

`Settings` derives a plain serde `Deserialize`: no `deny_unknown_fields`
attribute (unknown keys are skipped) and no `default` attributes (every
field must be present).  The JSON value model below covers the shapes the
fields can take. -/

inductive GreedyMode where
  | Once
  | AlwaysBeforeBounds
  | AlwaysBeforeExpensiveReductions
  deriving DecidableEq, Repr

structure Settings where
  enable_local_search : Bool
  enable_max_degree_bound : Bool
  enable_sum_degree_bound : Bool
  enable_efficiency_bound : Bool
  enable_packing_bound : Bool
  enable_sum_over_packing_bound : Bool
  packing_from_scratch_limit : Nat
  greedy_mode : GreedyMode
  deriving DecidableEq, Repr

inductive JsonVal where
  | jbool (b : Bool)
  | jnum (n : Nat)
  | jstr (s : String)
  deriving DecidableEq, Repr

/-- A JSON object, as a key/value list. -/
abbrev JsonObj := List (String × JsonVal)

def lookupKey (obj : JsonObj) (k : String) : Option JsonVal :=
  (obj.find? fun p => p.1 = k).map (·.2)

def getBoolField (obj : JsonObj) (k : String) : Except String Bool :=
  match lookupKey obj k with
  | some (.jbool b) => .ok b
  | some _ => .error ("invalid type: expected a boolean for " ++ k)
  | none => .error ("missing field " ++ k)

def getNatField (obj : JsonObj) (k : String) : Except String Nat :=
  match lookupKey obj k with
  | some (.jnum n) => .ok n
  | some _ => .error ("invalid type: expected an integer for " ++ k)
  | none => .error ("missing field " ++ k)

def getGreedyModeField (obj : JsonObj) (k : String) :
    Except String GreedyMode :=
  match lookupKey obj k with
  | some (.jstr s) =>
    if s = "Once" then .ok .Once
    else if s = "AlwaysBeforeBounds" then .ok .AlwaysBeforeBounds
    else if s = "AlwaysBeforeExpensiveReductions" then
      .ok .AlwaysBeforeExpensiveReductions
    else .error "unknown variant"
  | some _ => .error ("invalid type: expected a string for " ++ k)
  | none => .error ("missing field " ++ k)

/-- The recognized `Settings` keys. -/
def settingsKeys : List String :=
  ["enable_local_search", "enable_max_degree_bound", "enable_sum_degree_bound",
   "enable_efficiency_bound", "enable_packing_bound",
   "enable_sum_over_packing_bound", "packing_from_scratch_limit",
   "greedy_mode"]

/-- Deserialization of `Settings` following the semantics of the plain
serde derive: every field required, unknown keys ignored. -/
def parseSettings (obj : JsonObj) : Except String Settings := do
  let els ← getBoolField obj "enable_local_search"
  let emd ← getBoolField obj "enable_max_degree_bound"
  let esd ← getBoolField obj "enable_sum_degree_bound"
  let eeb ← getBoolField obj "enable_efficiency_bound"
  let epb ← getBoolField obj "enable_packing_bound"
  let esp ← getBoolField obj "enable_sum_over_packing_bound"
  let pfs ← getNatField obj "packing_from_scratch_limit"
  let gm ← getGreedyModeField obj "greedy_mode"
  pure { enable_local_search := els, enable_max_degree_bound := emd,
         enable_sum_degree_bound := esd, enable_efficiency_bound := eeb,
         enable_packing_bound := epb, enable_sum_over_packing_bound := esp,
         packing_from_scratch_limit := pfs, greedy_mode := gm }

/-- A settings object with all eight recognized keys present. -/
def fullSettingsObj : JsonObj :=
  [("enable_local_search", .jbool true),
   ("enable_max_degree_bound", .jbool true),
   ("enable_sum_degree_bound", .jbool true),
   ("enable_efficiency_bound", .jbool true),
   ("enable_packing_bound", .jbool true),
   ("enable_sum_over_packing_bound", .jbool true),
   ("packing_from_scratch_limit", .jnum 3),
   ("greedy_mode", .jstr "Once")]

/-! ## Subset trie (`data_structures/subset_trie.rs`)

The source stores trie nodes in a flat arena (`SubsetTrieChildren`, either a
flat per-node vector or a per-node hash map — two backing stores for the
same `get`/`get_or_insert` map interface) with typed node indices; child
edges always point to later-allocated nodes, so the arena encodes a tree.
It is embedded here as that tree, with each node's child map as an
association list (`get_or_insert` appends new keys). -/

inductive STrie (M : Type) where
  | mk (marker : M) (children : List (Nat × STrie M))

namespace STrie

def marker {M : Type} : STrie M → M
  | .mk m _ => m

def children {M : Type} : STrie M → List (Nat × STrie M)
  | .mk _ cs => cs

/-- The fresh trie of `SubsetTrie::new`: a root with the default marker. -/
def empty {M : Type} (d : M) : STrie M := .mk d []

/-- `SubsetTrieChildren::get`. -/
def lookupChild {M : Type} : List (Nat × STrie M) → Nat → Option (STrie M)
  | [], _ => none
  | (k', c) :: cs, k => if k = k' then some c else lookupChild cs k

/-- `SubsetTrieChildren::get_or_insert`, continued with `f` on an existing
child and with `dflt` as a newly created child. -/
def updateChild {M : Type} (cs : List (Nat × STrie M)) (k : Nat)
    (f : STrie M → STrie M) (dflt : STrie M) : List (Nat × STrie M) :=
  match cs with
  | [] => [(k, dflt)]
  | (k', c) :: cs' =>
    if k = k' then (k', f c) :: cs' else (k', c) :: updateChild cs' k f dflt

/-- `SubsetTrie::insert`: walk the set, materializing missing children
(with default markers), and mark the final node. -/
def insert {M : Type} (d mark : M) : STrie M → List Nat → STrie M
  | .mk _ cs, [] => .mk mark cs
  | .mk m0 cs, k :: rest =>
    .mk m0 (updateChild cs k (fun c => insert d mark c rest)
      (insert d mark (empty d) rest))

/-- The depth-first scan of `SubsetTrie::find_subset`: at the current node,
consume query elements looking for a child edge; descend into the child
(returning its marker immediately when non-default), with the alternative
of skipping the element kept on the stack. -/
def findScan {M : Type} (d : M) [DecidableEq M] :
    List (Nat × STrie M) → List Nat → M
  | _, [] => d
  | cs, k :: rest =>
    match lookupChild cs k with
    | some c =>
      let r := if c.marker ≠ d then c.marker else findScan d c.children rest
      if r ≠ d then r else findScan d cs rest
    | none => findScan d cs rest

/-- `SubsetTrie::find_subset`. -/
def find_subset {M : Type} (d : M) [DecidableEq M] (t : STrie M)
    (q : List Nat) : M :=
  if t.marker ≠ d then t.marker else findScan d t.children q

/-- The marker found at the end of a path, default when the path is not in
the trie (specification device). -/
def markerAt {M : Type} (d : M) : STrie M → List Nat → M
  | t, [] => t.marker
  | t, k :: rest =>
    match lookupChild t.children k with
    | some c => markerAt d c rest
    | none => d

end STrie

/-! ## Superset trie (`data_structures/superset_trie.rs`)

Arena of nodes with per-node `BTreeMap`s from values to child indices,
embedded as a tree whose child lists are kept in ascending key order.
`contains_superset` walks candidate child edges with keys in the range
`(last matched value, next query value]`, iterating each range backwards;
it never reads `is_set` — success is reaching the end of the query inside
the trie (and for an empty query, the arena holding more than the root,
i.e. a root with at least one child). -/

inductive PTrie where
  | mk (is_set : Bool) (children : List (Nat × PTrie))

namespace PTrie

def children : PTrie → List (Nat × PTrie)
  | .mk _ cs => cs

def emptyP : PTrie := .mk false []

/-- `BTreeMap::entry(k).or_insert`, continued with `f` on an existing child
and `dflt` for a missing one; keeps keys sorted ascending. -/
def insertSortedChild (cs : List (Nat × PTrie)) (k : Nat)
    (f : PTrie → PTrie) (dflt : PTrie) : List (Nat × PTrie) :=
  match cs with
  | [] => [(k, dflt)]
  | (k', c) :: cs' =>
    if k < k' then (k, dflt) :: (k', c) :: cs'
    else if k = k' then (k', f c) :: cs'
    else (k', c) :: insertSortedChild cs' k f dflt

/-- `SupersetTrie::insert`. -/
def insertP : PTrie → List Nat → PTrie
  | .mk _ cs, [] => .mk true cs
  | .mk b cs, k :: rest =>
    .mk b (insertSortedChild cs k (fun c => insertP c rest)
      (insertP emptyP rest))

/-- `BTreeMap::range` over `(lo, hi]` (`lo = none` meaning from 0
inclusive), iterated backwards as the search does. -/
def rangeDesc (cs : List (Nat × PTrie)) (lo : Option Nat) (hi : Nat) :
    List (Nat × PTrie) :=
  (cs.filter fun p =>
    (match lo with
     | none => true
     | some a => decide (a < p.1)) && decide (p.1 ≤ hi)).reverse

theorem sizeOf_list_append {α : Type} [SizeOf α] (l1 l2 : List α) :
    sizeOf (l1 ++ l2) + 1 = sizeOf l1 + sizeOf l2 := by
  induction l1 with
  | nil => simp; omega
  | cons a l ih => simp [ih]; omega

theorem sizeOf_list_reverse {α : Type} [SizeOf α] (l : List α) :
    sizeOf l.reverse = sizeOf l := by
  induction l with
  | nil => rfl
  | cons a l ih =>
    rw [List.reverse_cons]
    have := sizeOf_list_append l.reverse [a]
    simp at this ⊢
    omega

theorem sizeOf_list_filter_le {α : Type} [SizeOf α] (p : α → Bool)
    (l : List α) : sizeOf (l.filter p) ≤ sizeOf l := by
  induction l with
  | nil => simp
  | cons a l ih =>
    rw [List.filter_cons]
    by_cases hp : p a
    · simp [hp]; omega
    · simp [hp]; omega

theorem sizeOf_rangeDesc_lt (k : Nat) (c : PTrie) (rest : List (Nat × PTrie))
    (lo : Option Nat) (hi : Nat) :
    sizeOf (rangeDesc c.children lo hi) < sizeOf ((k, c) :: rest) := by
  have h1 : sizeOf (rangeDesc c.children lo hi) ≤ sizeOf c.children := by
    rw [rangeDesc, sizeOf_list_reverse]
    exact sizeOf_list_filter_le _ _
  have h2 : sizeOf c.children < sizeOf c := by
    cases c with
    | mk b cs => simp [children]
  simp
  omega

/-- The stack-driven search loop of `contains_superset_with_stack`, as a
recursion: the frame at the top of the stack holds the current node's
remaining candidate range (descending); descending into a child pushes the
rest of the range below the child's frame, which is the `||` backtracking
below. -/
def goC : List (Nat × PTrie) → List Nat → Bool
  | _, [] => false
  | [], _ :: _ => false
  | (k, c) :: rest, q :: qrest =>
    if k = q then
      (match qrest with
       | [] => true
       | q' :: _ => goC (rangeDesc c.children (some q) q') qrest) ||
        goC rest (q :: qrest)
    else
      goC (rangeDesc c.children (some k) q) (q :: qrest) ||
        goC rest (q :: qrest)
termination_by cs _ => sizeOf cs
decreasing_by
  · exact sizeOf_rangeDesc_lt _ _ _ _ _
  · simp
  · exact sizeOf_rangeDesc_lt _ _ _ _ _
  · simp

/-- `SupersetTrie::contains_superset`. -/
def contains_superset (t : PTrie) (q : List Nat) : Bool :=
  match q with
  | [] => !t.children.isEmpty
  | q0 :: _ => goC (rangeDesc t.children none q0) q

/-- Path existence in the trie (specification device). -/
def PathMem : PTrie → List Nat → Prop
  | _, [] => True
  | t, k :: p => ∃ c, (k, c) ∈ t.children ∧ PathMem c p

end PTrie

/-- The trie built by `find_dominated_edges`-style use: a fold of inserts
into a fresh subset trie. -/
def buildSubsetTrie {M : Type} (d : M) (inserts : List (M × List Nat)) :
    STrie M :=
  inserts.foldl (fun t pr => STrie.insert d pr.1 t pr.2) (STrie.empty d)

/-- The trie built by `find_dominated_nodes`-style use: a fold of inserts
into a fresh superset trie. -/
def buildSupersetTrie (sets : List (List Nat)) : PTrie :=
  sets.foldl (fun t S => PTrie.insertP t S) PTrie.emptyP

/-! ## Vertex domination (`reductions.rs::find_dominated_nodes`) -/

/-- One iteration of the `filter_map` in `find_dominated_nodes`: the state
is the superset trie together with the nodes reported dominated so far.  A
node whose incidence-edge set has a superset in the trie is reported
(removed); otherwise its set is inserted. -/
def domStep (I : Instance) (st : PTrie × List Nat) (node : Nat) :
    PTrie × List Nat :=
  if PTrie.contains_superset st.1 (I.nodeList node) then
    (st.1, st.2 ++ [node])
  else
    (PTrie.insertP st.1 (I.nodeList node), st.2)

/-- The alive nodes ordered by `sort_unstable_by_key(Reverse(degree))`,
i.e. by non-increasing degree.  The unstable sort leaves the relative
order of equal-degree nodes unspecified; a stable insertion sort realizes
one admissible such order. -/
def sortedAliveNodes (I : Instance) : List Nat :=
  I.aliveNodes.insertionSort fun a b => I.node_degree b ≤ I.node_degree a

/-- `find_dominated_nodes` (reductions.rs): scan the alive nodes by
non-increasing degree, reporting each node whose incidence set has a
superset among the kept nodes' sets. -/
def find_dominated_nodes (I : Instance) : List Nat :=
  ((sortedAliveNodes I).foldl (domStep I) (PTrie.emptyP, [])).2

/-- Proof device: the removed nodes of the scan, tracking the kept-node
list instead of the trie (the trie is always `buildSupersetTrie` of the
kept nodes' incidence sets, see `domFold_eq`). -/
def domScan (I : Instance) : List Nat → List Nat → List Nat
  | _, [] => []
  | kept, node :: rest =>
    if PTrie.contains_superset (buildSupersetTrie (kept.map I.nodeList))
        (I.nodeList node) then
      node :: domScan I kept rest
    else
      domScan I (kept ++ [node]) rest

/-- Proof device: the kept nodes of the same scan. -/
def keptScan (I : Instance) : List Nat → List Nat → List Nat
  | kept, [] => kept
  | kept, node :: rest =>
    if PTrie.contains_superset (buildSupersetTrie (kept.map I.nodeList))
        (I.nodeList node) then
      keptScan I kept rest
    else
      keptScan I (kept ++ [node]) rest

/-! ## Greedy approximation (`reductions.rs::calc_greedy_approximation`) -/

/-- Strict lexicographic order on `(degree, node)` pairs: the derived
`Ord` of a Rust tuple, which `BinaryHeap` maximizes. -/
def lexLt (a b : Nat × Nat) : Bool :=
  decide (a.1 < b.1 ∨ (a.1 = b.1 ∧ a.2 < b.2))

/-- `BinaryHeap::pop` on a multiset of pairs: return the (unique) maximal
pair value and the heap with one occurrence of it removed. -/
def popMax (q : List (Nat × Nat)) :
    Option ((Nat × Nat) × List (Nat × Nat)) :=
  match q with
  | [] => none
  | x :: xs =>
    let m := xs.foldl (fun a b => if lexLt a b then b else a) x
    some (m, (x :: xs).erase m)

/-- Inner loop body: for one node of a newly hit edge, decrement its
degree if positive and push the updated entry.  State: `(node_degrees,
node_queue)`. -/
def processEdgeNode (st : List Nat × List (Nat × Nat)) (en : Nat) :
    List Nat × List (Nat × Nat) :=
  if 0 < st.1.getD en 0 then
    (st.1.set en (st.1.getD en 0 - 1),
      st.2 ++ [(st.1.getD en 0 - 1, en)])
  else st

/-- Middle loop body: for one incident edge of the chosen node, skip it if
already hit, otherwise mark it hit and update the degrees of its nodes.
State: `(hit, node_degrees, node_queue)`. -/
def processEdge (I : Instance)
    (st : List Bool × List Nat × List (Nat × Nat)) (edge : Nat) :
    List Bool × List Nat × List (Nat × Nat) :=
  if st.1.getD edge false then st
  else
    let r := (I.edgeList edge).foldl processEdgeNode (st.2.1, st.2.2)
    (st.1.set edge true, r.1, r.2)

/-- The `while let Some(...) = node_queue.pop()` loop.  The fuel only
makes the recursion structural; `calc_greedy_approximation` passes fuel
exceeding the loop's termination measure (heap size plus total size of
unhit edges), which never runs out on a well-formed instance
(`claim_C4_greedy`), so `none` models non-termination. -/
def greedyLoop (I : Instance) : Nat → List Bool → List Nat →
    List (Nat × Nat) → List Nat → Option (List Nat)
  | 0, _, _, _, _ => none
  | fuel + 1, hit, nd, q, hs =>
    match popMax q with
    | none => some hs
    | some ((degree, node), q2) =>
      if degree = 0 then some hs
      else if nd.getD node 0 < degree then greedyLoop I fuel hit nd q2 hs
      else
        let st := (I.nodeList node).foldl (processEdge I)
          (hit, nd.set node 0, q2)
        greedyLoop I fuel st.1 st.2.1 st.2.2 (hs ++ [node])

/-- Number of unhit incident edges of a node (specification device). -/
def cnt (I : Instance) (hit : List Bool) (w : Nat) : Nat :=
  ((I.nodeList w).filter fun e => !(hit.getD e false)).length

/-- Total size of the unhit edges (termination measure device). -/
def unhitWeight (I : Instance) (hit : List Bool) : Nat :=
  (((List.range hit.length).filter fun e => !(hit.getD e false)).map
    fun e => (I.edgeList e).length).sum

/-- `calc_greedy_approximation` (reductions.rs): lazy-deletion heap
greedy.  `hit` starts true everywhere except at alive edges; the heap is
seeded with `(degree, node)` for the alive nodes. -/
def calc_greedy_approximation (I : Instance) : Option (List Nat) :=
  let hit := I.aliveEdges.foldl (fun h e => h.set e false)
    (List.replicate I.num_edges_total true)
  let nd := I.aliveNodes.foldl (fun d v => d.set v (I.node_degree v))
    (List.replicate I.num_nodes_total 0)
  let q := I.aliveNodes.map fun v => (I.node_degree v, v)
  greedyLoop I (q.length + unhitWeight I hit + 1) hit nd q []

/-- The loop invariant of the greedy loop (specification device):
degrees track unhit incidence counts for alive non-chosen nodes, every
positive-degree such node has a fresh heap entry, chosen nodes have all
incident edges hit, and every hit alive edge already has a chosen
hitter. -/
def LINV (I : Instance) (hit : List Bool) (nd : List Nat)
    (q : List (Nat × Nat)) (hs : List Nat) : Prop :=
  nd.length = I.num_nodes_total ∧
  (∀ e ∈ I.aliveEdges, e < hit.length) ∧
  (∀ w ∈ I.aliveNodes, w ∉ hs → nd.getD w 0 = cnt I hit w) ∧
  (∀ p ∈ q, p.2 ∈ I.aliveNodes) ∧
  (∀ w ∈ I.aliveNodes, w ∉ hs → 0 < nd.getD w 0 →
    (nd.getD w 0, w) ∈ q) ∧
  (∀ v ∈ hs, nd.getD v 0 = 0) ∧
  (∀ v ∈ hs, ∀ e ∈ I.nodeList v, hit.getD e false = true) ∧
  (∀ e ∈ I.aliveEdges, hit.getD e false = true →
    ∃ v ∈ hs, v ∈ I.edgeList e)

/-- Invariant of the middle (edge-processing) fold, relative to the
already-chosen vertex set `hs2` (specification device). -/
def MINV (I : Instance) (hs2 : List Nat)
    (st : List Bool × List Nat × List (Nat × Nat)) : Prop :=
  (∀ e ∈ I.aliveEdges, e < st.1.length) ∧
  (∀ w ∈ I.aliveNodes, w ∉ hs2 → st.2.1.getD w 0 = cnt I st.1 w) ∧
  (∀ p ∈ st.2.2, p.2 ∈ I.aliveNodes) ∧
  (∀ w ∈ I.aliveNodes, w ∉ hs2 → 0 < st.2.1.getD w 0 →
    (st.2.1.getD w 0, w) ∈ st.2.2) ∧
  (∀ v ∈ hs2, st.2.1.getD v 0 = 0) ∧
  (∀ e ∈ I.aliveEdges, st.1.getD e false = true →
    ∃ v ∈ hs2, v ∈ I.edgeList e)

namespace SkipVec

/-- First element, or the fallback pointer. -/
def nextOf (l : List Nat) (q : Option Nat) : Option Nat :=
  match l with
  | [] => q
  | y :: _ => some y

/-- Last element, or the fallback pointer. -/
def prevOf (p : Option Nat) (l : List Nat) : Option Nat :=
  match l.getLast? with
  | none => p
  | some x => some x

/-- Variant of `Seg` with an explicit out-pointer: the last entry's `next`
is `q` instead of `none` (specification device for splitting chains). -/
def SegTo {α : Type} (v : SkipVec α) : Option Nat → List Nat → Option Nat → Prop
  | _, [], _ => True
  | p, x :: rest, q =>
    x < v.entries.length ∧ v.entryPrev x = p ∧
      v.entryNext x = nextOf rest q ∧ SegTo v (some x) rest q

end SkipVec

/-! ### Reversibility apparatus (claim C2)

A delete phase followed by the matching restores in exact reverse order.
`delFold`/`resFold` are the incidence-side folds shared by
`delete_node`/`delete_edge` and their restores; `Op` enumerates the three
delete operations of `instance.rs`. -/

/-- Apply `SkipVec::delete` at slot `p.2` of vector `p.1` for each pair. -/
def delFold (L : List (SkipVec (Nat × Nat))) (ps : List (Nat × Nat)) :
    List (SkipVec (Nat × Nat)) :=
  ps.foldl (fun acc p => acc.modify (fun sv => sv.delete p.2) p.1) L

/-- Apply `SkipVec::restore` at slot `p.2` of vector `p.1` for each pair. -/
def resFold (L : List (SkipVec (Nat × Nat))) (ps : List (Nat × Nat)) :
    List (SkipVec (Nat × Nat)) :=
  ps.foldl (fun acc p => acc.modify (fun sv => sv.restore p.2) p.1) L

namespace Instance

/-- The `(opposite, mirror-slot)` pairs of a node's live incidence entries. -/
def nodePairs (I : Instance) (v : Nat) : List (Nat × Nat) :=
  (I.nodeEntries v).map fun p => (p.2.1, p.2.2)

/-- The `(opposite, mirror-slot)` pairs of an edge's live incidence entries. -/
def edgePairs (I : Instance) (e : Nat) : List (Nat × Nat) :=
  (I.edgeEntries e).map fun p => (p.2.1, p.2.2)

/-- One delete operation of the mutation API. -/
inductive Op where
  | delNode (v : Nat)
  | delEdge (e : Nat)
  | delIncEdges (v : Nat)
  deriving Repr, DecidableEq

/-- Apply a delete operation. -/
def applyOp (I : Instance) : Op → Instance
  | .delNode v => I.delete_node v
  | .delEdge e => I.delete_edge e
  | .delIncEdges v => I.delete_incident_edges v

/-- The matching restore operation. -/
def undoOp (I : Instance) : Op → Instance
  | .delNode v => I.restore_node v
  | .delEdge e => I.restore_edge e
  | .delIncEdges v => I.restore_incident_edges v

/-- Apply a sequence of delete operations, left to right. -/
def applyAll (I : Instance) (ops : List Op) : Instance := ops.foldl applyOp I

/-- Apply the matching restore operations in exact reverse order. -/
def undoAll (I : Instance) (ops : List Op) : Instance :=
  ops.reverse.foldl undoOp I

/-- Documented preconditions of each delete operation: only alive items are
deleted, and `delete_incident_edges` expects a node already deleted by
`delete_node` (so its stale incidence list names pairwise distinct, still
alive edges). -/
def ValidOp (I : Instance) : Op → Prop
  | .delNode v => v < I.num_nodes_total ∧ I.nodes.is_deleted v = false
  | .delEdge e => e < I.num_edges_total ∧ I.edges.is_deleted e = false
  | .delIncEdges v => v < I.num_nodes_total ∧ I.nodes.is_deleted v = true ∧
      ((I.nodeEntries v).map fun p => p.2.1).Nodup ∧
      ∀ p ∈ I.nodeEntries v, p.2.1 < I.num_edges_total ∧
        I.edges.is_deleted p.2.1 = false

instance instDecidableValidOp (I : Instance) :
    (op : Op) → Decidable (ValidOp I op)
  | .delNode _ => inferInstanceAs (Decidable (_ ∧ _))
  | .delEdge _ => inferInstanceAs (Decidable (_ ∧ _))
  | .delIncEdges _ => inferInstanceAs (Decidable (_ ∧ _ ∧ _ ∧ _))

/-- Stepwise validity of a delete sequence. -/
def ValidSeq (I : Instance) : List Op → Prop
  | [] => True
  | op :: ops => ValidOp I op ∧ ValidSeq (applyOp I op) ops

instance instDecidableValidSeq (I : Instance) :
    (ops : List Op) → Decidable (ValidSeq I ops)
  | [] => .isTrue trivial
  | op :: ops =>
    have : Decidable (ValidSeq (applyOp I op) ops) :=
      instDecidableValidSeq (applyOp I op) ops
    inferInstanceAs (Decidable (_ ∧ _))

/-- Stepwise validity of a `delete_edge` run (the inner loop of
`delete_incident_edges`). -/
def ValidDEs (I : Instance) : List Nat → Prop
  | [] => True
  | e :: es => (e < I.num_edges_total ∧ I.edges.is_deleted e = false) ∧
      ValidDEs (I.delete_edge e) es

/-- The edge ids listed in a node's incidence vector, in live order. -/
def incEdgeIds (I : Instance) (v : Nat) : List Nat :=
  (I.node_incidences.getD v default).toList.map fun p => p.2.1

/-- Run `delete_edge` over a list of edges (inner loop of
`delete_incident_edges`). -/
def applyDEs (I : Instance) (es : List Nat) : Instance :=
  es.foldl Instance.delete_edge I

/-- Run `restore_edge` over the reversed list (inner loop of
`restore_incident_edges`). -/
def undoDEs (I : Instance) (es : List Nat) : Instance :=
  es.reverse.foldl Instance.restore_edge I

/-- The mirror condition on one live slot: its value names an in-range,
alive opposite vector whose named slot is live and points straight back. -/
def MirrorAt (B : List (SkipVec (Nat × Nat))) (aliveB : Nat → Bool)
    (v j : Nat) : Option (Nat × Nat) → Prop
  | none => False
  | some q =>
      q.1 < B.length ∧ aliveB q.1 = true ∧
      q.2 ∈ (B.getD q.1 default).liveIdx ∧
      SkipVec.atVal (B.getD q.1 default) q.2 = some (v, j)

instance instDecidableMirrorAt (B : List (SkipVec (Nat × Nat)))
    (aliveB : Nat → Bool) (v j : Nat) :
    (o : Option (Nat × Nat)) → Decidable (MirrorAt B aliveB v j o)
  | none => .isFalse id
  | some _ => inferInstanceAs (Decidable (_ ∧ _ ∧ _ ∧ _))

/-- One direction of the mirror invariant: every live entry of every alive
vector of `A` is correctly mirrored in `B`. -/
def MirrorHalf (A B : List (SkipVec (Nat × Nat)))
    (aliveA aliveB : Nat → Bool) : Prop :=
  ∀ v < A.length, aliveA v = true →
    ∀ j ∈ (A.getD v default).liveIdx,
      MirrorAt B aliveB v j (SkipVec.atVal (A.getD v default) j)

instance instDecidableMirrorHalf (A B : List (SkipVec (Nat × Nat)))
    (aliveA aliveB : Nat → Bool) : Decidable (MirrorHalf A B aliveA aliveB) :=
  inferInstanceAs (Decidable (∀ v < A.length, _ → ∀ j ∈ _, _))

/-- The global representation invariant of `Instance`: both id sets are
well-formed, every incidence vector is well-chained, and the two incidence
sides mirror each other on alive ids. -/
def INV (I : Instance) : Prop :=
  ContiguousIdxVec.Wf I.nodes I.num_nodes_total ∧
  ContiguousIdxVec.Wf I.edges I.num_edges_total ∧
  (∀ v < I.num_nodes_total, SkipVec.Wf (I.node_incidences.getD v default)) ∧
  (∀ e < I.num_edges_total, SkipVec.Wf (I.edge_incidences.getD e default)) ∧
  MirrorHalf I.node_incidences I.edge_incidences
    (fun v => !I.nodes.is_deleted v) (fun e => !I.edges.is_deleted e) ∧
  MirrorHalf I.edge_incidences I.node_incidences
    (fun e => !I.edges.is_deleted e) (fun v => !I.nodes.is_deleted v)

instance instDecidableINV (I : Instance) : Decidable (INV I) :=
  inferInstanceAs (Decidable (_ ∧ _ ∧ _ ∧ _ ∧ _ ∧ _))

end Instance

namespace ContiguousIdxVec

/-- Observable equivalence of two id sets: both well-formed over `0..n`,
with the same alive count and the same alive ids (the internal slot
permutation may differ). -/
def Equiv (n : Nat) (c c2 : ContiguousIdxVec) : Prop :=
  Wf c n ∧ Wf c2 n ∧ c.len = c2.len ∧
    ∀ j < n, c.is_deleted j = c2.is_deleted j

instance instDecidableEquiv (n : Nat) (c c2 : ContiguousIdxVec) :
    Decidable (Equiv n c c2) :=
  inferInstanceAs (Decidable (_ ∧ _ ∧ _ ∧ _))

end ContiguousIdxVec

namespace Instance

/-- Observable equivalence of two instances: identical incidence structure
(hence identical iteration orders, degrees and cross-references) and
observably equivalent alive id sets. -/
def IEquiv (J I : Instance) : Prop :=
  J.node_incidences = I.node_incidences ∧
  J.edge_incidences = I.edge_incidences ∧
  ContiguousIdxVec.Equiv I.num_nodes_total J.nodes I.nodes ∧
  ContiguousIdxVec.Equiv I.num_edges_total J.edges I.edges

end Instance

/-! ## Theorems -/

/-! ### Generic helpers about `Except` folds -/

theorem SkipVec.collectResults_cons {α : Type} (it : Except String α)
    (rest : List (Except String α)) :
    SkipVec.collectResults (it :: rest) =
      ((do
        let v ← it
        let vs ← SkipVec.collectResults rest
        pure (v :: vs)) : Except String (List α)) := rfl

theorem SkipVec.collectResults_error {α : Type} {e : String}
    {items : List (Except String α)} (h : Except.error e ∈ items) :
    (SkipVec.collectResults items).isOk = false := by
  induction items with
  | nil => simp at h
  | cons it rest ih =>
    rw [SkipVec.collectResults_cons]
    rcases List.mem_cons.mp h with h1 | h1
    · subst h1
      rfl
    · cases it with
      | error e' => rfl
      | ok v =>
        have h2 := ih h1
        cases hr : SkipVec.collectResults rest with
        | error e' => rfl
        | ok vs => rw [hr] at h2; simp [Except.isOk, Except.toBool] at h2

theorem SkipVec.collectResults_map_ok {α β : Type} (f : β → α) (l : List β) :
    SkipVec.collectResults (l.map fun x => Except.ok (f x)) = Except.ok (l.map f) := by
  induction l with
  | nil => rfl
  | cons b l ih => rw [List.map_cons, SkipVec.collectResults_cons, ih]; rfl

theorem foldlM_except_isOk_false {S A : Type} (step : S → A → Except String S)
    (P : S → Prop)
    (hpres : ∀ st a st', P st → step st a = .ok st' → P st') :
    ∀ (l : List A) (st : S), P st →
      (∃ a ∈ l, ∀ st2, P st2 → (step st2 a).isOk = false) →
      (l.foldlM step st).isOk = false := by
  intro l
  induction l with
  | nil => intro st _ h; simp at h
  | cons b l ih =>
    intro st hP h
    rcases h with ⟨a, ha, herr⟩
    rw [List.foldlM_cons]
    cases hs : step st b with
    | error e => rfl
    | ok st' =>
      rcases List.mem_cons.mp ha with h1 | h1
      · subst h1
        have h2 := herr st hP
        rw [hs] at h2
        simp [Except.isOk, Except.toBool] at h2
      · show (List.foldlM step st' l).isOk = false
        exact ih st' (hpres st b st' hP hs) ⟨a, h1, herr⟩

theorem foldlM_except_ok {S A : Type} (step : S → A → Except String S)
    (P : S → Prop) :
    ∀ (l : List A) (st : S), P st →
      (∀ st2 a, a ∈ l → P st2 → ∃ st3, step st2 a = .ok st3 ∧ P st3) →
      ∃ stf, l.foldlM step st = .ok stf ∧ P stf := by
  intro l
  induction l with
  | nil => intro st hP _; exact ⟨st, rfl, hP⟩
  | cons b l ih =>
    intro st hP h
    rcases h st b (List.mem_cons_self b l) hP with ⟨st', hs, hP'⟩
    rw [List.foldlM_cons, hs]
    show ∃ stf, (List.foldlM step st' l) = _ ∧ _
    exact ih st' hP' fun st2 a ha hP2 => h st2 a (List.mem_cons_of_mem b ha) hP2

/-! ### Facts about `handle_edge` -/

theorem from_entry_vec_len {α : Type} (vals : List α) :
    (SkipVec.from_entry_vec vals).len = vals.length := rfl

theorem foldl_set_length (l : List (Nat × (Nat × Nat))) (ds : List Nat) :
    (l.foldl (fun ds p => ds.set p.2.1 (ds.getD p.2.1 0 + 1)) ds).length =
      ds.length := by
  induction l generalizing ds with
  | nil => rfl
  | cons p l ih => rw [List.foldl_cons, ih, List.length_set]

theorem handle_edge_nil (st : HandlerState) :
    (Instance.handle_edge st []).isOk = false := rfl

theorem handle_edge_oob (st : HandlerState) (vs : List Nat) (x : Nat)
    (hx : x ∈ vs) (hge : st.2.length ≤ x) :
    (Instance.handle_edge st vs).isOk = false := by
  have hmem : Except.error "invalid node idx in edge" ∈ vs.map fun idx =>
      if idx < st.2.length then Except.ok ((idx, INVALID_IDX) : Nat × Nat)
      else Except.error "invalid node idx in edge" := by
    refine List.mem_map.mpr ⟨x, hx, ?_⟩
    rw [if_neg (by omega)]
  have hcol := SkipVec.collectResults_error hmem
  unfold Instance.handle_edge SkipVec.try_sorted_from
  cases hr : SkipVec.collectResults (vs.map fun idx =>
      if idx < st.2.length then Except.ok ((idx, INVALID_IDX) : Nat × Nat)
      else Except.error "invalid node idx in edge") with
  | error e => rfl
  | ok vals => rw [hr] at hcol; simp [Except.isOk, Except.toBool] at hcol

theorem handle_edge_ok (st : HandlerState) (vs : List Nat) (hne : vs ≠ [])
    (hlt : ∀ x ∈ vs, x < st.2.length) :
    ∃ st', Instance.handle_edge st vs = .ok st' ∧
      st'.2.length = st.2.length := by
  have hmap : (vs.map fun idx =>
      if idx < st.2.length then Except.ok ((idx, INVALID_IDX) : Nat × Nat)
      else Except.error "invalid node idx in edge") =
      vs.map fun idx => Except.ok ((idx, INVALID_IDX) : Nat × Nat) := by
    refine List.map_congr_left fun x hx => ?_
    rw [if_pos (hlt x hx)]
  have hred : Instance.handle_edge st vs =
      (if (SkipVec.from_entry_vec
          ((vs.map fun idx => ((idx, INVALID_IDX) : Nat × Nat)).insertionSort
            fun a b => pairLe a b = true)).len > 0 then
        Except.ok (st.1 ++ [SkipVec.from_entry_vec
          ((vs.map fun idx => ((idx, INVALID_IDX) : Nat × Nat)).insertionSort
            fun a b => pairLe a b = true)],
          (SkipVec.from_entry_vec
            ((vs.map fun idx => ((idx, INVALID_IDX) : Nat × Nat)).insertionSort
              fun a b => pairLe a b = true)).toList.foldl
            (fun ds p => ds.set p.2.1 (ds.getD p.2.1 0 + 1)) st.2)
      else Except.error "edges may not be empty") := by
    unfold Instance.handle_edge SkipVec.try_sorted_from
    rw [hmap, SkipVec.collectResults_map_ok]
    rfl
  have hlen : (SkipVec.from_entry_vec
      ((vs.map fun idx => ((idx, INVALID_IDX) : Nat × Nat)).insertionSort
        fun a b => pairLe a b = true)).len = vs.length := by
    rw [from_entry_vec_len, List.length_insertionSort, List.length_map]
  have hpos : 0 < vs.length := List.length_pos.mpr hne
  rw [hred, if_pos (by rw [hlen]; exact hpos)]
  exact ⟨_, rfl, foldl_set_length _ _⟩

theorem handle_edge_length (st : HandlerState) (a : List Nat)
    (st' : HandlerState) (h : Instance.handle_edge st a = .ok st') :
    st'.2.length = st.2.length := by
  unfold Instance.handle_edge SkipVec.try_sorted_from at h
  cases hr : SkipVec.collectResults (a.map fun idx =>
      if idx < st.2.length then Except.ok ((idx, INVALID_IDX) : Nat × Nat)
      else Except.error "invalid node idx in edge") with
  | error e => rw [hr] at h; cases h
  | ok vals =>
    rw [hr] at h
    by_cases hp : (SkipVec.from_entry_vec
        (vals.insertionSort fun a b => pairLe a b = true)).len > 0
    · have h2 : (Except.ok (st.1 ++ [SkipVec.from_entry_vec
          (vals.insertionSort fun a b => pairLe a b = true)],
          (SkipVec.from_entry_vec
            (vals.insertionSort fun a b => pairLe a b = true)).toList.foldl
            (fun ds p => ds.set p.2.1 (ds.getD p.2.1 0 + 1)) st.2) :
          Except String HandlerState) =
          Except.ok st' := by
        rw [← h]
        show _ = (if _ > 0 then _ else _)
        rw [if_pos hp]
        rfl
      cases h2
      exact foldl_set_length _ _
    · have h2 : (Except.error "edges may not be empty" :
          Except String HandlerState) = Except.ok st' := by
        rw [← h]
        show _ = (if _ > 0 then _ else _)
        rw [if_neg hp]
      cases h2

/-! ### C7: load rejects empty edges and out-of-range vertex indices -/

theorem load_from_text_cons (n m : Nat) (rest : List (List Nat)) :
    Instance.load_from_text ([n, m] :: rest) =
      ((do
        let st ← (List.range m).foldlM
          (Instance.textEdgeStep ([n, m] :: rest))
          (([], List.replicate n 0) : HandlerState)
        pure (Instance.finishLoad n m st)) : Except String Instance) := rfl

/-- C7 (confirmed).  Any parsed input with an empty edge or a vertex index
at least the declared vertex count makes `Instance::load` fail with an
error and no instance is constructed; the same holds for the text loader
(whose edge lines consist of a skipped degree followed by the vertices).
The concrete input "2 1\n0\n" is covered by the witness below. -/
theorem claim_C7_load_rejects :
    (∀ (num_nodes num_edges : Nat) (vertex_lists : List (List Nat)),
      (∃ e ∈ vertex_lists, e = [] ∨ ∃ x ∈ e, num_nodes ≤ x) →
      (Instance.load num_nodes num_edges vertex_lists).isOk = false) ∧
    (∀ (n m : Nat) (rest : List (List Nat)),
      (∃ i < m, (rest.getD i []).tail = [] ∨
        ∃ x ∈ (rest.getD i []).tail, n ≤ x) →
      (Instance.load_from_text ([n, m] :: rest)).isOk = false) := by
  constructor
  · intro N M vls h
    rcases h with ⟨ed, hed, hbad⟩
    have hfold := foldlM_except_isOk_false Instance.handle_edge
      (fun st => st.2.length = N)
      (fun st a st' hP hs => (handle_edge_length st a st' hs).trans hP)
      vls ([], List.replicate N 0) (by simp)
      ⟨ed, hed, fun st2 hP => by
        rcases hbad with h1 | ⟨x, hx, hxe⟩
        · subst h1; exact handle_edge_nil st2
        · exact handle_edge_oob st2 ed x hx (by omega)⟩
    unfold Instance.load
    cases hf : vls.foldlM Instance.handle_edge ([], List.replicate N 0) with
    | error e => rfl
    | ok st => rw [hf] at hfold; simp [Except.isOk, Except.toBool] at hfold
  · intro n m rest h
    rcases h with ⟨i, him, hbad⟩
    have hstep_nil : ∀ (st2 : HandlerState) (j : Nat), rest.getD j [] = [] →
        Instance.textEdgeStep ([n, m] :: rest) st2 j =
          Except.error "empty edge line in input, expected degree" := by
      intro st2 j hj
      unfold Instance.textEdgeStep
      rw [List.getD_cons_succ, hj]
    have hstep_cons : ∀ (st2 : HandlerState) (j d : Nat) (vs : List Nat),
        rest.getD j [] = d :: vs →
        Instance.textEdgeStep ([n, m] :: rest) st2 j =
          Instance.handle_edge st2 vs := by
      intro st2 j d vs hj
      unfold Instance.textEdgeStep
      rw [List.getD_cons_succ, hj]
    have hfold := foldlM_except_isOk_false
      (Instance.textEdgeStep ([n, m] :: rest))
      (fun st => st.2.length = n)
      (fun st a st' hP hs => by
        cases hline : rest.getD a [] with
        | nil => rw [hstep_nil st a hline] at hs; cases hs
        | cons d vs =>
          rw [hstep_cons st a d vs hline] at hs
          exact (handle_edge_length st vs st' hs).trans hP)
      (List.range m) ([], List.replicate n 0) (by simp)
      ⟨i, List.mem_range.mpr him, fun st2 hP => by
        cases hline : rest.getD i [] with
        | nil => rw [hstep_nil st2 i hline]; rfl
        | cons d vs =>
          rw [hstep_cons st2 i d vs hline]
          have htail : (rest.getD i []).tail = vs := by
            rw [hline, List.tail_cons]
          rcases hbad with h1 | ⟨x, hx, hxe⟩
          · rw [htail] at h1; subst h1; exact handle_edge_nil st2
          · rw [htail] at hx
            exact handle_edge_oob st2 vs x hx (by omega)⟩
    rw [load_from_text_cons]
    cases hf : (List.range m).foldlM (Instance.textEdgeStep ([n, m] :: rest))
        (([], List.replicate n 0) : HandlerState) with
    | error e => rfl
    | ok st => rw [hf] at hfold; simp [Except.isOk, Except.toBool] at hfold

/-- C7 witness: the spec's concrete scenario S6, the text "2 1\n0\n". -/
theorem claim_C7_witness :
    (Instance.load_from_text [[2, 1], [0]]).isOk = false :=
  claim_C7_load_rejects.2 2 1 [[0]] ⟨0, by decide, Or.inl (by decide)⟩

/-! ### C8: unsorted vertex lists are not rejected (corrected) -/

/-- C8 counterexample.  The claim says `load` fails on any input containing
an edge whose vertex list is not strictly sorted ascending.  The text input
"3 1\n2 1 0\n" has the unsorted vertex list `[1, 0]`, yet loads
successfully (`try_sorted_from` sorts the list itself). -/
theorem claim_C8_counterexample :
    (Instance.load_from_text [[3, 1], [2, 1, 0]]).isOk = true ∧
    ¬ List.Sorted (· < ·) [1, 0] := by
  exact ⟨by decide, by decide⟩

/-- C8 (corrected).  `load` does not require sortedness: any text input
whose first `M` edge lines are nonempty, have a nonempty vertex list after
the degree, and use only in-range vertex indices is accepted, whatever the
order of the vertices (each incidence list is sorted internally by
`SkipVec::try_sorted_from`). -/
theorem claim_C8_load_accepts_unsorted (n m : Nat) (rest : List (List Nat))
    (hgood : ∀ i < m, rest.getD i [] ≠ [] ∧ (rest.getD i []).tail ≠ [] ∧
      ∀ x ∈ (rest.getD i []).tail, x < n) :
    (Instance.load_from_text ([n, m] :: rest)).isOk = true := by
  have hstep_cons : ∀ (st2 : HandlerState) (j d : Nat) (vs : List Nat),
      rest.getD j [] = d :: vs →
      Instance.textEdgeStep ([n, m] :: rest) st2 j =
        Instance.handle_edge st2 vs := by
    intro st2 j d vs hj
    unfold Instance.textEdgeStep
    rw [List.getD_cons_succ, hj]
  have hfold := foldlM_except_ok
    (Instance.textEdgeStep ([n, m] :: rest))
    (fun st => st.2.length = n)
    (List.range m) ([], List.replicate n 0) (by simp)
    (fun st2 a ha hP => by
      have ham : a < m := List.mem_range.mp ha
      rcases hgood a ham with ⟨hne, htne, hlt⟩
      cases hline : rest.getD a [] with
      | nil => exact absurd hline hne
      | cons d vs =>
        rw [hstep_cons st2 a d vs hline]
        have htail : (rest.getD a []).tail = vs := by
          rw [hline, List.tail_cons]
        rw [htail] at htne hlt
        rcases handle_edge_ok st2 vs htne (fun x hx => hP ▸ hlt x hx)
          with ⟨st3, hok, hlen⟩
        exact ⟨st3, hok, hlen.trans hP⟩)
  rcases hfold with ⟨stf, hf, _⟩
  rw [load_from_text_cons, hf]
  rfl

/-- C8 witness: the unsorted input of the counterexample is accepted by the
general theorem. -/
theorem claim_C8_witness :
    (Instance.load_from_text [[3, 1], [2, 1, 0]]).isOk = true :=
  claim_C8_load_accepts_unsorted 3 1 [[2, 1, 0]] (by decide)

/-! ### C5: the max-degree bound (corrected) -/

/-- C5 counterexample.  On the loaded instance with one vertex and no
edges there are no alive edges, yet `calc_max_degree_bound` does not
return 0: the maximum alive degree is 0 and the Rust expression
`(num_edges + max_degree - 1) / max_degree` panics. -/
theorem claim_C5_counterexample :
    (loadD 1 0 []).num_edges = 0 ∧ (loadD 1 0 []).aliveNodes ≠ [] ∧
    (calc_max_degree_bound (loadD 1 0 [])).isOk = false := by
  exact ⟨by decide, by decide, by decide⟩

/-- C5 (corrected).  When the maximum alive-vertex degree `d` is positive,
`calc_max_degree_bound` returns `some ((E + d - 1) / d)`, which is the
least `k` with `k * d ≥ E` (that is, `⌈E / d⌉`).  When there are no alive
vertices it returns `None`, and when alive vertices exist but all have
degree 0 — in particular whenever the instance has alive vertices and no
alive edges — it panics instead of returning 0. -/
theorem claim_C5_max_degree_bound (I : Instance) :
    (I.aliveNodes = [] → calc_max_degree_bound I = .ok none) ∧
    (∀ d, (I.aliveNodes.map fun v => I.node_degree v).max? = some d →
      (d = 0 → (calc_max_degree_bound I).isOk = false) ∧
      (0 < d →
        calc_max_degree_bound I =
          .ok (some ((I.num_edges + d - 1) / d)) ∧
        I.num_edges ≤ ((I.num_edges + d - 1) / d) * d ∧
        (∀ k, I.num_edges ≤ k * d → (I.num_edges + d - 1) / d ≤ k))) := by
  constructor
  · intro h
    unfold calc_max_degree_bound
    rw [h]
    rfl
  · intro d hd
    have hcalc : calc_max_degree_bound I =
        if d = 0 then .error "panic: subtract with overflow / divide by zero"
        else .ok (some ((I.num_edges + d - 1) / d)) := by
      unfold calc_max_degree_bound
      rw [hd]
    constructor
    · intro h0
      rw [hcalc, if_pos h0]
      rfl
    · intro hpos
      rw [hcalc, if_neg (by omega)]
      refine ⟨rfl, ?_, ?_⟩
      · have h2 := (Nat.div_le_iff_le_mul_add_pred hpos
          (a := I.num_edges + d - 1)).mp (le_refl _)
        rw [mul_comm]
        set k := d * ((I.num_edges + d - 1) / d) with hk
        omega
      · intro k hk
        rw [Nat.div_le_iff_le_mul_add_pred hpos]
        rw [mul_comm] at hk
        omega

/-- C5 witness: on the star instance (5 vertices, 4 edges through vertex
0) the bound is `⌈4 / 4⌉ = 1`. -/
theorem claim_C5_witness :
    calc_max_degree_bound (loadD 5 4 [[0, 1], [0, 2], [0, 3], [0, 4]]) =
      .ok (some 1) := by
  have h := ((claim_C5_max_degree_bound
    (loadD 5 4 [[0, 1], [0, 2], [0, 3], [0, 4]])).2 4 (by decide)).2
    (by decide)
  exact h.1

/-! ### C10: a `None` max-degree bound prunes the branch (confirmed) -/

/-- C10 (confirmed).  `calc_max_degree_bound` returns `Ok None` exactly
when the instance has no alive vertices, and in the reduction loop the
`None` is substituted by `usize::MAX`, which always meets the breakpoint
(a `usize`), so the check fires and the branch is pruned as `Unsolvable`. -/
theorem claim_C10_none_prunes (I : Instance) (bp : Nat)
    (hbp : bp ≤ USIZE_MAX) :
    ((calc_max_degree_bound I = .ok none) ↔ I.aliveNodes = []) ∧
    (I.aliveNodes = [] → max_degree_bound_check I bp = .ok true) := by
  constructor
  · constructor
    · intro h
      cases hm : (I.aliveNodes.map fun v => I.node_degree v).max? with
      | none =>
        exact List.map_eq_nil_iff.mp (List.max?_eq_none_iff.mp hm)
      | some d =>
        have hcalc : calc_max_degree_bound I =
            if d = 0 then
              .error "panic: subtract with overflow / divide by zero"
            else .ok (some ((I.num_edges + d - 1) / d)) := by
          unfold calc_max_degree_bound
          rw [hm]
        rw [hcalc] at h
        by_cases h0 : d = 0
        · rw [if_pos h0] at h
          cases h
        · rw [if_neg h0] at h
          simp at h
    · intro h
      unfold calc_max_degree_bound
      rw [h]
      rfl
  · intro h
    unfold max_degree_bound_check calc_max_degree_bound
    rw [h]
    show Except.ok (decide (USIZE_MAX ≥ bp)) = Except.ok true
    rw [decide_eq_true hbp]

/-- C10 witness: on the empty instance the check prunes with breakpoint 1. -/
theorem claim_C10_witness :
    max_degree_bound_check (loadD 0 0 []) 1 = .ok true :=
  (claim_C10_none_prunes (loadD 0 0 []) 1 (by decide)).2 (by decide)

/-! ### C9: settings deserialization (corrected) -/

theorem lookupKey_cons_ne (k k' : String) (v : JsonVal) (obj : JsonObj)
    (h : ¬ k = k') : lookupKey ((k, v) :: obj) k' = lookupKey obj k' := by
  simp [lookupKey, List.find?, h]

theorem getBoolField_ok_isSome (obj : JsonObj) (k : String) (b : Bool)
    (h : getBoolField obj k = .ok b) : (lookupKey obj k).isSome := by
  unfold getBoolField at h
  cases hl : lookupKey obj k with
  | none => rw [hl] at h; cases h
  | some jv => rfl

theorem getNatField_ok_isSome (obj : JsonObj) (k : String) (n : Nat)
    (h : getNatField obj k = .ok n) : (lookupKey obj k).isSome := by
  unfold getNatField at h
  cases hl : lookupKey obj k with
  | none => rw [hl] at h; cases h
  | some jv => rfl

theorem getGreedyModeField_ok_isSome (obj : JsonObj) (k : String)
    (g : GreedyMode) (h : getGreedyModeField obj k = .ok g) :
    (lookupKey obj k).isSome := by
  unfold getGreedyModeField at h
  cases hl : lookupKey obj k with
  | none => rw [hl] at h; cases h
  | some jv => rfl

theorem parseSettings_ok_implies_keys (obj : JsonObj) (s : Settings)
    (h : parseSettings obj = .ok s) :
    ∀ k ∈ settingsKeys, (lookupKey obj k).isSome := by
  unfold parseSettings at h
  cases h1 : getBoolField obj "enable_local_search" with
  | error e => rw [h1] at h; cases h
  | ok els =>
  rw [h1] at h
  cases h2 : getBoolField obj "enable_max_degree_bound" with
  | error e => rw [h2] at h; cases h
  | ok emd =>
  rw [h2] at h
  cases h3 : getBoolField obj "enable_sum_degree_bound" with
  | error e => rw [h3] at h; cases h
  | ok esd =>
  rw [h3] at h
  cases h4 : getBoolField obj "enable_efficiency_bound" with
  | error e => rw [h4] at h; cases h
  | ok eeb =>
  rw [h4] at h
  cases h5 : getBoolField obj "enable_packing_bound" with
  | error e => rw [h5] at h; cases h
  | ok epb =>
  rw [h5] at h
  cases h6 : getBoolField obj "enable_sum_over_packing_bound" with
  | error e => rw [h6] at h; cases h
  | ok esp =>
  rw [h6] at h
  cases h7 : getNatField obj "packing_from_scratch_limit" with
  | error e => rw [h7] at h; cases h
  | ok pfs =>
  rw [h7] at h
  cases h8 : getGreedyModeField obj "greedy_mode" with
  | error e => rw [h8] at h; cases h
  | ok gm =>
  intro k hk
  simp only [settingsKeys, List.mem_cons, List.not_mem_nil, or_false] at hk
  rcases hk with rfl | rfl | rfl | rfl | rfl | rfl | rfl | rfl
  · exact getBoolField_ok_isSome obj _ els h1
  · exact getBoolField_ok_isSome obj _ emd h2
  · exact getBoolField_ok_isSome obj _ esd h3
  · exact getBoolField_ok_isSome obj _ eeb h4
  · exact getBoolField_ok_isSome obj _ epb h5
  · exact getBoolField_ok_isSome obj _ esp h6
  · exact getNatField_ok_isSome obj _ pfs h7
  · exact getGreedyModeField_ok_isSome obj _ gm h8

/-- C9 counterexample.  The claim says parsing rejects any JSON object with
a key outside the recognized settings; but `Settings` has no
`deny_unknown_fields` attribute, so an object with all eight recognized
keys plus an unrecognized one parses successfully. -/
theorem claim_C9_counterexample :
    (parseSettings (("mystery_key", JsonVal.jbool true) :: fullSettingsObj)).isOk
      = true ∧ "mystery_key" ∉ settingsKeys := by
  exact ⟨by decide, by decide⟩

/-- C9 (corrected).  The serde behavior is the opposite of the claim on
both counts: unknown keys are ignored (removing an unrecognized key never
changes the result), and any object missing a recognized key is rejected
(there are no defaults). -/
theorem claim_C9_settings :
    (∀ (k : String) (v : JsonVal) (obj : JsonObj), k ∉ settingsKeys →
      parseSettings ((k, v) :: obj) = parseSettings obj) ∧
    (∀ (obj : JsonObj) (k : String), k ∈ settingsKeys →
      lookupKey obj k = none → (parseSettings obj).isOk = false) := by
  constructor
  · intro k v obj hk
    have h8 : ∀ k' ∈ settingsKeys,
        lookupKey ((k, v) :: obj) k' = lookupKey obj k' := by
      intro k' hk'
      exact lookupKey_cons_ne k k' v obj fun he => hk (he ▸ hk')
    unfold parseSettings getBoolField getNatField getGreedyModeField
    rw [h8 "enable_local_search" (by decide),
        h8 "enable_max_degree_bound" (by decide),
        h8 "enable_sum_degree_bound" (by decide),
        h8 "enable_efficiency_bound" (by decide),
        h8 "enable_packing_bound" (by decide),
        h8 "enable_sum_over_packing_bound" (by decide),
        h8 "packing_from_scratch_limit" (by decide),
        h8 "greedy_mode" (by decide)]
  · intro obj k hk hnone
    cases hp : parseSettings obj with
    | error e => rfl
    | ok s =>
      have := parseSettings_ok_implies_keys obj s hp k hk
      rw [hnone] at this
      cases this

/-- C9 witness: the empty object (all recognized keys missing) is
rejected rather than filled with defaults. -/
theorem claim_C9_witness : (parseSettings ([] : JsonObj)).isOk = false :=
  claim_C9_settings.2 [] "greedy_mode" (by decide) (by decide)

/-! ### C3: the set tries (corrected) -/

theorem chain_lt_of_mem :
    ∀ (l : List Nat) (a x : Nat), List.Chain (· < ·) a l → x ∈ l → a < x := by
  intro l
  induction l with
  | nil => intro a x _ hx; simp at hx
  | cons b l ih =>
    intro a x hc hx
    rcases List.chain_cons.mp hc with ⟨hab, hcl⟩
    rcases List.mem_cons.mp hx with rfl | hx2
    · exact hab
    · exact lt_trans hab (ih b x hcl hx2)

theorem sublist_of_subset_sorted :
    ∀ (S Q : List Nat), List.Pairwise (· < ·) S → List.Pairwise (· < ·) Q →
      (∀ x ∈ S, x ∈ Q) → S.Sublist Q := by
  intro S Q hS hQ hsub
  induction Q generalizing S with
  | nil =>
    cases S with
    | nil => exact List.Sublist.refl _
    | cons a S' => exact absurd (hsub a (by simp)) (by simp)
  | cons b Q' ih =>
    cases S with
    | nil => exact List.nil_sublist _
    | cons a S' =>
      by_cases hab : a = b
      · subst hab
        refine List.Sublist.cons₂ a (ih S'
          (hS.sublist (List.sublist_cons_self a S'))
          (hQ.sublist (List.sublist_cons_self a Q')) ?_)
        intro x hx
        have hxa : a < x := (List.pairwise_cons.mp hS).1 x hx
        rcases List.mem_cons.mp (hsub x (List.mem_cons_of_mem a hx))
          with h1 | h1
        · omega
        · exact h1
      · refine List.Sublist.cons b (ih (a :: S') hS
          (hQ.sublist (List.sublist_cons_self b Q')) ?_)
        intro x hx
        rcases List.mem_cons.mp (hsub x hx) with h1 | h1
        · subst h1
          rcases List.mem_cons.mp hx with h2 | h2
          · exact absurd h2.symm hab
          · have hab2 : a < x := (List.pairwise_cons.mp hS).1 x h2
            rcases List.mem_cons.mp (hsub a (by simp)) with h3 | h3
            · omega
            · have : x < a := (List.pairwise_cons.mp hQ).1 a h3
              omega
        · exact h1

theorem lookupChild_updateChild {M : Type} (k : Nat) (f : STrie M → STrie M)
    (dflt : STrie M) (j : Nat) :
    ∀ (cs : List (Nat × STrie M)),
      STrie.lookupChild (STrie.updateChild cs k f dflt) j =
        if j = k then
          (match STrie.lookupChild cs k with
           | some c => some (f c)
           | none => some dflt)
        else STrie.lookupChild cs j := by
  intro cs
  induction cs with
  | nil =>
    by_cases hj : j = k
    · subst hj; simp [STrie.updateChild, STrie.lookupChild]
    · simp [STrie.updateChild, STrie.lookupChild, hj]
  | cons pr cs' ih =>
    obtain ⟨k', c⟩ := pr
    by_cases hk : k = k'
    · subst hk
      by_cases hj : j = k
      · subst hj; simp [STrie.updateChild, STrie.lookupChild]
      · simp [STrie.updateChild, STrie.lookupChild, hj]
    · by_cases hj : j = k'
      · subst hj
        have hjk : ¬ j = k := fun h => hk h.symm
        simp [STrie.updateChild, STrie.lookupChild, hk, hjk]
      · simp [STrie.updateChild, STrie.lookupChild, hk, hj, ih]

theorem markerAt_empty {M : Type} (d : M) (p : List Nat) :
    STrie.markerAt d (STrie.empty d) p = d := by
  cases p with
  | nil => rfl
  | cons k rest => rfl

theorem markerAt_insert {M : Type} (d mark : M) :
    ∀ (S : List Nat) (t : STrie M) (p : List Nat),
      STrie.markerAt d (STrie.insert d mark t S) p =
        if p = S then mark else STrie.markerAt d t p := by
  intro S
  induction S with
  | nil =>
    intro t p
    obtain ⟨m0, cs⟩ := t
    cases p with
    | nil => simp [STrie.insert, STrie.markerAt, STrie.marker]
    | cons j p' => simp [STrie.insert, STrie.markerAt, STrie.children]
  | cons k S' ih =>
    intro t p
    obtain ⟨m0, cs⟩ := t
    cases p with
    | nil => simp [STrie.insert, STrie.markerAt, STrie.marker]
    | cons j p' =>
      have hm : STrie.markerAt d (STrie.insert d mark (STrie.mk m0 cs) (k :: S'))
          (j :: p') =
          match STrie.lookupChild (STrie.updateChild cs k
            (fun c => STrie.insert d mark c S')
            (STrie.insert d mark (STrie.empty d) S')) j with
          | some c => STrie.markerAt d c p'
          | none => d := rfl
      rw [hm, lookupChild_updateChild]
      by_cases hj : j = k
      · subst hj
        rw [if_pos rfl]
        cases hl : STrie.lookupChild cs j with
        | some c =>
          show STrie.markerAt d (STrie.insert d mark c S') p' = _
          rw [ih]
          by_cases hp : p' = S'
          · subst hp; rw [if_pos rfl, if_pos rfl]
          · rw [if_neg hp, if_neg (by simp [hp])]
            show _ = (match STrie.lookupChild cs j with
              | some c => STrie.markerAt d c p'
              | none => d)
            rw [hl]
        | none =>
          show STrie.markerAt d (STrie.insert d mark (STrie.empty d) S') p' = _
          rw [ih]
          by_cases hp : p' = S'
          · subst hp; rw [if_pos rfl, if_pos rfl]
          · rw [markerAt_empty, if_neg hp, if_neg (by simp [hp])]
            show _ = (match STrie.lookupChild cs j with
              | some c => STrie.markerAt d c p'
              | none => d)
            rw [hl]
      · rw [if_neg hj, if_neg (by simp [hj])]
        rfl

theorem ifne_ne_iff {M : Type} [DecidableEq M] (d r s : M) :
    (if r ≠ d then r else s) ≠ d ↔ (r ≠ d ∨ s ≠ d) := by
  by_cases hr : r ≠ d
  · rw [if_pos hr]; exact ⟨fun _ => Or.inl hr, fun _ => hr⟩
  · rw [if_neg hr]
    push_neg at hr
    constructor
    · exact fun h => Or.inr h
    · rintro (h | h)
      · exact absurd hr h
      · exact h

theorem findScan_ne_iff {M : Type} (d : M) [DecidableEq M] :
    ∀ (q : List Nat) (cs : List (Nat × STrie M)),
      STrie.findScan d cs q ≠ d ↔
        ∃ k c p', STrie.lookupChild cs k = some c ∧
          (k :: p').Sublist q ∧ STrie.markerAt d c p' ≠ d := by
  intro q
  induction q with
  | nil =>
    intro cs
    constructor
    · intro h; exact absurd rfl h
    · rintro ⟨k, c, p', _, hsub, _⟩
      cases hsub
  | cons a rest ih =>
    intro cs
    cases hl : STrie.lookupChild cs a with
    | none =>
      have he : STrie.findScan d cs (a :: rest) = STrie.findScan d cs rest := by
        simp [STrie.findScan, hl]
      rw [he, ih]
      constructor
      · rintro ⟨k, c, p', hlk, hsub, hm⟩
        exact ⟨k, c, p', hlk, hsub.cons a, hm⟩
      · rintro ⟨k, c, p', hlk, hsub, hm⟩
        cases hsub with
        | cons _ h1 => exact ⟨k, c, p', hlk, h1, hm⟩
        | cons₂ _ h1 => rw [hlk] at hl; cases hl
    | some c =>
      have he : STrie.findScan d cs (a :: rest) =
          if (if c.marker ≠ d then c.marker
            else STrie.findScan d c.children rest) ≠ d then
            (if c.marker ≠ d then c.marker
              else STrie.findScan d c.children rest)
          else STrie.findScan d cs rest := by
        simp [STrie.findScan, hl]
      rw [he, ifne_ne_iff, ifne_ne_iff, ih, ih]
      constructor
      · rintro ((hm | ⟨k', c', p', hlk, hsub, hm⟩) | ⟨k, c0, p', hlk, hsub, hm⟩)
        · exact ⟨a, c, [], hl,
            List.Sublist.cons₂ a (List.nil_sublist rest), hm⟩
        · refine ⟨a, c, k' :: p', hl, List.Sublist.cons₂ a hsub, ?_⟩
          show (match STrie.lookupChild c.children k' with
            | some c2 => STrie.markerAt d c2 p'
            | none => d) ≠ d
          rw [hlk]
          exact hm
        · exact ⟨k, c0, p', hlk, hsub.cons a, hm⟩
      · rintro ⟨k, c0, p', hlk, hsub, hm⟩
        cases hsub with
        | cons _ h1 => exact Or.inr ⟨k, c0, p', hlk, h1, hm⟩
        | cons₂ _ h1 =>
          rw [hl] at hlk
          cases hlk
          cases hp : p' with
          | nil =>
            subst hp
            exact Or.inl (Or.inl hm)
          | cons j p'' =>
            subst hp
            have hm2 : (match STrie.lookupChild c.children j with
                | some c2 => STrie.markerAt d c2 p''
                | none => d) ≠ d := hm
            cases hlj : STrie.lookupChild c.children j with
            | none => rw [hlj] at hm2; exact absurd rfl hm2
            | some c2 =>
              rw [hlj] at hm2
              exact Or.inl (Or.inr ⟨j, c2, p'', hlj, h1, hm2⟩)

theorem find_subset_ne_iff {M : Type} (d : M) [DecidableEq M] (t : STrie M)
    (q : List Nat) :
    STrie.find_subset d t q ≠ d ↔
      ∃ p, p.Sublist q ∧ STrie.markerAt d t p ≠ d := by
  unfold STrie.find_subset
  by_cases hm : t.marker ≠ d
  · rw [if_pos hm]
    exact ⟨fun _ => ⟨[], List.nil_sublist q, hm⟩, fun _ => hm⟩
  · rw [if_neg hm]
    push_neg at hm
    rw [findScan_ne_iff]
    constructor
    · rintro ⟨k, c, p', hlk, hsub, hmm⟩
      refine ⟨k :: p', hsub, ?_⟩
      show (match STrie.lookupChild t.children k with
        | some c2 => STrie.markerAt d c2 p'
        | none => d) ≠ d
      rw [hlk]
      exact hmm
    · rintro ⟨p, hsub, hmm⟩
      cases p with
      | nil => exact absurd hm hmm
      | cons k p' =>
        have hm2 : (match STrie.lookupChild t.children k with
            | some c2 => STrie.markerAt d c2 p'
            | none => d) ≠ d := hmm
        cases hlk : STrie.lookupChild t.children k with
        | none => rw [hlk] at hm2; exact absurd rfl hm2
        | some c =>
          rw [hlk] at hm2
          exact ⟨k, c, p', hlk, hsub, hm2⟩

theorem markerAt_build {M : Type} (d : M) :
    ∀ (inserts : List (M × List Nat)) (t : STrie M) (p : List Nat),
      (∀ pr ∈ inserts, pr.1 ≠ d) →
      (STrie.markerAt d
        (inserts.foldl (fun t pr => STrie.insert d pr.1 t pr.2) t) p ≠ d ↔
        STrie.markerAt d t p ≠ d ∨ ∃ pr ∈ inserts, pr.2 = p) := by
  intro inserts
  induction inserts with
  | nil => intro t p _; simp
  | cons pr rest ih =>
    intro t p hmarks
    rw [List.foldl_cons, ih _ p (fun x hx => hmarks x (List.mem_cons_of_mem pr hx)),
      markerAt_insert]
    by_cases hp : p = pr.2
    · subst hp
      rw [if_pos rfl]
      simp only [List.mem_cons]
      constructor
      · intro _; exact Or.inr ⟨pr, Or.inl rfl, rfl⟩
      · intro _; exact Or.inl (hmarks pr (List.mem_cons_self pr rest))
    · rw [if_neg hp]
      simp only [List.mem_cons]
      constructor
      · rintro (h | ⟨x, hx, hxe⟩)
        · exact Or.inl h
        · exact Or.inr ⟨x, Or.inr hx, hxe⟩
      · rintro (h | ⟨x, hx | hx, hxe⟩)
        · exact Or.inl h
        · subst hx; exact absurd hxe.symm hp
        · exact Or.inr ⟨x, hx, hxe⟩

theorem exists_mem_cons_pair {α : Type} (j a : Nat) (b : α) (l : List (Nat × α))
    (P : α → Prop) :
    (∃ c', (j, c') ∈ ((a, b) :: l) ∧ P c') ↔
      ((j = a ∧ P b) ∨ ∃ c', (j, c') ∈ l ∧ P c') := by
  constructor
  · rintro ⟨c', hm, hp⟩
    rcases List.mem_cons.mp hm with he | hm'
    · rw [Prod.mk.injEq] at he
      obtain ⟨rfl, rfl⟩ := he
      exact Or.inl ⟨rfl, hp⟩
    · exact Or.inr ⟨c', hm', hp⟩
  · rintro (⟨rfl, hp⟩ | ⟨c', hm', hp⟩)
    · exact ⟨b, List.mem_cons_self _ _, hp⟩
    · exact ⟨c', List.mem_cons_of_mem _ hm', hp⟩

theorem pathMem_emptyP (p : List Nat) :
    PTrie.PathMem PTrie.emptyP p ↔ p = [] := by
  cases p with
  | nil => simp [PTrie.PathMem]
  | cons k p' => simp [PTrie.PathMem, PTrie.emptyP, PTrie.children]

theorem pathMem_insertSortedChild (k : Nat) (rest : List Nat)
    (f : PTrie → PTrie) (dflt : PTrie)
    (hf : ∀ c p, PTrie.PathMem (f c) p ↔ PTrie.PathMem c p ∨ p <+: rest)
    (hd : ∀ p, PTrie.PathMem dflt p ↔ p <+: rest) :
    ∀ (cs : List (Nat × PTrie)) (j : Nat) (p : List Nat),
      (∃ c', (j, c') ∈ PTrie.insertSortedChild cs k f dflt ∧
        PTrie.PathMem c' p) ↔
      ((∃ c, (j, c) ∈ cs ∧ PTrie.PathMem c p) ∨ (j = k ∧ p <+: rest)) := by
  intro cs
  induction cs with
  | nil =>
    intro j p
    rw [PTrie.insertSortedChild, exists_mem_cons_pair, hd]
    simp
  | cons pr cs' ih =>
    intro j p
    obtain ⟨k', c0⟩ := pr
    by_cases h1 : k < k'
    · rw [show PTrie.insertSortedChild ((k', c0) :: cs') k f dflt =
        (k, dflt) :: (k', c0) :: cs' by rw [PTrie.insertSortedChild, if_pos h1]]
      simp only [exists_mem_cons_pair, hd]
      generalize (∃ c', (j, c') ∈ cs' ∧ PTrie.PathMem c' p) = A
      tauto
    · by_cases h2 : k = k'
      · subst h2
        rw [show PTrie.insertSortedChild ((k, c0) :: cs') k f dflt =
          (k, f c0) :: cs' by
            rw [PTrie.insertSortedChild, if_neg h1, if_pos rfl]]
        simp only [exists_mem_cons_pair, hf]
        generalize (∃ c', (j, c') ∈ cs' ∧ PTrie.PathMem c' p) = A
        tauto
      · rw [show PTrie.insertSortedChild ((k', c0) :: cs') k f dflt =
          (k', c0) :: PTrie.insertSortedChild cs' k f dflt by
            rw [PTrie.insertSortedChild, if_neg h1, if_neg h2]]
        simp only [exists_mem_cons_pair, ih]
        generalize (∃ c', (j, c') ∈ cs' ∧ PTrie.PathMem c' p) = A
        tauto

theorem pathMem_insertP :
    ∀ (S : List Nat) (t : PTrie) (p : List Nat),
      PTrie.PathMem (PTrie.insertP t S) p ↔
        (PTrie.PathMem t p ∨ p <+: S) := by
  intro S
  induction S with
  | nil =>
    intro t p
    obtain ⟨b, cs⟩ := t
    cases p with
    | nil => simp [PTrie.PathMem]
    | cons j p' =>
      rw [show PTrie.insertP (PTrie.mk b cs) [] = PTrie.mk true cs from rfl]
      simp only [PTrie.PathMem, PTrie.children]
      constructor
      · exact fun h => Or.inl h
      · rintro (h | hpre)
        · exact h
        · rcases hpre with ⟨t2, ht2⟩
          cases ht2
  | cons k S' ih =>
    intro t p
    obtain ⟨b, cs⟩ := t
    have hd : ∀ p, PTrie.PathMem (PTrie.insertP PTrie.emptyP S') p ↔
        p <+: S' := by
      intro p2
      rw [ih, pathMem_emptyP]
      constructor
      · rintro (rfl | h)
        · exact List.nil_prefix
        · exact h
      · exact fun h => Or.inr h
    cases p with
    | nil => simp [PTrie.PathMem]
    | cons j p' =>
      rw [show PTrie.insertP (PTrie.mk b cs) (k :: S') =
        PTrie.mk b (PTrie.insertSortedChild cs k (fun c => PTrie.insertP c S')
          (PTrie.insertP PTrie.emptyP S')) from rfl]
      show (∃ c', (j, c') ∈ PTrie.insertSortedChild cs k _ _ ∧
        PTrie.PathMem c' p') ↔ _
      rw [pathMem_insertSortedChild k S' _ _ (fun c p2 => ih c p2) hd]
      show _ ↔ ((∃ c, (j, c) ∈ cs ∧ PTrie.PathMem c p') ∨ (j :: p') <+: (k :: S'))
      rw [List.cons_prefix_cons]

theorem pathMem_build :
    ∀ (sets : List (List Nat)) (t : PTrie) (p : List Nat),
      PTrie.PathMem (sets.foldl (fun t S => PTrie.insertP t S) t) p ↔
        PTrie.PathMem t p ∨ ∃ S ∈ sets, p <+: S := by
  intro sets
  induction sets with
  | nil => intro t p; simp
  | cons S rest ih =>
    intro t p
    rw [List.foldl_cons, ih, pathMem_insertP]
    simp only [List.mem_cons]
    constructor
    · rintro ((h | h) | ⟨S', hS', hp⟩)
      · exact Or.inl h
      · exact Or.inr ⟨S, Or.inl rfl, h⟩
      · exact Or.inr ⟨S', Or.inr hS', hp⟩
    · rintro (h | ⟨S', hS' | hS', hp⟩)
      · exact Or.inl (Or.inl h)
      · subst hS'; exact Or.inl (Or.inr hp)
      · exact Or.inr ⟨S', hS', hp⟩

theorem children_ne_nil_iff (t : PTrie) :
    t.children ≠ [] ↔ ∃ k p, PTrie.PathMem t (k :: p) := by
  constructor
  · intro h
    cases hc : t.children with
    | nil => exact absurd hc h
    | cons pr cs' =>
      obtain ⟨k, c⟩ := pr
      refine ⟨k, [], c, ?_, trivial⟩
      rw [hc]
      exact List.mem_cons_self _ _
  · rintro ⟨k, p, c, hm, _⟩ hc
    rw [hc] at hm
    cases hm

theorem mem_rangeDesc_iff (cs : List (Nat × PTrie)) (lo : Option Nat)
    (hi : Nat) (pr : Nat × PTrie) :
    pr ∈ PTrie.rangeDesc cs lo hi ↔
      pr ∈ cs ∧ (∀ a, lo = some a → a < pr.1) ∧ pr.1 ≤ hi := by
  rw [PTrie.rangeDesc, List.mem_reverse, List.mem_filter]
  cases lo with
  | none => simp
  | some a => simp

theorem goC_spec :
    ∀ (n : Nat) (ds : List (Nat × PTrie)), sizeOf ds ≤ n →
      ∀ (q : Nat) (qrest : List Nat),
        (∀ pr ∈ ds, pr.1 ≤ q ∧
          (∀ p, PTrie.PathMem pr.2 p → List.Chain (· < ·) pr.1 p)) →
        List.Chain (· < ·) q qrest →
        (PTrie.goC ds (q :: qrest) = true ↔
          ∃ k c p, (k, c) ∈ ds ∧ PTrie.PathMem c p ∧
            (q :: qrest).Sublist (k :: p)) := by
  intro n
  induction n with
  | zero =>
    intro ds hsz
    exfalso
    cases ds with
    | nil => simp at hsz
    | cons pr rest => simp at hsz
  | succ n ih =>
    intro ds hsz q qrest hds hq
    cases ds with
    | nil =>
      constructor
      · intro h; rw [show PTrie.goC [] (q :: qrest) = false from by
          simp [PTrie.goC]] at h; cases h
      · rintro ⟨k, c, p, hm, _, _⟩; cases hm
    | cons pr rest =>
      obtain ⟨k, c⟩ := pr
      have hsz2 : sizeOf ((k, c) :: rest) ≤ n + 1 := hsz
      have hszr : sizeOf rest ≤ n := by simp at hsz2 ⊢; omega
      have hhd := hds (k, c) (List.mem_cons_self _ _)
      have hkq : k ≤ q := hhd.1
      have hchc := hhd.2
      have hdsr : ∀ pr ∈ rest, pr.1 ≤ q ∧
          (∀ p, PTrie.PathMem pr.2 p → List.Chain (· < ·) pr.1 p) :=
        fun pr hpr => hds pr (List.mem_cons_of_mem _ hpr)
      have hszrange : ∀ lo hi, sizeOf (PTrie.rangeDesc c.children lo hi) ≤ n := by
        intro lo hi
        have := PTrie.sizeOf_rangeDesc_lt k c rest lo hi
        omega
      have hdsrange : ∀ lo hi, ∀ pr ∈ PTrie.rangeDesc c.children lo hi,
          pr.1 ≤ hi ∧
          (∀ p, PTrie.PathMem pr.2 p → List.Chain (· < ·) pr.1 p) := by
        intro lo hi pr hpr
        rw [mem_rangeDesc_iff] at hpr
        refine ⟨hpr.2.2, fun p hp => ?_⟩
        have hpm : PTrie.PathMem c (pr.1 :: p) := ⟨pr.2, hpr.1, hp⟩
        exact (List.chain_cons.mp (hchc _ hpm)).2
      have hrest_iff := ih rest hszr q qrest hdsr hq
      by_cases hkeq : k = q
      · subst hkeq
        cases qrest with
        | nil =>
          have heq : PTrie.goC ((k, c) :: rest) [k] = true := by
            simp [PTrie.goC]
          rw [heq]
          simp only [true_iff]
          exact ⟨k, c, [], List.mem_cons_self _ _, trivial,
            List.Sublist.refl _⟩
        | cons q' qrest' =>
          have heq : PTrie.goC ((k, c) :: rest) (k :: q' :: qrest') =
              (PTrie.goC (PTrie.rangeDesc c.children (some k) q')
                (q' :: qrest') || PTrie.goC rest (k :: q' :: qrest')) := by
            simp [PTrie.goC]
          have hq2 := List.chain_cons.mp hq
          have hinner_iff := ih (PTrie.rangeDesc c.children (some k) q')
            (hszrange _ _) q' qrest' (hdsrange _ _) hq2.2
          rw [heq, Bool.or_eq_true, hinner_iff, hrest_iff]
          constructor
          · rintro (⟨k', c', p', hm', hp', hsub'⟩ | ⟨k0, c0, p0, hm0, hp0, hsub0⟩)
            · rw [mem_rangeDesc_iff] at hm'
              exact ⟨k, c, k' :: p', List.mem_cons_self _ _,
                ⟨c', hm'.1, hp'⟩, List.Sublist.cons₂ k hsub'⟩
            · exact ⟨k0, c0, p0, List.mem_cons_of_mem _ hm0, hp0, hsub0⟩
          · rintro ⟨k0, c0, p0, hm0, hp0, hsub0⟩
            rcases List.mem_cons.mp hm0 with he | hm0'
            · rw [Prod.mk.injEq] at he
              obtain ⟨rfl, rfl⟩ := he
              cases hsub0 with
              | cons _ h1 =>
                exfalso
                have hkmem : k0 ∈ p0 := h1.subset (List.mem_cons_self _ _)
                have := chain_lt_of_mem p0 k0 k0 (hchc _ hp0) hkmem
                omega
              | cons₂ _ h1 =>
                cases p0 with
                | nil => cases h1
                | cons j p0' =>
                  obtain ⟨c', hmc, hp'⟩ := hp0
                  have hchain2 := List.chain_cons.mp
                    (hchc _ ⟨c', hmc, hp'⟩)
                  have hjq' : j ≤ q' := by
                    cases h1 with
                    | cons₂ _ h2 => omega
                    | cons _ h2 =>
                      have : j < q' := chain_lt_of_mem p0' j q' hchain2.2
                        (h2.subset (List.mem_cons_self _ _))
                      omega
                  refine Or.inl ⟨j, c', p0', ?_, hp', h1⟩
                  rw [mem_rangeDesc_iff]
                  exact ⟨hmc, fun a ha => by cases ha; exact hchain2.1, hjq'⟩
            · exact Or.inr ⟨k0, c0, p0, hm0', hp0, hsub0⟩
      · have heq : PTrie.goC ((k, c) :: rest) (q :: qrest) =
            (PTrie.goC (PTrie.rangeDesc c.children (some k) q) (q :: qrest) ||
              PTrie.goC rest (q :: qrest)) := by
          rw [PTrie.goC.eq_def]
          simp [hkeq]
        have hinner_iff := ih (PTrie.rangeDesc c.children (some k) q)
          (hszrange _ _) q qrest (hdsrange _ _) hq
        rw [heq, Bool.or_eq_true, hinner_iff, hrest_iff]
        constructor
        · rintro (⟨k', c', p', hm', hp', hsub'⟩ | ⟨k0, c0, p0, hm0, hp0, hsub0⟩)
          · rw [mem_rangeDesc_iff] at hm'
            exact ⟨k, c, k' :: p', List.mem_cons_self _ _,
              ⟨c', hm'.1, hp'⟩, hsub'.cons k⟩
          · exact ⟨k0, c0, p0, List.mem_cons_of_mem _ hm0, hp0, hsub0⟩
        · rintro ⟨k0, c0, p0, hm0, hp0, hsub0⟩
          rcases List.mem_cons.mp hm0 with he | hm0'
          · rw [Prod.mk.injEq] at he
            obtain ⟨rfl, rfl⟩ := he
            cases hsub0 with
            | cons₂ _ h1 => exact absurd rfl hkeq
            | cons _ h1 =>
              cases p0 with
              | nil => cases h1
              | cons j p0' =>
                obtain ⟨c', hmc, hp'⟩ := hp0
                have hchain2 := List.chain_cons.mp
                  (hchc _ ⟨c', hmc, hp'⟩)
                have hjq : j ≤ q := by
                  cases h1 with
                  | cons₂ _ h2 => omega
                  | cons _ h2 =>
                    have : j < q := chain_lt_of_mem p0' j q hchain2.2
                      (h2.subset (List.mem_cons_self _ _))
                    omega
                refine Or.inl ⟨j, c', p0', ?_, hp', h1⟩
                rw [mem_rangeDesc_iff]
                exact ⟨hmc, fun a ha => by cases ha; exact hchain2.1, hjq⟩
          · exact Or.inr ⟨k0, c0, p0, hm0', hp0, hsub0⟩

/-- C3 counterexample.  With only the empty set inserted, the superset trie
answers `false` for the empty query even though the empty set is a superset
of the empty query: `contains_superset` returns `children.len() > 1` for an
empty query, and inserting the empty set creates no trie nodes. -/
theorem claim_C3_counterexample :
    PTrie.contains_superset (PTrie.insertP PTrie.emptyP []) [] = false ∧
    (∀ x ∈ ([] : List Nat), x ∈ ([] : List Nat)) :=
  ⟨by decide, by simp⟩

/-- What `contains_superset` answers on a trie built by folding inserts of
strictly ascending sets, for a strictly ascending query: for a nonempty
query, whether some inserted set is a superset; for the empty query,
whether some nonempty set was inserted. -/
theorem contains_superset_build (sets : List (List Nat)) (Q : List Nat)
    (hsets : ∀ S ∈ sets, List.Pairwise (· < ·) S)
    (hQ : List.Pairwise (· < ·) Q) :
    (Q ≠ [] → (PTrie.contains_superset (buildSupersetTrie sets) Q = true ↔
      ∃ S ∈ sets, ∀ x ∈ Q, x ∈ S)) ∧
    (Q = [] → (PTrie.contains_superset (buildSupersetTrie sets) Q = true ↔
      ∃ S ∈ sets, S ≠ [])) := by
  have hbuildmem : ∀ p, PTrie.PathMem (buildSupersetTrie sets) p ↔
      p = [] ∨ ∃ S ∈ sets, p <+: S := by
    intro p
    rw [buildSupersetTrie, pathMem_build, pathMem_emptyP]
  refine ⟨?_, ?_⟩
  · intro hne
    cases Q with
    | nil => exact absurd rfl hne
    | cons q0 qrest =>
      rw [show PTrie.contains_superset (buildSupersetTrie sets) (q0 :: qrest) =
        PTrie.goC (PTrie.rangeDesc (buildSupersetTrie sets).children none q0)
          (q0 :: qrest) from rfl]
      have hqchain : List.Chain (· < ·) q0 qrest :=
        List.chain'_iff_pairwise.mpr hQ
      have hds : ∀ pr ∈ PTrie.rangeDesc (buildSupersetTrie sets).children
          none q0, pr.1 ≤ q0 ∧
          (∀ p, PTrie.PathMem pr.2 p → List.Chain (· < ·) pr.1 p) := by
        intro pr hpr
        rw [mem_rangeDesc_iff] at hpr
        refine ⟨hpr.2.2, fun p hp => ?_⟩
        have hpm : PTrie.PathMem (buildSupersetTrie sets) (pr.1 :: p) :=
          ⟨pr.2, hpr.1, hp⟩
        rw [hbuildmem] at hpm
        rcases hpm with hpm | ⟨S, hS, hpre⟩
        · cases hpm
        · have hpw : List.Pairwise (· < ·) (pr.1 :: p) :=
            (hsets S hS).sublist hpre.sublist
          exact List.chain'_iff_pairwise.mpr hpw
      rw [goC_spec (sizeOf (PTrie.rangeDesc (buildSupersetTrie sets).children
        none q0)) _ (le_refl _) q0 qrest hds hqchain]
      constructor
      · rintro ⟨k, c, p, hm, hp, hsub⟩
        rw [mem_rangeDesc_iff] at hm
        have hpm : PTrie.PathMem (buildSupersetTrie sets) (k :: p) :=
          ⟨c, hm.1, hp⟩
        rw [hbuildmem] at hpm
        rcases hpm with hpm | ⟨S, hS, hpre⟩
        · cases hpm
        · exact ⟨S, hS, fun x hx => (hsub.trans hpre.sublist).subset hx⟩
      · rintro ⟨S, hS, hsubset⟩
        have hq0S : q0 ∈ S := hsubset q0 (List.mem_cons_self _ _)
        cases hSc : S with
        | nil => rw [hSc] at hq0S; cases hq0S
        | cons s0 S' =>
          subst hSc
          have hpm : PTrie.PathMem (buildSupersetTrie sets) (s0 :: S') := by
            rw [hbuildmem]
            exact Or.inr ⟨s0 :: S', hS, List.prefix_refl _⟩
          obtain ⟨c, hmc, hp⟩ := hpm
          refine ⟨s0, c, S', ?_, hp, sublist_of_subset_sorted _ _ hQ
            (hsets _ hS) hsubset⟩
          rw [mem_rangeDesc_iff]
          refine ⟨hmc, ⟨fun a ha => Option.noConfusion ha, ?_⟩⟩
          rcases List.mem_cons.mp hq0S with h1 | h1
          · omega
          · have : s0 < q0 := (List.pairwise_cons.mp (hsets _ hS)).1 q0 h1
            omega
  · intro hq0
    subst hq0
    have hiff : PTrie.contains_superset (buildSupersetTrie sets) [] = true ↔
        (buildSupersetTrie sets).children ≠ [] := by
      rw [show PTrie.contains_superset (buildSupersetTrie sets) [] =
        !(buildSupersetTrie sets).children.isEmpty from rfl]
      cases hc : (buildSupersetTrie sets).children <;> simp
    rw [hiff, children_ne_nil_iff]
    constructor
    · rintro ⟨k, p, hpm⟩
      rw [hbuildmem] at hpm
      rcases hpm with hpm | ⟨S, hS, hpre⟩
      · cases hpm
      · refine ⟨S, hS, ?_⟩
        rcases hpre with ⟨t, ht⟩
        rw [← ht]
        simp
    · rintro ⟨S, hS, hne⟩
      cases hSc : S with
      | nil => exact absurd hSc hne
      | cons s0 S' =>
        subst hSc
        refine ⟨s0, S', ?_⟩
        rw [hbuildmem]
        exact Or.inr ⟨s0 :: S', hS, List.prefix_refl _⟩

/-- C3 (corrected).  For families of strictly ascending sets and a strictly
ascending query: `find_subset` returns a non-default mark iff one of the
inserted sets is a subset of the query (provided the marks inserted are not
the default); `contains_superset` returns true iff one of the inserted sets
is a superset of the query — except for the empty query, for which it
returns true iff some nonempty set was inserted (so it wrongly answers
false when only the empty set is stored). -/
theorem claim_C3_tries {M : Type} [DecidableEq M] (d : M)
    (inserts : List (M × List Nat)) (sets : List (List Nat)) (Q : List Nat)
    (hmarks : ∀ pr ∈ inserts, pr.1 ≠ d)
    (hsorted : ∀ pr ∈ inserts, List.Pairwise (· < ·) pr.2)
    (hsets : ∀ S ∈ sets, List.Pairwise (· < ·) S)
    (hQ : List.Pairwise (· < ·) Q) :
    (STrie.find_subset d (buildSubsetTrie d inserts) Q ≠ d ↔
      ∃ pr ∈ inserts, ∀ x ∈ pr.2, x ∈ Q) ∧
    (Q ≠ [] → (PTrie.contains_superset (buildSupersetTrie sets) Q = true ↔
      ∃ S ∈ sets, ∀ x ∈ Q, x ∈ S)) ∧
    (Q = [] → (PTrie.contains_superset (buildSupersetTrie sets) Q = true ↔
      ∃ S ∈ sets, S ≠ [])) := by
  refine ⟨?_, (contains_superset_build sets Q hsets hQ).1,
    (contains_superset_build sets Q hsets hQ).2⟩
  rw [find_subset_ne_iff]
  constructor
  · rintro ⟨p, hsub, hm⟩
    rw [buildSubsetTrie, markerAt_build d inserts _ p hmarks,
      markerAt_empty] at hm
    rcases hm with hm | ⟨pr, hpr, hpe⟩
    · exact absurd rfl hm
    · exact ⟨pr, hpr, fun x hx => hsub.subset (hpe ▸ hx)⟩
  · rintro ⟨pr, hpr, hsubset⟩
    refine ⟨pr.2, sublist_of_subset_sorted pr.2 Q (hsorted pr hpr) hQ
      hsubset, ?_⟩
    rw [buildSubsetTrie, markerAt_build d inserts _ pr.2 hmarks]
    exact Or.inr ⟨pr, hpr, rfl⟩

/-- C3 witness: three inserted sets, a query finding a subset and a query
with a stored superset. -/
theorem claim_C3_witness :
    (STrie.find_subset 0 (buildSubsetTrie 0 [(5, [1, 3]), (7, [2])])
      [1, 2, 3] ≠ 0) ∧
    PTrie.contains_superset (buildSupersetTrie [[1, 3, 5], [2, 4]])
      [3, 5] = true := by
  constructor
  · exact (claim_C3_tries 0 [(5, [1, 3]), (7, [2])] [] [1, 2, 3]
      (by decide) (by decide) (by simp) (by decide)).1.mpr
      ⟨(5, [1, 3]), by decide, by decide⟩
  · exact ((claim_C3_tries (0 : Nat) [] [[1, 3, 5], [2, 4]] [3, 5]
      (by simp) (by simp) (by decide) (by decide)).2.1 (by decide)).mpr
      ⟨[1, 3, 5], by decide, by decide⟩

/-! ### Vertex domination -/

theorem buildSupersetTrie_concat (sets : List (List Nat)) (S : List Nat) :
    buildSupersetTrie (sets ++ [S]) =
      PTrie.insertP (buildSupersetTrie sets) S := by
  simp [buildSupersetTrie, List.foldl_append]

theorem domFold_eq (I : Instance) : ∀ nodes kept acc,
    nodes.foldl (domStep I)
      (buildSupersetTrie (kept.map I.nodeList), acc) =
      (buildSupersetTrie ((keptScan I kept nodes).map I.nodeList),
        acc ++ domScan I kept nodes) := by
  intro nodes
  induction nodes with
  | nil => intro kept acc; simp [keptScan, domScan]
  | cons node rest ih =>
    intro kept acc
    rw [List.foldl_cons]
    by_cases hc : PTrie.contains_superset
        (buildSupersetTrie (kept.map I.nodeList)) (I.nodeList node) = true
    · rw [show domStep I (buildSupersetTrie (kept.map I.nodeList), acc)
          node = (buildSupersetTrie (kept.map I.nodeList), acc ++ [node])
        from by simp [domStep, hc]]
      rw [ih kept (acc ++ [node])]
      simp [keptScan, domScan, hc]
    · rw [show domStep I (buildSupersetTrie (kept.map I.nodeList), acc)
          node =
          (buildSupersetTrie ((kept ++ [node]).map I.nodeList), acc)
        from by simp [domStep, hc, buildSupersetTrie_concat]]
      rw [ih (kept ++ [node]) acc]
      simp [keptScan, domScan, hc]

theorem find_dominated_nodes_eq (I : Instance) :
    find_dominated_nodes I = domScan I [] (sortedAliveNodes I) := by
  have h := domFold_eq I (sortedAliveNodes I) [] []
  unfold find_dominated_nodes
  rw [show (PTrie.emptyP, ([] : List Nat)) =
    (buildSupersetTrie ((([] : List Nat)).map I.nodeList), ([] : List Nat))
    from rfl]
  rw [h]
  simp

theorem keptScan_initial (I : Instance) : ∀ nodes kept,
    kept <+: keptScan I kept nodes := by
  intro nodes
  induction nodes with
  | nil => intro kept; simp [keptScan]
  | cons node rest ih =>
    intro kept
    by_cases hc : PTrie.contains_superset
        (buildSupersetTrie (kept.map I.nodeList)) (I.nodeList node) = true
    · rw [show keptScan I kept (node :: rest) = keptScan I kept rest from
        by simp [keptScan, hc]]
      exact ih kept
    · rw [show keptScan I kept (node :: rest) =
        keptScan I (kept ++ [node]) rest from by simp [keptScan, hc]]
      exact List.IsPrefix.trans ⟨[node], rfl⟩ (ih (kept ++ [node]))

theorem keptScan_domScan_perm (I : Instance) : ∀ nodes kept : List Nat,
    (kept ++ nodes).Perm
      (keptScan I kept nodes ++ domScan I kept nodes) := by
  intro nodes
  induction nodes with
  | nil => intro kept; simp [keptScan, domScan]
  | cons node rest ih =>
    intro kept
    by_cases hc : PTrie.contains_superset
        (buildSupersetTrie (kept.map I.nodeList)) (I.nodeList node) = true
    · rw [show keptScan I kept (node :: rest) = keptScan I kept rest from
        by simp [keptScan, hc]]
      rw [show domScan I kept (node :: rest) =
        node :: domScan I kept rest from by simp [domScan, hc]]
      exact List.perm_middle.trans
        (((ih kept).cons node).trans List.perm_middle.symm)
    · rw [show keptScan I kept (node :: rest) =
        keptScan I (kept ++ [node]) rest from by simp [keptScan, hc]]
      rw [show domScan I kept (node :: rest) =
        domScan I (kept ++ [node]) rest from by simp [domScan, hc]]
      have h := ih (kept ++ [node])
      simpa using h

theorem sortedHyp_tail {I : Instance} {kept rest : List Nat} {node : Nat}
    (h : ∀ u, u ∈ kept ++ node :: rest →
      List.Pairwise (· < ·) (I.nodeList u)) :
    ∀ u, u ∈ kept ++ rest → List.Pairwise (· < ·) (I.nodeList u) := by
  intro u hu
  apply h u
  simp at hu ⊢
  tauto

theorem sortedHyp_move {I : Instance} {kept rest : List Nat} {node : Nat}
    (h : ∀ u, u ∈ kept ++ node :: rest →
      List.Pairwise (· < ·) (I.nodeList u)) :
    ∀ u, u ∈ (kept ++ [node]) ++ rest →
      List.Pairwise (· < ·) (I.nodeList u) := by
  intro u hu
  apply h u
  simp at hu ⊢
  tauto

theorem sortedHyp_sets {I : Instance} {kept rest : List Nat}
    (h : ∀ u, u ∈ kept ++ rest → List.Pairwise (· < ·) (I.nodeList u)) :
    ∀ S ∈ kept.map I.nodeList, List.Pairwise (· < ·) S := by
  intro S hS
  obtain ⟨u, hu, rfl⟩ := List.mem_map.mp hS
  exact h u (List.mem_append_left _ hu)

theorem domScan_witness (I : Instance) : ∀ nodes kept,
    (∀ u, u ∈ kept ++ nodes → List.Pairwise (· < ·) (I.nodeList u)) →
    ∀ v ∈ domScan I kept nodes,
      ∃ w ∈ keptScan I kept nodes,
        ∀ x ∈ I.nodeList v, x ∈ I.nodeList w := by
  intro nodes
  induction nodes with
  | nil => intro kept _ v hv; simp [domScan] at hv
  | cons node rest ih =>
    intro kept hsrt v hv
    by_cases hc : PTrie.contains_superset
        (buildSupersetTrie (kept.map I.nodeList)) (I.nodeList node) = true
    · rw [show domScan I kept (node :: rest) =
        node :: domScan I kept rest from by simp [domScan, hc]] at hv
      rw [show keptScan I kept (node :: rest) = keptScan I kept rest from
        by simp [keptScan, hc]]
      rcases List.mem_cons.mp hv with rfl | hv2
      · have hsets := sortedHyp_sets (sortedHyp_tail hsrt)
        have hQ : List.Pairwise (· < ·) (I.nodeList v) :=
          hsrt v (List.mem_append_right _ (List.mem_cons_self _ _))
        have hcb := contains_superset_build (kept.map I.nodeList)
          (I.nodeList v) hsets hQ
        by_cases hql : I.nodeList v = []
        · obtain ⟨S, hS, -⟩ := (hcb.2 hql).mp hc
          obtain ⟨w, hw, rfl⟩ := List.mem_map.mp hS
          refine ⟨w, (keptScan_initial I rest kept).subset hw, ?_⟩
          intro x hx
          rw [hql] at hx
          cases hx
        · obtain ⟨S, hS, hsup⟩ := (hcb.1 hql).mp hc
          obtain ⟨w, hw, rfl⟩ := List.mem_map.mp hS
          exact ⟨w, (keptScan_initial I rest kept).subset hw, hsup⟩
      · obtain ⟨w, hw, hsup⟩ := ih kept (sortedHyp_tail hsrt) v hv2
        exact ⟨w, hw, hsup⟩
    · rw [show domScan I kept (node :: rest) =
        domScan I (kept ++ [node]) rest from by simp [domScan, hc]] at hv
      rw [show keptScan I kept (node :: rest) =
        keptScan I (kept ++ [node]) rest from by simp [keptScan, hc]]
      exact ih (kept ++ [node]) (sortedHyp_move hsrt) v hv

theorem domScan_removes (I : Instance) : ∀ nodes kept,
    (∀ u, u ∈ kept ++ nodes → List.Pairwise (· < ·) (I.nodeList u)) →
    ∀ v ∈ nodes, I.nodeList v ≠ [] →
    (∃ w ∈ kept, ∀ x ∈ I.nodeList v, x ∈ I.nodeList w) →
    v ∈ domScan I kept nodes := by
  intro nodes
  induction nodes with
  | nil => intro kept _ v hv; cases hv
  | cons node rest ih =>
    intro kept hsrt v hv hvne hwit
    obtain ⟨w, hw, hsup⟩ := hwit
    by_cases hveq : v = node
    · subst hveq
      have hsets := sortedHyp_sets (sortedHyp_tail hsrt)
      have hQ : List.Pairwise (· < ·) (I.nodeList v) :=
        hsrt v (List.mem_append_right _ (List.mem_cons_self _ _))
      have hc : PTrie.contains_superset
          (buildSupersetTrie (kept.map I.nodeList)) (I.nodeList v) = true :=
        ((contains_superset_build _ _ hsets hQ).1 hvne).mpr
          ⟨I.nodeList w, List.mem_map_of_mem _ hw, hsup⟩
      rw [show domScan I kept (v :: rest) = v :: domScan I kept rest from
        by simp [domScan, hc]]
      exact List.mem_cons_self _ _
    · have hv2 : v ∈ rest := by
        rcases List.mem_cons.mp hv with h | h
        · exact absurd h hveq
        · exact h
      by_cases hc : PTrie.contains_superset
          (buildSupersetTrie (kept.map I.nodeList)) (I.nodeList node) = true
      · rw [show domScan I kept (node :: rest) =
          node :: domScan I kept rest from by simp [domScan, hc]]
        exact List.mem_cons_of_mem _
          (ih kept (sortedHyp_tail hsrt) v hv2 hvne ⟨w, hw, hsup⟩)
      · rw [show domScan I kept (node :: rest) =
          domScan I (kept ++ [node]) rest from by simp [domScan, hc]]
        exact ih (kept ++ [node]) (sortedHyp_move hsrt) v hv2 hvne
          ⟨w, List.mem_append_left _ hw, hsup⟩

theorem domScan_twins (I : Instance) : ∀ nodes kept,
    (∀ u, u ∈ kept ++ nodes → List.Pairwise (· < ·) (I.nodeList u)) →
    ∀ v1 v2, v1 ∈ nodes → v2 ∈ nodes → v1 ≠ v2 →
    I.nodeList v1 = I.nodeList v2 → I.nodeList v1 ≠ [] →
    (v1 ∈ domScan I kept nodes ∨ v2 ∈ domScan I kept nodes) := by
  intro nodes
  induction nodes with
  | nil => intro kept _ v1 v2 h1 _ _ _ _; cases h1
  | cons node rest ih =>
    intro kept hsrt v1 v2 h1 h2 hne heq hnonempty
    by_cases hc : PTrie.contains_superset
        (buildSupersetTrie (kept.map I.nodeList)) (I.nodeList node) = true
    · rw [show domScan I kept (node :: rest) =
        node :: domScan I kept rest from by simp [domScan, hc]]
      rcases List.mem_cons.mp h1 with e1 | h1r
      · exact Or.inl (List.mem_cons.mpr (Or.inl e1))
      rcases List.mem_cons.mp h2 with e2 | h2r
      · exact Or.inr (List.mem_cons.mpr (Or.inl e2))
      rcases ih kept (sortedHyp_tail hsrt) v1 v2 h1r h2r hne heq
          hnonempty with h | h
      · exact Or.inl (List.mem_cons_of_mem _ h)
      · exact Or.inr (List.mem_cons_of_mem _ h)
    · rw [show domScan I kept (node :: rest) =
        domScan I (kept ++ [node]) rest from by simp [domScan, hc]]
      rcases List.mem_cons.mp h1 with e1 | h1r
      · have h2r : v2 ∈ rest := by
          rcases List.mem_cons.mp h2 with e2 | h2r
          · exact absurd (e1.trans e2.symm) hne
          · exact h2r
        refine Or.inr (domScan_removes I rest (kept ++ [node])
          (sortedHyp_move hsrt) v2 h2r ?_ ⟨v1, ?_, ?_⟩)
        · rw [← heq]; exact hnonempty
        · rw [e1]
          exact List.mem_append_right _ (List.mem_cons_self _ _)
        · intro x hx
          rw [heq]
          exact hx
      · rcases List.mem_cons.mp h2 with e2 | h2r
        · refine Or.inl (domScan_removes I rest (kept ++ [node])
            (sortedHyp_move hsrt) v1 h1r hnonempty ⟨v2, ?_, ?_⟩)
          · rw [e2]
            exact List.mem_append_right _ (List.mem_cons_self _ _)
          · intro x hx
            rw [← heq]
            exact hx
        · exact ih (kept ++ [node]) (sortedHyp_move hsrt) v1 v2 h1r h2r
            hne heq hnonempty

/-- C6 counterexample.  In the instance with edges `{0,1,2}` and `{0}`,
nodes 1 and 2 are alive with identical nonempty incidence sets, yet BOTH
are reported dominated in the single pass (node 0's set `{0,1}` stays in
the trie and dominates each of them in turn), contradicting "at most one
of them is reported as dominated". -/
theorem claim_C6_counterexample :
    (loadD 3 2 [[0, 1, 2], [0]]).nodeList 1 =
      (loadD 3 2 [[0, 1, 2], [0]]).nodeList 2 ∧
    (loadD 3 2 [[0, 1, 2], [0]]).nodeList 1 ≠ [] ∧
    1 ∈ find_dominated_nodes (loadD 3 2 [[0, 1, 2], [0]]) ∧
    2 ∈ find_dominated_nodes (loadD 3 2 [[0, 1, 2], [0]]) := by
  have hc0 : PTrie.contains_superset (buildSupersetTrie []) [0, 1] =
      false := by
    cases hb : PTrie.contains_superset (buildSupersetTrie []) [0, 1] with
    | false => rfl
    | true =>
      obtain ⟨S, hS, -⟩ := ((contains_superset_build [] [0, 1] (by simp)
        (by decide)).1 (by decide)).mp hb
      cases hS
  have hc1 : PTrie.contains_superset (buildSupersetTrie [[0, 1]]) [0] =
      true :=
    ((contains_superset_build [[0, 1]] [0] (by decide) (by decide)).1
      (by decide)).mpr ⟨[0, 1], by decide, by decide⟩
  have hn0 : (loadD 3 2 [[0, 1, 2], [0]]).nodeList 0 = [0, 1] := by decide
  have hn1 : (loadD 3 2 [[0, 1, 2], [0]]).nodeList 1 = [0] := by decide
  have hn2 : (loadD 3 2 [[0, 1, 2], [0]]).nodeList 2 = [0] := by decide
  have hfd : find_dominated_nodes (loadD 3 2 [[0, 1, 2], [0]]) =
      [1, 2] := by
    rw [find_dominated_nodes_eq]
    rw [show sortedAliveNodes (loadD 3 2 [[0, 1, 2], [0]]) = [0, 1, 2]
      from by decide]
    simp [domScan, hn0, hn1, hn2, hc0, hc1]
  refine ⟨by decide, by decide, ?_, ?_⟩ <;> rw [hfd] <;> decide

/-- C6 (corrected).  For a single domination pass over an instance whose
alive-node list is duplicate-free and whose incidence lists are strictly
ascending: (1) every node reported dominated has a witness node that is
alive, not itself removed in the pass, and whose incidence set contains
the removed node's; (2) for two distinct alive nodes with identical
nonempty incidence sets, at LEAST one of the two is always reported
dominated (and possibly both, see the counterexample) — not "at most
one" as claimed. -/
theorem claim_C6_domination (I : Instance)
    (hnd : I.aliveNodes.Nodup)
    (hs : ∀ v ∈ I.aliveNodes, List.Pairwise (· < ·) (I.nodeList v)) :
    (∀ v ∈ find_dominated_nodes I, ∃ w, w ∈ I.aliveNodes ∧
      w ∉ find_dominated_nodes I ∧
      ∀ x ∈ I.nodeList v, x ∈ I.nodeList w) ∧
    (∀ v1 v2, v1 ∈ I.aliveNodes → v2 ∈ I.aliveNodes → v1 ≠ v2 →
      I.nodeList v1 = I.nodeList v2 → I.nodeList v1 ≠ [] →
      (v1 ∈ find_dominated_nodes I ∨ v2 ∈ find_dominated_nodes I)) := by
  have hperm0 : (sortedAliveNodes I).Perm I.aliveNodes :=
    List.perm_insertionSort _ _
  have hsrt : ∀ u, u ∈ ([] : List Nat) ++ sortedAliveNodes I →
      List.Pairwise (· < ·) (I.nodeList u) := by
    intro u hu
    rw [List.nil_append] at hu
    exact hs u (hperm0.subset hu)
  have hperm := keptScan_domScan_perm I (sortedAliveNodes I) []
  rw [List.nil_append] at hperm
  have hnd2 : (keptScan I [] (sortedAliveNodes I) ++
      domScan I [] (sortedAliveNodes I)).Nodup :=
    hperm.nodup_iff.mp (hperm0.nodup_iff.mpr hnd)
  obtain ⟨hndK, hndD, hdisj⟩ := List.nodup_append.mp hnd2
  constructor
  · intro v hv
    rw [find_dominated_nodes_eq] at hv
    obtain ⟨w, hwK, hsup⟩ :=
      domScan_witness I (sortedAliveNodes I) [] hsrt v hv
    refine ⟨w, ?_, ?_, hsup⟩
    · exact hperm0.subset (hperm.symm.subset (List.mem_append_left _ hwK))
    · rw [find_dominated_nodes_eq]
      exact fun hwD => hdisj hwK hwD
  · intro v1 v2 h1 h2 hne heq hnonempty
    rw [find_dominated_nodes_eq]
    exact domScan_twins I (sortedAliveNodes I) [] hsrt v1 v2
      (hperm0.mem_iff.mpr h1) (hperm0.mem_iff.mpr h2) hne heq hnonempty

/-- C6 witness: the amended at-least-one-removed property applied to the
concrete twins 1 and 2. -/
theorem claim_C6_witness :
    1 ∈ find_dominated_nodes (loadD 3 2 [[0, 1, 2], [0]]) ∨
    2 ∈ find_dominated_nodes (loadD 3 2 [[0, 1, 2], [0]]) :=
  (claim_C6_domination (loadD 3 2 [[0, 1, 2], [0]]) (by decide)
    (by decide)).2 1 2 (by decide) (by decide) (by decide) (by decide)
    (by decide)

/-! ### Greedy approximation -/

theorem getD_set_self {α : Type} {l : List α} {i : Nat} {a d : α}
    (h : i < l.length) : (l.set i a).getD i d = a := by
  simp [List.getD, List.getElem?_set, h]

theorem getD_set_other {α : Type} {l : List α} {i j : Nat} {a d : α}
    (h : i ≠ j) : (l.set i a).getD j d = l.getD j d := by
  simp [List.getD, List.getElem?_set, h]

theorem lexLt_self (a : Nat × Nat) : lexLt a a = false := by
  simp [lexLt]

theorem foldl_max_mem (xs : List (Nat × Nat)) : ∀ x : Nat × Nat,
    xs.foldl (fun a b => if lexLt a b then b else a) x ∈ x :: xs := by
  induction xs with
  | nil => intro x; simp
  | cons b bs ih =>
    intro x
    rw [List.foldl_cons]
    have h := ih (if lexLt x b then b else x)
    rcases List.mem_cons.mp h with h1 | h1
    · rw [h1]
      by_cases hb : lexLt x b
      · simp [hb]
      · simp [hb]
    · exact List.mem_cons_of_mem _ (List.mem_cons_of_mem _ h1)

theorem foldl_max_ge (xs : List (Nat × Nat)) : ∀ x : Nat × Nat,
    ∀ y ∈ x :: xs,
    lexLt (xs.foldl (fun a b => if lexLt a b then b else a) x) y = false := by
  induction xs with
  | nil =>
    intro x y hy
    rcases List.mem_cons.mp hy with rfl | h
    · exact lexLt_self y
    · cases h
  | cons b bs ih =>
    intro x y hy
    rw [List.foldl_cons]
    by_cases hb : lexLt x b = true
    · rw [if_pos hb]
      rcases List.mem_cons.mp hy with rfl | h
      · have hgb := ih b b (List.mem_cons_self b bs)
        simp [lexLt] at hb hgb ⊢
        omega
      · exact ih b y h
    · rw [if_neg hb]
      rcases List.mem_cons.mp hy with rfl | h
      · exact ih y y (List.mem_cons_self y bs)
      · rcases List.mem_cons.mp h with rfl | h2
        · have hgx := ih x x (List.mem_cons_self x bs)
          simp [lexLt] at hb hgx ⊢
          omega
        · exact ih x y (List.mem_cons_of_mem _ h2)

theorem popMax_none {q : List (Nat × Nat)} : popMax q = none ↔ q = [] := by
  cases q <;> simp [popMax]

theorem popMax_some {q : List (Nat × Nat)} {m : Nat × Nat}
    {q2 : List (Nat × Nat)} (h : popMax q = some (m, q2)) :
    m ∈ q ∧ q2 = q.erase m ∧ ∀ y ∈ q, lexLt m y = false := by
  cases q with
  | nil => cases h
  | cons x xs =>
    simp [popMax] at h
    obtain ⟨rfl, rfl⟩ := h
    exact ⟨foldl_max_mem xs x, rfl, foldl_max_ge xs x⟩

theorem sum_filter_update (f : Nat → Nat) :
    ∀ (l : List Nat) (p p2 : Nat → Bool) (e : Nat), l.Nodup → e ∈ l →
    p e = true → p2 e = false → (∀ x ∈ l, x ≠ e → p2 x = p x) →
    ((l.filter p2).map f).sum + f e = ((l.filter p).map f).sum := by
  intro l
  induction l with
  | nil => intro p p2 e _ he; cases he
  | cons a l ih =>
    intro p p2 e hnd he hpe hpe2 hagree
    rcases List.mem_cons.mp he with rfl | he2
    · have hnotin : e ∉ l := (List.nodup_cons.mp hnd).1
      have hfeq : l.filter p2 = l.filter p := by
        apply List.filter_congr
        intro x hx
        exact hagree x (List.mem_cons_of_mem _ hx)
          (fun hxe => hnotin (hxe ▸ hx))
      rw [List.filter_cons, List.filter_cons]
      simp [hpe, hpe2, hfeq]
      omega
    · have hae : a ≠ e := fun h => (List.nodup_cons.mp hnd).1 (h ▸ he2)
      have hpa := hagree a (List.mem_cons_self _ _) hae
      have ihh := ih p p2 e (List.nodup_cons.mp hnd).2 he2 hpe hpe2
        (fun x hx hxe => hagree x (List.mem_cons_of_mem _ hx) hxe)
      rw [List.filter_cons, List.filter_cons, hpa]
      by_cases hpab : p a = true
      · simp [hpab]
        omega
      · rw [Bool.not_eq_true] at hpab
        simp [hpab]
        omega

theorem sum_map_one (l : List Nat) :
    (l.map fun _ => (1 : Nat)).sum = l.length := by
  induction l with
  | nil => rfl
  | cons a l ih => simp [ih]; omega

theorem length_filter_update (l : List Nat) (p p2 : Nat → Bool) (e : Nat)
    (hnd : l.Nodup) (he : e ∈ l) (hpe : p e = true) (hpe2 : p2 e = false)
    (hagree : ∀ x ∈ l, x ≠ e → p2 x = p x) :
    (l.filter p2).length + 1 = (l.filter p).length := by
  have h := sum_filter_update (fun _ => 1) l p p2 e hnd he hpe hpe2 hagree
  rw [sum_map_one, sum_map_one] at h
  exact h

theorem cnt_set_true_mem {I : Instance} {hit : List Bool} {e0 w : Nat}
    (he0 : e0 < hit.length) (hunhit : hit.getD e0 false = false)
    (hnd : (I.nodeList w).Nodup) (hmem : e0 ∈ I.nodeList w) :
    cnt I (hit.set e0 true) w + 1 = cnt I hit w := by
  unfold cnt
  exact length_filter_update (I.nodeList w)
    (fun e => !(hit.getD e false))
    (fun e => !((hit.set e0 true).getD e false))
    e0 hnd hmem
    (by show (!(hit.getD e0 false)) = true
        rw [hunhit]
        rfl)
    (by show (!((hit.set e0 true).getD e0 false)) = false
        rw [getD_set_self he0]
        rfl)
    (fun x hx hxe => by
      show (!((hit.set e0 true).getD x false)) = (!(hit.getD x false))
      rw [getD_set_other (fun h => hxe h.symm)])

theorem cnt_set_true_notmem {I : Instance} {hit : List Bool} {e0 w : Nat}
    (hxmem : e0 ∉ I.nodeList w) :
    cnt I (hit.set e0 true) w = cnt I hit w := by
  unfold cnt
  congr 1
  apply List.filter_congr
  intro x hx
  have hne : e0 ≠ x := fun h => hxmem (h ▸ hx)
  show (!((hit.set e0 true).getD x false)) = (!(hit.getD x false))
  rw [getD_set_other hne]

theorem unhitWeight_set_true (I : Instance) (hit : List Bool) (e0 : Nat)
    (he0 : e0 < hit.length) (hunhit : hit.getD e0 false = false) :
    unhitWeight I (hit.set e0 true) + (I.edgeList e0).length =
      unhitWeight I hit := by
  unfold unhitWeight
  rw [List.length_set]
  exact sum_filter_update (fun e => (I.edgeList e).length)
    (List.range hit.length) _ _ e0 (List.nodup_range _)
    (List.mem_range.mpr he0)
    (by show (!(hit.getD e0 false)) = true
        rw [hunhit]
        rfl)
    (by show (!((hit.set e0 true).getD e0 false)) = false
        rw [getD_set_self he0]
        rfl)
    (fun x hx hxe => by
      show (!((hit.set e0 true).getD x false)) = (!(hit.getD x false))
      rw [getD_set_other (fun h => hxe h.symm)])

theorem cnt_pos_of_unhit {I : Instance} {hit : List Bool} {e0 w : Nat}
    (hmem : e0 ∈ I.nodeList w) (hunhit : hit.getD e0 false = false) :
    0 < cnt I hit w := by
  unfold cnt
  exact List.length_pos_of_mem
    (List.mem_filter.mpr ⟨hmem, by
      show (!(hit.getD e0 false)) = true
      rw [hunhit]
      rfl⟩)

theorem getD_pos_lt_length {l : List Nat} {w : Nat}
    (h : 0 < l.getD w 0) : w < l.length := by
  by_contra hge
  rw [List.getD_eq_default _ _ (Nat.le_of_not_lt hge)] at h
  omega

theorem processEdgeNode_skip {nd : List Nat} {q : List (Nat × Nat)}
    {en : Nat} (h : nd.getD en 0 = 0) :
    processEdgeNode (nd, q) en = (nd, q) := by
  unfold processEdgeNode
  rw [if_neg (by show ¬ 0 < nd.getD en 0; omega)]

theorem processEdgeNode_dec {nd : List Nat} {q : List (Nat × Nat)}
    {en : Nat} (h : 0 < nd.getD en 0) :
    processEdgeNode (nd, q) en =
      (nd.set en (nd.getD en 0 - 1), q ++ [(nd.getD en 0 - 1, en)]) := by
  unfold processEdgeNode
  rw [if_pos (show 0 < nd.getD en 0 from h)]

theorem innerFold_spec (I : Instance)
    (H2 : ∀ e ∈ I.aliveEdges, ∀ v ∈ I.edgeList e,
      v ∈ I.aliveNodes ∧ e ∈ I.nodeList v)
    (H3 : ∀ v ∈ I.aliveNodes, (I.nodeList v).Nodup)
    (e0 : Nat) (he0a : e0 ∈ I.aliveEdges)
    (hit : List Bool) (he0 : e0 < hit.length)
    (hunhit : hit.getD e0 false = false)
    (hs2 : List Nat) :
    ∀ rem : List Nat, (∀ w ∈ rem, w ∈ I.edgeList e0) → rem.Nodup →
    ∀ nd q,
    (∀ w ∈ I.aliveNodes, w ∉ hs2 →
      nd.getD w 0 = (if w ∈ rem then cnt I hit w
        else cnt I (hit.set e0 true) w)) →
    (∀ p ∈ q, p.2 ∈ I.aliveNodes) →
    (∀ w ∈ I.aliveNodes, w ∉ hs2 → 0 < nd.getD w 0 →
      (nd.getD w 0, w) ∈ q) →
    (∀ v ∈ hs2, nd.getD v 0 = 0) →
    ((∀ w ∈ I.aliveNodes, w ∉ hs2 →
       (rem.foldl processEdgeNode (nd, q)).1.getD w 0 =
         cnt I (hit.set e0 true) w) ∧
     (∀ p ∈ (rem.foldl processEdgeNode (nd, q)).2,
       p.2 ∈ I.aliveNodes) ∧
     (∀ w ∈ I.aliveNodes, w ∉ hs2 →
       0 < (rem.foldl processEdgeNode (nd, q)).1.getD w 0 →
       ((rem.foldl processEdgeNode (nd, q)).1.getD w 0, w) ∈
         (rem.foldl processEdgeNode (nd, q)).2) ∧
     (∀ v ∈ hs2, (rem.foldl processEdgeNode (nd, q)).1.getD v 0 = 0) ∧
     (rem.foldl processEdgeNode (nd, q)).2.length ≤
       q.length + rem.length ∧
     (rem.foldl processEdgeNode (nd, q)).1.length = nd.length) := by
  intro rem
  induction rem with
  | nil =>
    intro _ _ nd q hP2 hP3 hP4 hP5
    refine ⟨?_, hP3, hP4, hP5, by simp, rfl⟩
    intro w hw hwhs
    have h := hP2 w hw hwhs
    simpa using h
  | cons w0 rem2 ih =>
    intro hsub hnd nd q hP2 hP3 hP4 hP5
    rw [List.foldl_cons]
    have hw0e : w0 ∈ I.edgeList e0 := hsub w0 (List.mem_cons_self _ _)
    have hw0alive : w0 ∈ I.aliveNodes := (H2 e0 he0a w0 hw0e).1
    have he0w0 : e0 ∈ I.nodeList w0 := (H2 e0 he0a w0 hw0e).2
    have hw0nin : w0 ∉ rem2 := (List.nodup_cons.mp hnd).1
    by_cases hw0hs : w0 ∈ hs2
    · have hz : nd.getD w0 0 = 0 := hP5 w0 hw0hs
      rw [processEdgeNode_skip hz]
      have hp2new : ∀ w ∈ I.aliveNodes, w ∉ hs2 →
          nd.getD w 0 = (if w ∈ rem2 then cnt I hit w
            else cnt I (hit.set e0 true) w) := by
        intro w hw hwhs
        have h := hP2 w hw hwhs
        by_cases hwr : w ∈ rem2
        · rw [if_pos hwr]
          rw [if_pos (List.mem_cons_of_mem _ hwr)] at h
          exact h
        · have hwne : ¬ w = w0 := fun he => hwhs (he ▸ hw0hs)
          have hnotc : w ∉ w0 :: rem2 := by
            intro hc
            rcases List.mem_cons.mp hc with h1 | h1
            · exact hwne h1
            · exact hwr h1
          rw [if_neg hwr]
          rw [if_neg hnotc] at h
          exact h
      have hres := ih (fun w hw => hsub w (List.mem_cons_of_mem _ hw))
        (List.nodup_cons.mp hnd).2 nd q hp2new hP3 hP4 hP5
      obtain ⟨c1, c2, c3, c4, c5, c6⟩ := hres
      exact ⟨c1, c2, c3, c4, by simp only [List.length_cons]; omega, c6⟩
    · have hcv : nd.getD w0 0 = cnt I hit w0 := by
        have h := hP2 w0 hw0alive hw0hs
        rw [if_pos (List.mem_cons_self _ _)] at h
        exact h
      have hpos : 0 < nd.getD w0 0 := by
        rw [hcv]
        exact cnt_pos_of_unhit he0w0 hunhit
      have hw0lt : w0 < nd.length := getD_pos_lt_length hpos
      have hcntnew : cnt I (hit.set e0 true) w0 = nd.getD w0 0 - 1 := by
        have h := cnt_set_true_mem he0 hunhit (H3 w0 hw0alive) he0w0
        omega
      rw [processEdgeNode_dec hpos]
      have hp2new : ∀ w ∈ I.aliveNodes, w ∉ hs2 →
          (nd.set w0 (nd.getD w0 0 - 1)).getD w 0 =
            (if w ∈ rem2 then cnt I hit w
              else cnt I (hit.set e0 true) w) := by
        intro w hw hwhs
        by_cases hwe : w = w0
        · subst hwe
          rw [getD_set_self hw0lt, if_neg hw0nin, hcntnew]
        · rw [getD_set_other (fun h => hwe h.symm)]
          have h := hP2 w hw hwhs
          by_cases hwr : w ∈ rem2
          · rw [if_pos hwr]
            rw [if_pos (List.mem_cons_of_mem _ hwr)] at h
            exact h
          · have hnotc : w ∉ w0 :: rem2 := by
              intro hc
              rcases List.mem_cons.mp hc with h1 | h1
              · exact hwe h1
              · exact hwr h1
            rw [if_neg hwr]
            rw [if_neg hnotc] at h
            exact h
      have hp3new : ∀ p ∈ q ++ [(nd.getD w0 0 - 1, w0)],
          p.2 ∈ I.aliveNodes := by
        intro p hp
        rcases List.mem_append.mp hp with h | h
        · exact hP3 p h
        · rw [List.mem_singleton.mp h]
          exact hw0alive
      have hp4new : ∀ w ∈ I.aliveNodes, w ∉ hs2 →
          0 < (nd.set w0 (nd.getD w0 0 - 1)).getD w 0 →
          ((nd.set w0 (nd.getD w0 0 - 1)).getD w 0, w) ∈
            q ++ [(nd.getD w0 0 - 1, w0)] := by
        intro w hw hwhs hpos2
        by_cases hwe : w = w0
        · subst hwe
          rw [getD_set_self hw0lt]
          exact List.mem_append_right _ (by simp)
        · rw [getD_set_other (fun h => hwe h.symm)] at hpos2 ⊢
          exact List.mem_append_left _ (hP4 w hw hwhs hpos2)
      have hp5new : ∀ v ∈ hs2,
          (nd.set w0 (nd.getD w0 0 - 1)).getD v 0 = 0 := by
        intro v hv
        have hvne : ¬ v = w0 := fun h => hw0hs (h ▸ hv)
        rw [getD_set_other (fun h => hvne h.symm)]
        exact hP5 v hv
      have hres := ih (fun w hw => hsub w (List.mem_cons_of_mem _ hw))
        (List.nodup_cons.mp hnd).2 (nd.set w0 (nd.getD w0 0 - 1))
        (q ++ [(nd.getD w0 0 - 1, w0)]) hp2new hp3new hp4new hp5new
      obtain ⟨c1, c2, c3, c4, c5, c6⟩ := hres
      refine ⟨c1, c2, c3, c4, ?_, ?_⟩
      · simp only [List.length_append, List.length_cons,
          List.length_nil] at c5 ⊢
        omega
      · rw [c6, List.length_set]

theorem processEdge_skip {I : Instance} {hit : List Bool} {nd : List Nat}
    {q : List (Nat × Nat)} {e0 : Nat} (h : hit.getD e0 false = true) :
    processEdge I (hit, nd, q) e0 = (hit, nd, q) := by
  unfold processEdge
  rw [if_pos (show (hit, nd, q).1.getD e0 false = true from h)]

theorem processEdge_hit {I : Instance} {hit : List Bool} {nd : List Nat}
    {q : List (Nat × Nat)} {e0 : Nat} (h : hit.getD e0 false = false) :
    processEdge I (hit, nd, q) e0 =
      (hit.set e0 true,
        ((I.edgeList e0).foldl processEdgeNode (nd, q)).1,
        ((I.edgeList e0).foldl processEdgeNode (nd, q)).2) := by
  unfold processEdge
  rw [if_neg (show ¬ (hit, nd, q).1.getD e0 false = true from by
    show ¬ hit.getD e0 false = true
    rw [h]
    simp)]

theorem edgeFold_spec (I : Instance)
    (H1 : ∀ v ∈ I.aliveNodes, ∀ e ∈ I.nodeList v,
      e ∈ I.aliveEdges ∧ v ∈ I.edgeList e)
    (H2 : ∀ e ∈ I.aliveEdges, ∀ v ∈ I.edgeList e,
      v ∈ I.aliveNodes ∧ e ∈ I.nodeList v)
    (H3 : ∀ v ∈ I.aliveNodes, (I.nodeList v).Nodup)
    (H4a : ∀ e ∈ I.aliveEdges, (I.edgeList e).Nodup)
    (u : Nat) (hu : u ∈ I.aliveNodes) (hs2 : List Nat) (hu2 : u ∈ hs2) :
    ∀ edges : List Nat, (∀ e ∈ edges, e ∈ I.nodeList u) →
    ∀ s0 : List Bool × List Nat × List (Nat × Nat), MINV I hs2 s0 →
    MINV I hs2 (edges.foldl (processEdge I) s0) ∧
    (∀ e ∈ edges,
      (edges.foldl (processEdge I) s0).1.getD e false = true) ∧
    (∀ e, s0.1.getD e false = true →
      (edges.foldl (processEdge I) s0).1.getD e false = true) ∧
    ((edges.foldl (processEdge I) s0).2.2.length +
        unhitWeight I (edges.foldl (processEdge I) s0).1 ≤
      s0.2.2.length + unhitWeight I s0.1) ∧
    (edges.foldl (processEdge I) s0).2.1.length = s0.2.1.length := by
  intro edges
  induction edges with
  | nil =>
    intro _ s0 hm
    exact ⟨hm, by simp, fun e h => h, le_refl _, rfl⟩
  | cons e0 erest ih =>
    intro hsub s0 hm
    obtain ⟨hit, nd, q⟩ := s0
    rw [List.foldl_cons]
    have he0n : e0 ∈ I.nodeList u := hsub e0 (List.mem_cons_self _ _)
    have he0a : e0 ∈ I.aliveEdges := (H1 u hu e0 he0n).1
    have hue0 : u ∈ I.edgeList e0 := (H1 u hu e0 he0n).2
    obtain ⟨M1, M2, M3, M4, M5, M6⟩ := hm
    by_cases hhit : hit.getD e0 false = true
    · rw [processEdge_skip hhit]
      have hres := ih (fun e he => hsub e (List.mem_cons_of_mem _ he))
        (hit, nd, q) ⟨M1, M2, M3, M4, M5, M6⟩
      obtain ⟨c1, c2, c3, c4, c5⟩ := hres
      refine ⟨c1, ?_, c3, c4, c5⟩
      intro e he
      rcases List.mem_cons.mp he with rfl | he2
      · exact c3 e hhit
      · exact c2 e he2
    · have hunhit : hit.getD e0 false = false := by
        cases hb : hit.getD e0 false
        · rfl
        · exact absurd hb hhit
      have he0lt : e0 < hit.length := M1 e0 he0a
      rw [processEdge_hit hunhit]
      have hpre2 : ∀ w ∈ I.aliveNodes, w ∉ hs2 →
          nd.getD w 0 = (if w ∈ I.edgeList e0 then cnt I hit w
            else cnt I (hit.set e0 true) w) := by
        intro w hw hwhs
        by_cases hwe : w ∈ I.edgeList e0
        · rw [if_pos hwe]
          exact M2 w hw hwhs
        · rw [if_neg hwe, cnt_set_true_notmem
            (fun hmem => hwe (H1 w hw e0 hmem).2)]
          exact M2 w hw hwhs
      have hinner := innerFold_spec I H2 H3 e0 he0a hit he0lt hunhit hs2
        (I.edgeList e0) (fun w hw => hw) (H4a e0 he0a) nd q hpre2 M3 M4 M5
      obtain ⟨i1, i2, i3, i4, i5, i6⟩ := hinner
      have hM1n : ∀ e ∈ I.aliveEdges, e < (hit.set e0 true).length := by
        intro e he
        rw [List.length_set]
        exact M1 e he
      have hM6n : ∀ e ∈ I.aliveEdges,
          (hit.set e0 true).getD e false = true →
          ∃ v ∈ hs2, v ∈ I.edgeList e := by
        intro e he hhit2
        by_cases hee : e = e0
        · subst hee
          exact ⟨u, hu2, hue0⟩
        · rw [getD_set_other (fun h => hee h.symm)] at hhit2
          exact M6 e he hhit2
      have hres := ih (fun e he => hsub e (List.mem_cons_of_mem _ he))
        (hit.set e0 true, ((I.edgeList e0).foldl processEdgeNode (nd, q)).1,
          ((I.edgeList e0).foldl processEdgeNode (nd, q)).2)
        ⟨hM1n, i1, i2, i3, i4, hM6n⟩
      dsimp only at hres
      obtain ⟨c1, c2, c3, c4, c5⟩ := hres
      refine ⟨c1, ?_, ?_, ?_, ?_⟩
      · intro e he
        rcases List.mem_cons.mp he with rfl | he2
        · exact c3 e (by rw [getD_set_self he0lt])
        · exact c2 e he2
      · intro e hhe
        apply c3
        by_cases hee : e = e0
        · subst hee
          rw [getD_set_self he0lt]
        · rw [getD_set_other (fun h => hee h.symm)]
          exact hhe
      · have hw := unhitWeight_set_true I hit e0 he0lt hunhit
        dsimp only
        omega
      · rw [c5, i6]

theorem greedyLoop_pop_none {I : Instance} {fuel : Nat} {hit : List Bool}
    {nd : List Nat} {q : List (Nat × Nat)} {hs : List Nat}
    (h : popMax q = none) :
    greedyLoop I (fuel + 1) hit nd q hs = some hs := by
  unfold greedyLoop
  rw [h]

theorem greedyLoop_break {I : Instance} {fuel : Nat} {hit : List Bool}
    {nd : List Nat} {q q2 : List (Nat × Nat)} {hs : List Nat}
    {degree node : Nat}
    (h : popMax q = some ((degree, node), q2)) (hd : degree = 0) :
    greedyLoop I (fuel + 1) hit nd q hs = some hs := by
  simp only [greedyLoop]
  rw [h, hd]
  simp

theorem greedyLoop_stale {I : Instance} {fuel : Nat} {hit : List Bool}
    {nd : List Nat} {q q2 : List (Nat × Nat)} {hs : List Nat}
    {degree node : Nat}
    (h : popMax q = some ((degree, node), q2)) (hd : ¬ degree = 0)
    (hst : nd.getD node 0 < degree) :
    greedyLoop I (fuel + 1) hit nd q hs =
      greedyLoop I fuel hit nd q2 hs := by
  simp only [greedyLoop]
  rw [h]
  dsimp only
  rw [if_neg hd, if_pos hst]

theorem greedyLoop_process {I : Instance} {fuel : Nat} {hit : List Bool}
    {nd : List Nat} {q q2 : List (Nat × Nat)} {hs : List Nat}
    {degree node : Nat}
    (h : popMax q = some ((degree, node), q2)) (hd : ¬ degree = 0)
    (hst : ¬ nd.getD node 0 < degree) :
    greedyLoop I (fuel + 1) hit nd q hs =
      greedyLoop I fuel
        ((I.nodeList node).foldl (processEdge I)
          (hit, nd.set node 0, q2)).1
        ((I.nodeList node).foldl (processEdge I)
          (hit, nd.set node 0, q2)).2.1
        ((I.nodeList node).foldl (processEdge I)
          (hit, nd.set node 0, q2)).2.2
        (hs ++ [node]) := by
  simp only [greedyLoop]
  rw [h]
  dsimp only
  rw [if_neg hd, if_neg hst]

theorem greedyLoop_spec (I : Instance)
    (H1 : ∀ v ∈ I.aliveNodes, ∀ e ∈ I.nodeList v,
      e ∈ I.aliveEdges ∧ v ∈ I.edgeList e)
    (H2 : ∀ e ∈ I.aliveEdges, ∀ v ∈ I.edgeList e,
      v ∈ I.aliveNodes ∧ e ∈ I.nodeList v)
    (H3 : ∀ v ∈ I.aliveNodes, (I.nodeList v).Nodup)
    (H4 : ∀ e ∈ I.aliveEdges, (I.edgeList e).Nodup ∧ I.edgeList e ≠ [])
    (H7 : ∀ v ∈ I.aliveNodes, v < I.num_nodes_total) :
    ∀ fuel hit nd q hs,
    q.length + unhitWeight I hit < fuel →
    LINV I hit nd q hs →
    ∃ out, greedyLoop I fuel hit nd q hs = some out ∧
      ∀ e ∈ I.aliveEdges, ∃ v ∈ out, v ∈ I.edgeList e := by
  intro fuel
  induction fuel with
  | zero =>
    intro hit nd q hs hmeas _
    exact absurd hmeas (by omega)
  | succ fuel ih =>
    intro hit nd q hs hmeas hinv
    obtain ⟨L0, L1, L2, L3, L4, L5, L6, L7⟩ := hinv
    have hfinish : (∀ w ∈ I.aliveNodes, w ∉ hs → ¬ 0 < nd.getD w 0) →
        ∀ e ∈ I.aliveEdges, ∃ v ∈ hs, v ∈ I.edgeList e := by
      intro hqz e he
      cases hb : hit.getD e false with
      | true => exact L7 e he hb
      | false =>
        exfalso
        obtain ⟨hnde, hnee⟩ := H4 e he
        obtain ⟨w, hw⟩ := List.exists_mem_of_ne_nil _ hnee
        obtain ⟨hwalive, hewn⟩ := H2 e he w hw
        have hwnhs : w ∉ hs := by
          intro hmem
          have h2 := L6 w hmem e hewn
          rw [hb] at h2
          exact Bool.noConfusion h2
        have hcw : 0 < nd.getD w 0 := by
          rw [L2 w hwalive hwnhs]
          exact cnt_pos_of_unhit hewn hb
        exact hqz w hwalive hwnhs hcw
    cases hpop : popMax q with
    | none =>
      refine ⟨hs, greedyLoop_pop_none hpop, ?_⟩
      apply hfinish
      intro w hwal hwhs hpos
      have hin := L4 w hwal hwhs hpos
      rw [popMax_none.mp hpop] at hin
      cases hin
    | some pr =>
      obtain ⟨⟨degree, node⟩, q2⟩ := pr
      obtain ⟨hmem, hq2, hmax⟩ := popMax_some hpop
      by_cases hdeg0 : degree = 0
      · refine ⟨hs, greedyLoop_break hpop hdeg0, ?_⟩
        subst hdeg0
        apply hfinish
        intro w hwal hwhs hpos
        have hin := L4 w hwal hwhs hpos
        have hm2 := hmax _ hin
        simp only [lexLt, decide_eq_false_iff_not] at hm2
        omega
      · by_cases hstale : nd.getD node 0 < degree
        · rw [greedyLoop_stale hpop hdeg0 hstale]
          apply ih hit nd q2 hs
          · have hlen : q2.length = q.length - 1 := by
              rw [hq2]
              exact List.length_erase_of_mem hmem
            have hqpos : 0 < q.length := List.length_pos_of_mem hmem
            omega
          · refine ⟨L0, L1, L2, ?_, ?_, L5, L6, L7⟩
            · intro p hp
              rw [hq2] at hp
              exact L3 p (List.mem_of_mem_erase hp)
            · intro w hwal hwhs hpos
              have hin := L4 w hwal hwhs hpos
              have hne : (nd.getD w 0, w) ≠ (degree, node) := by
                intro hcontra
                by_cases hwn : w = node
                · subst hwn
                  have h1 : nd.getD w 0 = degree :=
                    congrArg Prod.fst hcontra
                  omega
                · exact hwn (congrArg Prod.snd hcontra)
              rw [hq2]
              exact (List.mem_erase_of_ne hne).mpr hin
        · have hnodealive : node ∈ I.aliveNodes := L3 (degree, node) hmem
          have hnodenhs : node ∉ hs := by
            intro hmemhs
            have hz := L5 node hmemhs
            omega
          have hnodelt : node < nd.length := by
            rw [L0]
            exact H7 node hnodealive
          have hm : MINV I (hs ++ [node]) (hit, nd.set node 0, q2) := by
            refine ⟨L1, ?_, ?_, ?_, ?_, ?_⟩
            · intro w hwal hwhs
              have hwneq : ¬ w = node := fun h =>
                hwhs (h ▸ List.mem_append_right _ (List.mem_cons_self _ _))
              have hwnhs : w ∉ hs := fun h =>
                hwhs (List.mem_append_left _ h)
              show (nd.set node 0).getD w 0 = cnt I hit w
              rw [getD_set_other (fun h => hwneq h.symm)]
              exact L2 w hwal hwnhs
            · intro p hp
              rw [hq2] at hp
              exact L3 p (List.mem_of_mem_erase hp)
            · intro w hwal hwhs hpos
              have hwneq : ¬ w = node := fun h =>
                hwhs (h ▸ List.mem_append_right _ (List.mem_cons_self _ _))
              have hwnhs : w ∉ hs := fun h =>
                hwhs (List.mem_append_left _ h)
              show ((nd.set node 0).getD w 0, w) ∈ q2
              have hpos2 : 0 < nd.getD w 0 := by
                rw [getD_set_other (fun h => hwneq h.symm)] at hpos
                exact hpos
              rw [getD_set_other (fun h => hwneq h.symm)]
              have hin := L4 w hwal hwnhs hpos2
              have hne : (nd.getD w 0, w) ≠ (degree, node) := fun hcontra =>
                hwneq (congrArg Prod.snd hcontra)
              rw [hq2]
              exact (List.mem_erase_of_ne hne).mpr hin
            · intro v hv
              show (nd.set node 0).getD v 0 = 0
              rcases List.mem_append.mp hv with h | h
              · have hvne : ¬ v = node := fun he => hnodenhs (he ▸ h)
                rw [getD_set_other (fun he => hvne he.symm)]
                exact L5 v h
              · rw [List.mem_singleton.mp h]
                exact getD_set_self hnodelt
            · intro e he hhit
              obtain ⟨v, hv1, hv2⟩ := L7 e he hhit
              exact ⟨v, List.mem_append_left _ hv1, hv2⟩
          have hef := edgeFold_spec I H1 H2 H3 (fun e he => (H4 e he).1)
            node hnodealive (hs ++ [node])
            (List.mem_append_right _ (List.mem_cons_self _ _))
            (I.nodeList node) (fun e he => he) (hit, nd.set node 0, q2) hm
          dsimp only at hef
          obtain ⟨hm2, hproc, hmono, hmeas2, hlen2⟩ := hef
          obtain ⟨N1, N2, N3, N4, N5, N6⟩ := hm2
          rw [greedyLoop_process hpop hdeg0 hstale]
          apply ih
          · have hlen : q2.length = q.length - 1 := by
              rw [hq2]
              exact List.length_erase_of_mem hmem
            have hqpos : 0 < q.length := List.length_pos_of_mem hmem
            omega
          · refine ⟨?_, N1, N2, N3, N4, N5, ?_, N6⟩
            · rw [hlen2, List.length_set]
              exact L0
            · intro v hv e he
              rcases List.mem_append.mp hv with h | h
              · exact hmono e (L6 v h e he)
              · rw [List.mem_singleton.mp h] at he
                exact hproc e he

theorem foldl_set_length2 {α : Type} (g : Nat → α) :
    ∀ (l : List Nat) (d : List α),
    (l.foldl (fun acc v => acc.set v (g v)) d).length = d.length := by
  intro l
  induction l with
  | nil => intro d; rfl
  | cons a l ih =>
    intro d
    rw [List.foldl_cons, ih, List.length_set]

theorem foldl_set_getD_notmem {α : Type} (g : Nat → α) (dflt : α) :
    ∀ (l : List Nat) (d : List α) (v : Nat), v ∉ l →
    (l.foldl (fun acc w => acc.set w (g w)) d).getD v dflt =
      d.getD v dflt := by
  intro l
  induction l with
  | nil => intro d v _; rfl
  | cons a l ih =>
    intro d v hv
    rw [List.foldl_cons]
    rw [ih _ _ (fun h => hv (List.mem_cons_of_mem _ h))]
    have hva : ¬ v = a := fun h => hv (List.mem_cons.mpr (Or.inl h))
    exact getD_set_other (fun h => hva h.symm)

theorem foldl_set_getD_mem {α : Type} (g : Nat → α) (dflt : α) :
    ∀ (l : List Nat) (d : List α) (v : Nat), v ∈ l → v < d.length →
    (l.foldl (fun acc w => acc.set w (g w)) d).getD v dflt = g v := by
  intro l
  induction l with
  | nil => intro d v hv; cases hv
  | cons a l ih =>
    intro d v hv hlt
    rw [List.foldl_cons]
    by_cases hvl : v ∈ l
    · exact ih _ _ hvl (by rw [List.length_set]; exact hlt)
    · have hva : v = a := by
        rcases List.mem_cons.mp hv with h | h
        · exact h
        · exact absurd h hvl
      subst hva
      rw [foldl_set_getD_notmem g dflt l _ v hvl]
      exact getD_set_self hlt

theorem getD_replicate_lt {α : Type} {n : Nat} (a d : α) {i : Nat}
    (h : i < n) : (List.replicate n a).getD i d = a := by
  simp [List.getD, List.getElem?_replicate, h]

/-- C4 counterexample.  After `delete_node 0` on the single-edge instance
`{{0}}`, edge 0 is still alive but has no alive vertex; the greedy
procedure returns the empty list, which does not hit it. -/
theorem claim_C4_counterexample :
    calc_greedy_approximation ((loadD 1 1 [[0]]).delete_node 0) =
      some [] ∧
    0 ∈ ((loadD 1 1 [[0]]).delete_node 0).aliveEdges ∧
    ¬ ∃ v ∈ ([] : List Nat),
      v ∈ ((loadD 1 1 [[0]]).delete_node 0).edgeList 0 := by
  refine ⟨by decide, by decide, ?_⟩
  rintro ⟨v, hv, -⟩
  cases hv

/-- C4 (corrected).  On an instance whose incidence structure is
well-formed (mutually mirrored, duplicate-free, degree-consistent,
in-range) and in which every alive edge still CONTAINS AN ALIVE VERTEX —
the condition missing from the claim — the greedy procedure terminates
(the fuel, which models the loop's termination measure, does not run
out) and returns a list hitting every alive edge. -/
theorem claim_C4_greedy (I : Instance)
    (H1 : ∀ v ∈ I.aliveNodes, ∀ e ∈ I.nodeList v,
      e ∈ I.aliveEdges ∧ v ∈ I.edgeList e)
    (H2 : ∀ e ∈ I.aliveEdges, ∀ v ∈ I.edgeList e,
      v ∈ I.aliveNodes ∧ e ∈ I.nodeList v)
    (H3 : ∀ v ∈ I.aliveNodes, (I.nodeList v).Nodup ∧
      I.node_degree v = (I.nodeList v).length)
    (H4 : ∀ e ∈ I.aliveEdges, (I.edgeList e).Nodup ∧ I.edgeList e ≠ [])
    (H6 : ∀ e ∈ I.aliveEdges, e < I.num_edges_total)
    (H7 : ∀ v ∈ I.aliveNodes, v < I.num_nodes_total) :
    ∃ hs, calc_greedy_approximation I = some hs ∧
      ∀ e ∈ I.aliveEdges, ∃ v ∈ hs, v ∈ I.edgeList e := by
  have hlen : (I.aliveEdges.foldl (fun h e => h.set e false)
      (List.replicate I.num_edges_total true)).length =
      I.num_edges_total := by
    have h := foldl_set_length2 (fun _ => false) I.aliveEdges
      (List.replicate I.num_edges_total true)
    rw [h, List.length_replicate]
  have hhit : ∀ e, (I.aliveEdges.foldl (fun h e => h.set e false)
      (List.replicate I.num_edges_total true)).getD e false = false ↔
      (e ∈ I.aliveEdges ∨ I.num_edges_total ≤ e) := by
    intro e
    by_cases hmem : e ∈ I.aliveEdges
    · have h := foldl_set_getD_mem (fun _ => false) false I.aliveEdges
        (List.replicate I.num_edges_total true) e hmem
        (by rw [List.length_replicate]; exact H6 e hmem)
      rw [h]
      simp [hmem]
    · have h := foldl_set_getD_notmem (fun _ => false) false I.aliveEdges
        (List.replicate I.num_edges_total true) e hmem
      rw [h]
      by_cases hrange : e < I.num_edges_total
      · rw [getD_replicate_lt _ _ hrange]
        simp [hmem]
        omega
      · rw [List.getD_eq_default _ _
          (by rw [List.length_replicate]; omega)]
        simp [hmem]
        omega
  have hnd : ∀ v ∈ I.aliveNodes,
      (I.aliveNodes.foldl (fun d v => d.set v (I.node_degree v))
        (List.replicate I.num_nodes_total 0)).getD v 0 =
        I.node_degree v := by
    intro v hv
    exact foldl_set_getD_mem (fun v => I.node_degree v) 0 I.aliveNodes
      (List.replicate I.num_nodes_total 0) v hv
      (by rw [List.length_replicate]; exact H7 v hv)
  have hndlen : (I.aliveNodes.foldl (fun d v => d.set v (I.node_degree v))
      (List.replicate I.num_nodes_total 0)).length =
      I.num_nodes_total := by
    have h := foldl_set_length2 (fun v => I.node_degree v) I.aliveNodes
      (List.replicate I.num_nodes_total 0)
    rw [h, List.length_replicate]
  have hcnt : ∀ v ∈ I.aliveNodes,
      cnt I (I.aliveEdges.foldl (fun h e => h.set e false)
        (List.replicate I.num_edges_total true)) v =
        (I.nodeList v).length := by
    intro v hv
    unfold cnt
    congr 1
    apply List.filter_eq_self.mpr
    intro e he
    have healive : e ∈ I.aliveEdges := (H1 v hv e he).1
    have hfalse := (hhit e).mpr (Or.inl healive)
    rw [hfalse]
    rfl
  have hspec := greedyLoop_spec I H1 H2 (fun v hv => (H3 v hv).1) H4 H7
    ((I.aliveNodes.map fun v => (I.node_degree v, v)).length +
      unhitWeight I (I.aliveEdges.foldl (fun h e => h.set e false)
        (List.replicate I.num_edges_total true)) + 1)
    (I.aliveEdges.foldl (fun h e => h.set e false)
      (List.replicate I.num_edges_total true))
    (I.aliveNodes.foldl (fun d v => d.set v (I.node_degree v))
      (List.replicate I.num_nodes_total 0))
    (I.aliveNodes.map fun v => (I.node_degree v, v))
    []
    (by omega)
    ⟨hndlen,
     fun e he => by rw [hlen]; exact H6 e he,
     fun w hw _ => by rw [hnd w hw, hcnt w hw]; exact (H3 w hw).2,
     fun p hp => by
       obtain ⟨v, hv, rfl⟩ := List.mem_map.mp hp
       exact hv,
     fun w hw _ _ => by
       rw [hnd w hw]
       exact List.mem_map_of_mem _ hw,
     fun v hv => absurd hv (List.not_mem_nil v),
     fun v hv => absurd hv (List.not_mem_nil v),
     fun e he htrue => by
       have hfalse := (hhit e).mpr (Or.inl he)
       rw [hfalse] at htrue
       exact Bool.noConfusion htrue⟩
  exact hspec

/-- C4 witness: the amended theorem applied to a concrete well-formed
instance. -/
theorem claim_C4_witness :
    ∃ hs, calc_greedy_approximation (loadD 3 2 [[0, 1, 2], [0]]) =
        some hs ∧
      ∀ e ∈ (loadD 3 2 [[0, 1, 2], [0]]).aliveEdges,
        ∃ v ∈ hs, v ∈ (loadD 3 2 [[0, 1, 2], [0]]).edgeList e :=
  claim_C4_greedy (loadD 3 2 [[0, 1, 2], [0]]) (by decide) (by decide)
    (by decide) (by decide) (by decide) (by decide)

/-! ### Reversibility: SkipVec layer -/

theorem get?_modify_ne {α : Type} (f : α → α) {i j : Nat} (l : List α)
    (h : i ≠ j) : (l.modify f i).get? j = l.get? j :=
  List.get?_modifyNth_ne f l h

theorem get?_modify_eq {α : Type} (f : α → α) (i : Nat) (l : List α) :
    (l.modify f i).get? i = (l.get? i).map f := by
  rw [List.get?_modifyNth_eq]
  rfl

namespace SkipVec

theorem map_value_modify {α : Type} (f : SVEntry α → SVEntry α)
    (hf : ∀ e, (f e).value = e.value) (l : List (SVEntry α)) (j k : Nat) :
    ((l.modify f j).get? k).map SVEntry.value =
      (l.get? k).map SVEntry.value := by
  by_cases h : j = k
  · subst h
    rw [get?_modify_eq, Option.map_map]
    cases l.get? j with
    | none => rfl
    | some e => exact congrArg some (hf e)
  · rw [get?_modify_ne _ _ h]

theorem delete_atVal {α : Type} (v : SkipVec α) (i k : Nat) :
    (v.delete i).atVal k = v.atVal k := by
  unfold delete atVal
  cases hget : v.entries.get? i with
  | none => rfl
  | some e =>
    dsimp only
    rcases e.prev with - | p <;> rcases e.next with - | nx <;>
      dsimp only [setNext, setPrev]
    · exact map_value_modify (fun e => { e with prev := none })
        (fun e => rfl) _ _ _
    · exact map_value_modify (fun e => { e with next := none })
        (fun e => rfl) _ _ _
    · rw [map_value_modify (fun e => { e with prev := some p })
        (fun e => rfl), map_value_modify (fun e => { e with next := some nx })
        (fun e => rfl)]

theorem delete_entries_length {α : Type} (v : SkipVec α) (i : Nat) :
    (v.delete i).entries.length = v.entries.length := by
  unfold delete
  cases hget : v.entries.get? i with
  | none => rfl
  | some e =>
    dsimp only
    rcases e.prev with - | p <;> rcases e.next with - | nx <;>
      dsimp only [setNext, setPrev] <;> simp [List.length_modify]

/-- The exact LIFO roundtrip at the heart of reversibility: restoring an
entry right after deleting it reproduces the identical skip vector,
provided the entry was correctly linked (its neighbours, or `first`/`last`,
pointed at it) and not self-linked. -/
theorem restore_delete {α : Type} (v : SkipVec α) (i : Nat) (e : SVEntry α)
    (hget : v.entries.get? i = some e)
    (hlen : 0 < v.len)
    (hpi : e.prev ≠ some i) (hni : e.next ≠ some i)
    (hprev : match e.prev with
             | none => v.first = some i
             | some p => v.entryNext p = some i)
    (hnext : match e.next with
             | none => v.last = some i
             | some nx => v.entryPrev nx = some i) :
    (v.delete i).restore i = v := by
  obtain ⟨ents, fst, lst, ln⟩ := v
  obtain ⟨ep, en, ev⟩ := e
  dsimp only at hget hprev hnext hlen ⊢
  rcases ep with - | p <;> rcases en with - | nx
  · -- prev none, next none
    dsimp only at hprev hnext
    have hgetE : ents[i]? = some ⟨none, none, ev⟩ := by
      rw [← List.get?_eq_getElem?]
      exact hget
    have hdel : SkipVec.delete ⟨ents, fst, lst, ln⟩ i =
        ⟨ents, none, none, ln - 1⟩ := by
      simp [SkipVec.delete, hgetE]
    rw [hdel]
    have hres : SkipVec.restore ⟨ents, none, none, ln - 1⟩ i =
        ⟨ents, some i, some i, ln - 1 + 1⟩ := by
      simp [SkipVec.restore, hgetE]
    rw [hres, hprev, hnext, Nat.sub_add_cancel hlen]
  · -- prev none, next some nx
    dsimp only at hprev hnext
    have hnne : nx ≠ i := fun h => hni (by rw [h])
    have hgetE : ents[i]? = some ⟨none, some nx, ev⟩ := by
      rw [← List.get?_eq_getElem?]
      exact hget
    have hne : ∃ ne2 : SVEntry α, ents.get? nx = some ne2 ∧
        ne2.prev = some i := by
      unfold SkipVec.entryPrev at hnext
      dsimp only at hnext
      cases hx : ents.get? nx with
      | none => rw [hx] at hnext; cases hnext
      | some ne2 => rw [hx] at hnext; exact ⟨ne2, rfl, hnext⟩
    obtain ⟨ne2, hne2get, hne2prev⟩ := hne
    have hdel : SkipVec.delete ⟨ents, fst, lst, ln⟩ i =
        ⟨ents.modify (fun e => { e with prev := none }) nx,
          some nx, lst, ln - 1⟩ := by
      simp [SkipVec.delete, hgetE, SkipVec.setPrev]
    rw [hdel]
    have hget2 : (ents.modify (fun e => { e with prev := none }) nx).get? i
        = some ⟨none, some nx, ev⟩ := by
      rw [get?_modify_ne _ _ hnne]
      exact hget
    have hget2E : (ents.modify (fun e => { e with prev := none }) nx)[i]?
        = some ⟨none, some nx, ev⟩ := by
      rw [← List.get?_eq_getElem?]
      exact hget2
    have hres : SkipVec.restore ⟨ents.modify
          (fun e => { e with prev := none }) nx, some nx, lst, ln - 1⟩ i =
        ⟨(ents.modify (fun e => { e with prev := none }) nx).modify
            (fun e => { e with prev := some i }) nx,
          some i, lst, ln - 1 + 1⟩ := by
      simp [SkipVec.restore, hget2E, SkipVec.setPrev]
    have hentries : (ents.modify (fun e => { e with prev := none })
        nx).modify (fun e => { e with prev := some i }) nx = ents := by
      apply List.ext_get?
      intro j
      by_cases hj : nx = j
      · subst hj
        rw [get?_modify_eq, get?_modify_eq, hne2get]
        obtain ⟨a, b, c⟩ := ne2
        dsimp only at hne2prev
        subst hne2prev
        rfl
      · rw [get?_modify_ne _ _ hj, get?_modify_ne _ _ hj]
    rw [hres, hentries, hprev, Nat.sub_add_cancel hlen]
  · -- prev some p, next none
    dsimp only at hprev hnext
    have hpne : p ≠ i := fun h => hpi (by rw [h])
    have hgetE : ents[i]? = some ⟨some p, none, ev⟩ := by
      rw [← List.get?_eq_getElem?]
      exact hget
    have hpe : ∃ pe : SVEntry α, ents.get? p = some pe ∧
        pe.next = some i := by
      unfold SkipVec.entryNext at hprev
      dsimp only at hprev
      cases hx : ents.get? p with
      | none => rw [hx] at hprev; cases hprev
      | some pe => rw [hx] at hprev; exact ⟨pe, rfl, hprev⟩
    obtain ⟨pe, hpeget, hpenext⟩ := hpe
    have hdel : SkipVec.delete ⟨ents, fst, lst, ln⟩ i =
        ⟨ents.modify (fun e => { e with next := none }) p,
          fst, some p, ln - 1⟩ := by
      simp [SkipVec.delete, hgetE, SkipVec.setNext]
    rw [hdel]
    have hget2 : (ents.modify (fun e => { e with next := none }) p).get? i
        = some ⟨some p, none, ev⟩ := by
      rw [get?_modify_ne _ _ hpne]
      exact hget
    have hget2E : (ents.modify (fun e => { e with next := none }) p)[i]?
        = some ⟨some p, none, ev⟩ := by
      rw [← List.get?_eq_getElem?]
      exact hget2
    have hres : SkipVec.restore ⟨ents.modify
          (fun e => { e with next := none }) p, fst, some p, ln - 1⟩ i =
        ⟨(ents.modify (fun e => { e with next := none }) p).modify
            (fun e => { e with next := some i }) p,
          fst, some i, ln - 1 + 1⟩ := by
      simp [SkipVec.restore, hget2E, SkipVec.setNext]
    have hentries : (ents.modify (fun e => { e with next := none })
        p).modify (fun e => { e with next := some i }) p = ents := by
      apply List.ext_get?
      intro j
      by_cases hj : p = j
      · subst hj
        rw [get?_modify_eq, get?_modify_eq, hpeget]
        obtain ⟨a, b, c⟩ := pe
        dsimp only at hpenext
        subst hpenext
        rfl
      · rw [get?_modify_ne _ _ hj, get?_modify_ne _ _ hj]
    rw [hres, hentries, hnext, Nat.sub_add_cancel hlen]
  · -- prev some p, next some nx
    dsimp only at hprev hnext
    have hpne : p ≠ i := fun h => hpi (by rw [h])
    have hnne : nx ≠ i := fun h => hni (by rw [h])
    have hgetE : ents[i]? = some ⟨some p, some nx, ev⟩ := by
      rw [← List.get?_eq_getElem?]
      exact hget
    have hpe : ∃ pe : SVEntry α, ents.get? p = some pe ∧
        pe.next = some i := by
      unfold SkipVec.entryNext at hprev
      dsimp only at hprev
      cases hx : ents.get? p with
      | none => rw [hx] at hprev; cases hprev
      | some pe => rw [hx] at hprev; exact ⟨pe, rfl, hprev⟩
    have hne : ∃ ne2 : SVEntry α, ents.get? nx = some ne2 ∧
        ne2.prev = some i := by
      unfold SkipVec.entryPrev at hnext
      dsimp only at hnext
      cases hx : ents.get? nx with
      | none => rw [hx] at hnext; cases hnext
      | some ne2 => rw [hx] at hnext; exact ⟨ne2, rfl, hnext⟩
    obtain ⟨pe, hpeget, hpenext⟩ := hpe
    obtain ⟨ne2, hne2get, hne2prev⟩ := hne
    have hdel : SkipVec.delete ⟨ents, fst, lst, ln⟩ i =
        ⟨(ents.modify (fun e => { e with next := some nx }) p).modify
            (fun e => { e with prev := some p }) nx,
          fst, lst, ln - 1⟩ := by
      simp [SkipVec.delete, hgetE, SkipVec.setNext, SkipVec.setPrev]
    rw [hdel]
    have hget2 : ((ents.modify (fun e => { e with next := some nx })
        p).modify (fun e => { e with prev := some p }) nx).get? i =
        some ⟨some p, some nx, ev⟩ := by
      rw [get?_modify_ne _ _ hnne, get?_modify_ne _ _ hpne]
      exact hget
    have hget2E : ((ents.modify (fun e => { e with next := some nx })
        p).modify (fun e => { e with prev := some p }) nx)[i]? =
        some ⟨some p, some nx, ev⟩ := by
      rw [← List.get?_eq_getElem?]
      exact hget2
    have hres : SkipVec.restore ⟨(ents.modify
          (fun e => { e with next := some nx }) p).modify
            (fun e => { e with prev := some p }) nx, fst, lst, ln - 1⟩ i =
        ⟨(((ents.modify (fun e => { e with next := some nx }) p).modify
            (fun e => { e with prev := some p }) nx).modify
            (fun e => { e with next := some i }) p).modify
            (fun e => { e with prev := some i }) nx,
          fst, lst, ln - 1 + 1⟩ := by
      simp [SkipVec.restore, hget2E, SkipVec.setNext, SkipVec.setPrev]
    have hentries : (((ents.modify (fun e => { e with next := some nx })
        p).modify (fun e => { e with prev := some p }) nx).modify
        (fun e => { e with next := some i }) p).modify
        (fun e => { e with prev := some i }) nx = ents := by
      apply List.ext_get?
      intro j
      by_cases hjn : nx = j
      · subst hjn
        by_cases hjp : p = nx
        · subst hjp
          rw [get?_modify_eq, get?_modify_eq, get?_modify_eq,
            get?_modify_eq, hpeget]
          have hpeprev : pe.prev = some i := by
            rw [hpeget] at hne2get
            injection hne2get with h2
            rw [h2]
            exact hne2prev
          obtain ⟨a, b, c⟩ := pe
          dsimp only at hpenext hpeprev
          subst hpenext
          subst hpeprev
          rfl
        · rw [get?_modify_eq, get?_modify_ne _ _ hjp, get?_modify_eq,
            get?_modify_ne _ _ hjp, hne2get]
          obtain ⟨a, b, c⟩ := ne2
          dsimp only at hne2prev
          subst hne2prev
          rfl
      · by_cases hjp : p = j
        · subst hjp
          rw [get?_modify_ne _ _ hjn, get?_modify_eq,
            get?_modify_ne _ _ hjn, get?_modify_eq, hpeget]
          obtain ⟨a, b, c⟩ := pe
          dsimp only at hpenext
          subst hpenext
          rfl
        · rw [get?_modify_ne _ _ hjn, get?_modify_ne _ _ hjp,
            get?_modify_ne _ _ hjn, get?_modify_ne _ _ hjp]
    rw [hres, hentries, Nat.sub_add_cancel hlen]

end SkipVec

namespace SkipVec

theorem nextOf_none {l : List Nat} : nextOf l none = l.head? := by
  cases l <;> rfl

theorem nextOf_append {l1 l2 : List Nat} {q : Option Nat} :
    nextOf (l1 ++ l2) q = nextOf l1 (nextOf l2 q) := by
  cases l1 <;> rfl

theorem prevOf_cons {p : Option Nat} {x : Nat} {l : List Nat} :
    prevOf p (x :: l) = prevOf (some x) l := by
  cases l with
  | nil => rfl
  | cons z zs =>
    unfold prevOf
    rw [List.getLast?_cons_cons]
    cases h : (z :: zs).getLast? with
    | none => simp at h
    | some y => rfl

theorem prevOf_none {l : List Nat} : prevOf none l = l.getLast? := by
  unfold prevOf
  cases l.getLast? <;> rfl

theorem seg_iff_segTo {α : Type} (v : SkipVec α) :
    ∀ (l : List Nat) (p : Option Nat), Seg v p l ↔ SegTo v p l none := by
  intro l
  induction l with
  | nil => intro p; simp [Seg, SegTo]
  | cons x rest ih =>
    intro p
    simp only [Seg, SegTo, ih, nextOf_none]

theorem segTo_append {α : Type} (v : SkipVec α) :
    ∀ (l1 l2 : List Nat) (p q : Option Nat),
    SegTo v p (l1 ++ l2) q ↔
      (SegTo v p l1 (nextOf l2 q) ∧ SegTo v (prevOf p l1) l2 q) := by
  intro l1
  induction l1 with
  | nil =>
    intro l2 p q
    simp [SegTo, prevOf, nextOf]
  | cons x l1t ih =>
    intro l2 p q
    show (x < v.entries.length ∧ v.entryPrev x = p ∧
        v.entryNext x = nextOf (l1t ++ l2) q ∧
        SegTo v (some x) (l1t ++ l2) q) ↔
      ((x < v.entries.length ∧ v.entryPrev x = p ∧
        v.entryNext x = nextOf l1t (nextOf l2 q) ∧
        SegTo v (some x) l1t (nextOf l2 q)) ∧
        SegTo v (prevOf p (x :: l1t)) l2 q)
    rw [nextOf_append, ih l2 (some x) q, prevOf_cons]
    tauto

theorem segTo_ext {α : Type} {v v2 : SkipVec α}
    (hlen : v2.entries.length = v.entries.length) :
    ∀ (l : List Nat) (p q : Option Nat),
    (∀ j ∈ l, v2.entries.get? j = v.entries.get? j) →
    (SegTo v p l q ↔ SegTo v2 p l q) := by
  intro l
  induction l with
  | nil => intro p q _; simp [SegTo]
  | cons x rest ih =>
    intro p q hagree
    simp only [SegTo]
    have hx := hagree x (List.mem_cons_self _ _)
    have hprev : v2.entryPrev x = v.entryPrev x := by
      unfold SkipVec.entryPrev
      rw [hx]
    have hnext : v2.entryNext x = v.entryNext x := by
      unfold SkipVec.entryNext
      rw [hx]
    rw [hlen, hprev, hnext,
      ih (some x) q (fun j hj => hagree j (List.mem_cons_of_mem _ hj))]

theorem segTo_mem_lt {α : Type} {v : SkipVec α} :
    ∀ {l : List Nat} {p q : Option Nat}, SegTo v p l q →
    ∀ j ∈ l, j < v.entries.length := by
  intro l
  induction l with
  | nil => intro p q _ j hj; cases hj
  | cons x rest ih =>
    intro p q hseg j hj
    obtain ⟨hx, -, -, hrest⟩ := hseg
    rcases List.mem_cons.mp hj with rfl | hj2
    · exact hx
    · exact ih hrest j hj2

/-- Characterization of `delete` on a present entry whose `prev` and
`next` differ (or `prev` is absent): lengths, endpoints, the rewiring of
the two neighbour slots, everything else untouched. -/
theorem delete_chars {α : Type} (v : SkipVec α) (i : Nat) (e : SVEntry α)
    (hget : v.entries.get? i = some e)
    (hpn : e.prev = none ∨ e.prev ≠ e.next) :
    (v.delete i).entries.length = v.entries.length ∧
    (v.delete i).len = v.len - 1 ∧
    ((v.delete i).first =
      match e.prev with | none => e.next | some _ => v.first) ∧
    ((v.delete i).last =
      match e.next with | none => e.prev | some _ => v.last) ∧
    (∀ j, (v.delete i).entries.get? j =
      if some j = e.prev then
        (v.entries.get? j).map (fun x => { x with next := e.next })
      else if some j = e.next then
        (v.entries.get? j).map (fun x => { x with prev := e.prev })
      else v.entries.get? j) := by
  have hgetE : v.entries[i]? = some e := by
    rw [← List.get?_eq_getElem?]
    exact hget
  obtain ⟨ents, fst, lst, ln⟩ := v
  obtain ⟨ep, en, ev⟩ := e
  dsimp only at hgetE hpn ⊢
  rcases ep with - | p <;> rcases en with - | nx
  · have hdel : SkipVec.delete ⟨ents, fst, lst, ln⟩ i =
        ⟨ents, none, none, ln - 1⟩ := by
      simp [SkipVec.delete, hgetE]
    rw [hdel]
    refine ⟨rfl, rfl, rfl, rfl, ?_⟩
    intro j
    simp
  · have hdel : SkipVec.delete ⟨ents, fst, lst, ln⟩ i =
        ⟨ents.modify (fun e => { e with prev := none }) nx,
          some nx, lst, ln - 1⟩ := by
      simp [SkipVec.delete, hgetE, SkipVec.setPrev]
    rw [hdel]
    refine ⟨List.length_modify _ _ _, rfl, rfl, rfl, ?_⟩
    intro j
    by_cases hj : j = nx
    · subst hj
      rw [if_neg (by simp), if_pos rfl, get?_modify_eq]
    · rw [if_neg (by simp), if_neg (by simp [hj]),
        get?_modify_ne _ _ (fun h => hj h.symm)]
  · have hdel : SkipVec.delete ⟨ents, fst, lst, ln⟩ i =
        ⟨ents.modify (fun e => { e with next := none }) p,
          fst, some p, ln - 1⟩ := by
      simp [SkipVec.delete, hgetE, SkipVec.setNext]
    rw [hdel]
    refine ⟨List.length_modify _ _ _, rfl, rfl, rfl, ?_⟩
    intro j
    by_cases hj : j = p
    · subst hj
      rw [if_pos rfl, get?_modify_eq]
    · rw [if_neg (by simp [hj]), if_neg (by simp),
        get?_modify_ne _ _ (fun h => hj h.symm)]
  · have hpnx : p ≠ nx := by
      rcases hpn with h | h
      · cases h
      · intro hc
        exact h (by rw [hc])
    have hdel : SkipVec.delete ⟨ents, fst, lst, ln⟩ i =
        ⟨(ents.modify (fun e => { e with next := some nx }) p).modify
            (fun e => { e with prev := some p }) nx,
          fst, lst, ln - 1⟩ := by
      simp [SkipVec.delete, hgetE, SkipVec.setNext, SkipVec.setPrev]
    rw [hdel]
    refine ⟨by rw [List.length_modify, List.length_modify], rfl, rfl, rfl,
      ?_⟩
    intro j
    by_cases hjp : j = p
    · subst hjp
      rw [if_pos rfl, get?_modify_ne _ _ (fun h => hpnx h.symm),
        get?_modify_eq]
    · by_cases hjn : j = nx
      · subst hjn
        rw [if_neg (by simp [hjp]), if_pos rfl, get?_modify_eq,
          get?_modify_ne _ _ (fun h => hjp h.symm)]
      · rw [if_neg (by simp [hjp]), if_neg (by simp [hjn]),
          get?_modify_ne _ _ (fun h => hjn h.symm),
          get?_modify_ne _ _ (fun h => hjp h.symm)]

/-- A doubly linked segment is exactly what `chase` recovers, given enough
fuel. -/
theorem chase_eq_of_seg {α : Type} (v : SkipVec α) :
    ∀ (l : List Nat) (p : Option Nat), Seg v p l →
    ∀ fuel, l.length ≤ fuel →
    chase v.entries l.head? fuel = some l := by
  intro l
  induction l with
  | nil => intro p h fuel hf; cases fuel <;> rfl
  | cons x rest ih =>
    intro p hseg fuel hfuel
    obtain ⟨hx, hprev, hnext, hrest⟩ := hseg
    cases fuel with
    | zero => simp at hfuel
    | succ fuel =>
      obtain ⟨e, hget⟩ : ∃ e, v.entries.get? x = some e := by
        cases hg : v.entries.get? x with
        | none =>
          rw [List.get?_eq_none] at hg
          omega
        | some e => exact ⟨e, rfl⟩
      have henext : e.next = rest.head? := by
        unfold SkipVec.entryNext at hnext
        rw [hget] at hnext
        exact hnext
      have hf2 : rest.length ≤ fuel := by
        simp only [List.length_cons] at hfuel
        omega
      show chase v.entries (some x) (fuel + 1) = some (x :: rest)
      rw [show chase v.entries (some x) (fuel + 1) =
        (match v.entries.get? x with
         | none => none
         | some e => (chase v.entries e.next fuel).map (x :: ·)) from rfl]
      rw [hget]
      dsimp only
      rw [henext, ih (some x) hrest fuel hf2]
      rfl

/-- A well-chained vector's canonical live list is its chain. -/
theorem liveIdx_of_chains {α : Type} {v : SkipVec α} {l : List Nat}
    (hc : Chains v l) : v.liveIdx = l := by
  obtain ⟨hseg, hfst, -, -, hnd⟩ := hc
  have hbound : ∀ j ∈ l, j < v.entries.length :=
    segTo_mem_lt ((seg_iff_segTo v l none).mp hseg)
  have hsub : l ⊆ List.range v.entries.length := by
    intro j hj
    exact List.mem_range.mpr (hbound j hj)
  have hlenle : l.length ≤ v.entries.length := by
    have h := (List.subperm_of_subset hnd hsub).length_le
    simpa using h
  unfold SkipVec.liveIdx
  rw [hfst, chase_eq_of_seg v l none hseg (v.entries.length + 1)
    (by omega)]
  rfl

/-- Deleting a live chain element yields a well-chained vector over the
chain with that element erased. -/
theorem chains_delete {α : Type} {v : SkipVec α} {l : List Nat} {i : Nat}
    (hc : Chains v l) (hi : i ∈ l) :
    Chains (v.delete i) (l.erase i) := by
  obtain ⟨hseg, hfst, hlst, hlen, hnd⟩ := hc
  obtain ⟨l1, l2, rfl⟩ := List.mem_iff_append.mp hi
  obtain ⟨hndl1, hndil2, hdisj⟩ := List.nodup_append.mp hnd
  have hinl1 : i ∉ l1 := fun h => hdisj h (List.mem_cons_self _ _)
  have hndl2 : l2.Nodup := (List.nodup_cons.mp hndil2).2
  have herase : (l1 ++ i :: l2).erase i = l1 ++ l2 := by
    rw [List.erase_append_right _ hinl1, List.erase_cons_head]
  rw [herase]
  have hST : SegTo v none (l1 ++ i :: l2) none :=
    (seg_iff_segTo v _ none).mp hseg
  rw [segTo_append] at hST
  obtain ⟨hSTl1, hSTmid⟩ := hST
  obtain ⟨hiN, hiprev, hinext, hSTl2⟩ := hSTmid
  obtain ⟨e, hget⟩ : ∃ e, v.entries.get? i = some e := by
    cases hg : v.entries.get? i with
    | none =>
      rw [List.get?_eq_none] at hg
      omega
    | some e => exact ⟨e, rfl⟩
  have heprev : e.prev = prevOf none l1 := by
    unfold SkipVec.entryPrev at hiprev
    rw [hget] at hiprev
    exact hiprev
  have henext : e.next = nextOf l2 none := by
    unfold SkipVec.entryNext at hinext
    rw [hget] at hinext
    exact hinext
  have hprevelem : ∀ j, j ∈ i :: l2 → some j ≠ e.prev := by
    intro j hj hcontra
    rw [heprev, prevOf_none] at hcontra
    cases hP : l1.getLast? with
    | none =>
      rw [hP] at hcontra
      exact Option.noConfusion hcontra
    | some p =>
      rw [hP] at hcontra
      injection hcontra with hc2
      subst hc2
      exact hdisj (List.mem_of_mem_getLast? hP) hj
  have hQne : ∀ j ∈ l1, some j ≠ e.next := by
    intro j hj hcontra
    rw [henext] at hcontra
    cases l2 with
    | nil => exact Option.noConfusion hcontra
    | cons nx l2t =>
      rw [show nextOf (nx :: l2t) none = some nx from rfl] at hcontra
      injection hcontra with hc2
      subst hc2
      exact hdisj hj (by simp)
  have hpn : e.prev = none ∨ e.prev ≠ e.next := by
    cases hP : e.prev with
    | none => exact Or.inl rfl
    | some p =>
      refine Or.inr ?_
      have hpl1 : p ∈ l1 := by
        apply List.mem_of_mem_getLast?
        rw [← prevOf_none, ← heprev, hP]
        exact rfl
      intro hcontra
      exact hQne p hpl1 hcontra
  obtain ⟨hlenN, hlenv, hfst2, hlst2, hent⟩ :=
    delete_chars v i e hget hpn
  have hag : ∀ j, some j ≠ e.prev → some j ≠ e.next →
      (v.delete i).entries.get? j = v.entries.get? j := by
    intro j h1 h2
    rw [hent j, if_neg h1, if_neg h2]
  have hA : SegTo (v.delete i) none l1 e.next := by
    cases hP : l1.getLast? with
    | none =>
      rw [List.getLast?_eq_none_iff.mp hP]
      trivial
    | some p =>
      obtain ⟨l1t, rfl⟩ := List.getLast?_eq_some_iff.mp hP
      have hpnotin : p ∉ l1t := by
        rw [List.nodup_append] at hndl1
        exact fun h => hndl1.2.2 h (List.mem_cons_self _ _)
      have heprev2 : e.prev = some p := by
        rw [heprev, prevOf_none, hP]
      rw [segTo_append] at hSTl1
      obtain ⟨hSTl1t, hSTp⟩ := hSTl1
      obtain ⟨hpN, hpprev, hpnext2, -⟩ := hSTp
      have hgp : (v.delete i).entries.get? p =
          (v.entries.get? p).map (fun x => { x with next := e.next }) := by
        rw [hent p, if_pos (by rw [heprev2])]
      rw [segTo_append]
      constructor
      · show SegTo (v.delete i) none l1t (some p)
        refine (segTo_ext hlenN l1t none (some p) ?_).mp hSTl1t
        intro j hj
        refine hag j ?_ (hQne j (List.mem_append_left _ hj))
        rw [heprev2]
        intro hcontra
        injection hcontra with hc2
        exact hpnotin (hc2 ▸ hj)
      · have hb1 : p < (v.delete i).entries.length := by
          rw [hlenN]
          exact hpN
        have hb2 : (v.delete i).entryPrev p = prevOf none l1t := by
          unfold SkipVec.entryPrev at hpprev ⊢
          rw [hgp]
          cases hvp : v.entries.get? p with
          | none =>
            rw [hvp] at hpprev
            exact hpprev
          | some pe =>
            rw [hvp] at hpprev
            exact hpprev
        have hb3 : (v.delete i).entryNext p = e.next := by
          unfold SkipVec.entryNext
          rw [hgp]
          obtain ⟨pe, hvp⟩ : ∃ pe, v.entries.get? p = some pe := by
            cases hvp : v.entries.get? p with
            | none =>
              rw [List.get?_eq_none] at hvp
              omega
            | some pe => exact ⟨pe, rfl⟩
          rw [hvp]
          rfl
        exact ⟨hb1, hb2, hb3, trivial⟩
  have hB : SegTo (v.delete i) e.prev l2 none := by
    cases l2 with
    | nil => trivial
    | cons nx l2t =>
      have henext2 : e.next = some nx := by
        rw [henext]
        rfl
      have hnxl2 : nx ∉ l2t := (List.nodup_cons.mp hndl2).1
      obtain ⟨hnxN, hnxprev, hnxnext, hSTl2t⟩ := hSTl2
      have hgnx : (v.delete i).entries.get? nx =
          (v.entries.get? nx).map (fun x => { x with prev := e.prev }) := by
        rw [hent nx, if_neg (hprevelem nx (by simp)),
          if_pos (by rw [henext2])]
      have hb1 : nx < (v.delete i).entries.length := by
        rw [hlenN]
        exact hnxN
      have hb2 : (v.delete i).entryPrev nx = e.prev := by
        unfold SkipVec.entryPrev
        rw [hgnx]
        obtain ⟨ne2, hvnx⟩ : ∃ ne2, v.entries.get? nx = some ne2 := by
          cases hvnx : v.entries.get? nx with
          | none =>
            rw [List.get?_eq_none] at hvnx
            omega
          | some ne2 => exact ⟨ne2, rfl⟩
        rw [hvnx]
        rfl
      have hb3 : (v.delete i).entryNext nx = nextOf l2t none := by
        unfold SkipVec.entryNext at hnxnext ⊢
        rw [hgnx]
        cases hvnx : v.entries.get? nx with
        | none =>
          rw [hvnx] at hnxnext
          exact hnxnext
        | some ne2 =>
          rw [hvnx] at hnxnext
          exact hnxnext
      have hb4 : SegTo (v.delete i) (some nx) l2t none := by
        refine (segTo_ext hlenN l2t (some nx) none ?_).mp hSTl2t
        intro j hj
        refine hag j (hprevelem j (by simp [hj])) ?_
        rw [henext2]
        intro hcontra
        injection hcontra with hc2
        exact hnxl2 (hc2 ▸ hj)
      exact ⟨hb1, hb2, hb3, hb4⟩
  refine ⟨?_, ?_, ?_, ?_, ?_⟩
  · rw [seg_iff_segTo, segTo_append]
    constructor
    · rw [← henext]
      exact hA
    · rw [← heprev]
      exact hB
  · rw [hfst2]
    cases l1 with
    | nil =>
      have hpnone : e.prev = none := by rw [heprev]; rfl
      rw [hpnone]
      show e.next = ([] ++ l2).head?
      rw [henext, nextOf_none]
      rfl
    | cons x l1t =>
      obtain ⟨p2, hp2⟩ : ∃ p2, e.prev = some p2 := by
        rw [heprev, prevOf_none]
        cases hgl : (x :: l1t).getLast? with
        | none => simp at hgl
        | some p2 => exact ⟨p2, rfl⟩
      rw [hp2]
      show v.first = ((x :: l1t) ++ l2).head?
      rw [hfst]
      rfl
  · rw [hlst2]
    cases l2 with
    | nil =>
      have hnnone : e.next = none := by rw [henext]; rfl
      rw [hnnone]
      show e.prev = (l1 ++ []).getLast?
      rw [heprev, prevOf_none, List.append_nil]
    | cons nx l2t =>
      have hnsome : e.next = some nx := by rw [henext]; rfl
      rw [hnsome]
      show v.last = (l1 ++ nx :: l2t).getLast?
      rw [hlst, List.getLast?_append_of_ne_nil _ (List.cons_ne_nil _ _),
        List.getLast?_append_of_ne_nil _ (List.cons_ne_nil _ _),
        List.getLast?_cons_cons]
  · rw [hlenv, hlen]
    simp only [List.length_append, List.length_cons]
    omega
  · exact List.Nodup.sublist
      ((List.sublist_cons_self i l2).append_left l1) hnd

/-- Restoring right after deleting a live chain element is the identity:
the entry's untouched fields relink it exactly where it was. -/
theorem restore_delete_of_chains {α : Type} {v : SkipVec α} {l : List Nat}
    {i : Nat} (hc : Chains v l) (hi : i ∈ l) :
    (v.delete i).restore i = v := by
  obtain ⟨hseg, hfst, hlst, hlen, hnd⟩ := hc
  obtain ⟨l1, l2, rfl⟩ := List.mem_iff_append.mp hi
  obtain ⟨hndl1, hndil2, hdisj⟩ := List.nodup_append.mp hnd
  have hinl1 : i ∉ l1 := fun h => hdisj h (List.mem_cons_self _ _)
  have hinl2 : i ∉ l2 := (List.nodup_cons.mp hndil2).1
  have hST : SegTo v none (l1 ++ i :: l2) none :=
    (seg_iff_segTo v _ none).mp hseg
  rw [segTo_append] at hST
  obtain ⟨hSTl1, hSTmid⟩ := hST
  obtain ⟨hiN, hiprev, hinext, hSTl2⟩ := hSTmid
  obtain ⟨e, hget⟩ : ∃ e, v.entries.get? i = some e := by
    cases hg : v.entries.get? i with
    | none =>
      rw [List.get?_eq_none] at hg
      omega
    | some e => exact ⟨e, rfl⟩
  have heprev : e.prev = prevOf none l1 := by
    unfold SkipVec.entryPrev at hiprev
    rw [hget] at hiprev
    exact hiprev
  have henext : e.next = nextOf l2 none := by
    unfold SkipVec.entryNext at hinext
    rw [hget] at hinext
    exact hinext
  refine restore_delete v i e hget ?_ ?_ ?_ ?_ ?_
  · rw [hlen]
    simp only [List.length_append, List.length_cons]
    omega
  · rw [heprev, prevOf_none]
    intro hcontra
    exact hinl1 (List.mem_of_mem_getLast? hcontra)
  · rw [henext]
    cases l2 with
    | nil => exact fun h => Option.noConfusion h
    | cons nx l2t =>
      intro hcontra
      rw [show nextOf (nx :: l2t) none = some nx from rfl] at hcontra
      injection hcontra with hc2
      exact hinl2 (by rw [← hc2]; exact List.mem_cons_self _ _)
  · cases hP : l1.getLast? with
    | none =>
      have hpnone : e.prev = none := by rw [heprev, prevOf_none, hP]
      rw [hpnone]
      show v.first = some i
      rw [List.getLast?_eq_none_iff.mp hP] at hfst
      rw [hfst]
      rfl
    | some p =>
      have hpsome : e.prev = some p := by rw [heprev, prevOf_none, hP]
      rw [hpsome]
      show v.entryNext p = some i
      obtain ⟨l1t, rfl⟩ := List.getLast?_eq_some_iff.mp hP
      rw [segTo_append] at hSTl1
      obtain ⟨-, hSTp⟩ := hSTl1
      obtain ⟨-, -, hpnext2, -⟩ := hSTp
      exact hpnext2
  · cases l2 with
    | nil =>
      have hnnone : e.next = none := by rw [henext]; rfl
      rw [hnnone]
      show v.last = some i
      rw [hlst, List.getLast?_append_of_ne_nil _ (List.cons_ne_nil _ _)]
      rfl
    | cons nx l2t =>
      have hnsome : e.next = some nx := by rw [henext]; rfl
      rw [hnsome]
      show v.entryPrev nx = some i
      obtain ⟨-, hnxprev, -, -⟩ := hSTl2
      exact hnxprev

/-- Members of the live chain are in range. -/
theorem liveIdx_lt {α : Type} {v : SkipVec α} (hw : Wf v) :
    ∀ j ∈ v.liveIdx, j < v.entries.length :=
  segTo_mem_lt ((seg_iff_segTo v v.liveIdx none).mp hw.1)

/-- The live chain has no duplicates. -/
theorem liveIdx_nodup {α : Type} {v : SkipVec α} (hw : Wf v) :
    v.liveIdx.Nodup := hw.2.2.2.2

/-- Deleting a live slot of a well-formed vector: still well-formed, the
live chain loses exactly that slot. -/
theorem wf_delete {α : Type} {v : SkipVec α} {i : Nat} (hw : Wf v)
    (hi : i ∈ v.liveIdx) :
    Wf (v.delete i) ∧ (v.delete i).liveIdx = v.liveIdx.erase i := by
  have hc : Chains (v.delete i) (v.liveIdx.erase i) := chains_delete hw hi
  have hl : (v.delete i).liveIdx = v.liveIdx.erase i := liveIdx_of_chains hc
  rw [Wf, hl]
  exact ⟨hc, rfl⟩

/-- `restore ∘ delete` is the identity on live slots of well-formed
vectors. -/
theorem restore_delete_of_wf {α : Type} {v : SkipVec α} {i : Nat}
    (hw : Wf v) (hi : i ∈ v.liveIdx) : (v.delete i).restore i = v :=
  restore_delete_of_chains hw hi

end SkipVec

/-! ### Reversibility: incidence-list folds -/

theorem getD_modify_self {α : Type} [Inhabited α] (f : α → α) (l : List α)
    {i : Nat} (h : i < l.length) :
    (l.modify f i).getD i default = f (l.getD i default) := by
  rw [List.getD, List.getD, get?_modify_eq]
  cases hg : l.get? i with
  | none =>
    rw [List.get?_eq_none] at hg
    omega
  | some a => rfl

theorem getD_modify_other {α : Type} [Inhabited α] (f : α → α) (l : List α)
    {i j : Nat} (h : i ≠ j) :
    (l.modify f i).getD j default = l.getD j default := by
  rw [List.getD, List.getD, get?_modify_ne _ _ h]

theorem getD_modify_all {α : Type} [Inhabited α] (f : α → α) (l : List α)
    (i j : Nat) (hid : f default = default) :
    (l.modify f i).getD j default =
      if j = i then f (l.getD j default) else l.getD j default := by
  by_cases hji : j = i
  · subst hji
    by_cases hb : j < l.length
    · rw [if_pos rfl, getD_modify_self f l hb]
    · rw [if_pos rfl, List.modify_eq_self (by omega),
        List.getD_eq_default _ _ (by omega), hid]
  · rw [if_neg hji, getD_modify_other f l (fun h => hji h.symm)]

theorem delFold_nil (L : List (SkipVec (Nat × Nat))) : delFold L [] = L := rfl

theorem delFold_cons (L : List (SkipVec (Nat × Nat))) (p : Nat × Nat)
    (ps : List (Nat × Nat)) :
    delFold L (p :: ps) =
      delFold (L.modify (fun sv => sv.delete p.2) p.1) ps := rfl

theorem resFold_append (L : List (SkipVec (Nat × Nat)))
    (ps qs : List (Nat × Nat)) :
    resFold L (ps ++ qs) = resFold (resFold L ps) qs :=
  List.foldl_append _ _ _ _

theorem delFold_length (ps : List (Nat × Nat)) :
    ∀ L : List (SkipVec (Nat × Nat)), (delFold L ps).length = L.length := by
  induction ps with
  | nil => intro L; rfl
  | cons p ps ih =>
    intro L
    rw [delFold_cons, ih, List.length_modify]

theorem delFold_atVal (ps : List (Nat × Nat)) :
    ∀ (L : List (SkipVec (Nat × Nat))) (t k : Nat),
    SkipVec.atVal ((delFold L ps).getD t default) k =
      SkipVec.atVal (L.getD t default) k := by
  induction ps with
  | nil => intro L t k; rfl
  | cons p ps ih =>
    intro L t k
    rw [delFold_cons, ih]
    by_cases ht : t = p.1
    · subst ht
      rw [getD_modify_all _ _ _ _ rfl, if_pos rfl, SkipVec.delete_atVal]
    · rw [getD_modify_other _ _ (fun h => ht h.symm)]

theorem delFold_entries_length (ps : List (Nat × Nat)) :
    ∀ (L : List (SkipVec (Nat × Nat))) (t : Nat),
    ((delFold L ps).getD t default).entries.length =
      ((L.getD t default)).entries.length := by
  induction ps with
  | nil => intro L t; rfl
  | cons p ps ih =>
    intro L t
    rw [delFold_cons, ih]
    by_cases ht : t = p.1
    · subst ht
      rw [getD_modify_all _ _ _ _ rfl, if_pos rfl,
        SkipVec.delete_entries_length]
    · rw [getD_modify_other _ _ (fun h => ht h.symm)]

/-- Well-formedness and the live chains after a delete fold: each touched
vector loses exactly its deleted slots. -/
theorem delFold_wf (ps : List (Nat × Nat)) :
    ∀ L : List (SkipVec (Nat × Nat)),
    (∀ p ∈ ps, SkipVec.Wf (L.getD p.1 default) ∧
      p.2 ∈ (L.getD p.1 default).liveIdx) →
    ps.Nodup →
    ∀ t, SkipVec.Wf (L.getD t default) →
      SkipVec.Wf ((delFold L ps).getD t default) ∧
      (∀ k, k ∈ ((delFold L ps).getD t default).liveIdx ↔
        (k ∈ (L.getD t default).liveIdx ∧ (t, k) ∉ ps)) := by
  induction ps with
  | nil =>
    intro L hv hnd t hw
    exact ⟨hw, fun k => ⟨fun h => ⟨h, by simp⟩, fun h => h.1⟩⟩
  | cons p ps ih =>
    intro L hv hnd t hw0
    obtain ⟨hwp, hmp⟩ := hv p (List.mem_cons_self _ _)
    have hplen : p.1 < L.length := by
      by_contra hge
      rw [List.getD_eq_default _ _ (by omega)] at hmp
      have hdl : (default : SkipVec (Nat × Nat)).liveIdx = [] := rfl
      rw [hdl] at hmp
      exact absurd hmp (List.not_mem_nil _)
    have hL1get : ∀ t2, (L.modify (fun sv => sv.delete p.2) p.1).getD t2
        default = if t2 = p.1 then (L.getD t2 default).delete p.2
        else L.getD t2 default := by
      intro t2
      rw [getD_modify_all _ _ _ _ rfl]
    have hdel := SkipVec.wf_delete hwp hmp
    have hv1 : ∀ q ∈ ps, SkipVec.Wf ((L.modify (fun sv => sv.delete p.2)
        p.1).getD q.1 default) ∧ q.2 ∈ ((L.modify (fun sv => sv.delete p.2)
        p.1).getD q.1 default).liveIdx := by
      intro q hq
      rw [hL1get q.1]
      by_cases hq1 : q.1 = p.1
      · rw [if_pos hq1, hq1]
        obtain ⟨hwq, hmq⟩ := hv q (List.mem_cons_of_mem _ hq)
        rw [hq1] at hwq hmq
        refine ⟨hdel.1, ?_⟩
        rw [hdel.2]
        refine (List.Nodup.mem_erase_iff (SkipVec.liveIdx_nodup hwp)).mpr
          ⟨?_, hmq⟩
        intro hq2
        exact (List.nodup_cons.mp hnd).1
          (by rw [show p = q from Prod.ext hq1.symm hq2.symm]; exact hq)
      · rw [if_neg hq1]
        exact hv q (List.mem_cons_of_mem _ hq)
    have hnd1 : ps.Nodup := (List.nodup_cons.mp hnd).2
    rw [delFold_cons]
    by_cases ht : t = p.1
    · subst ht
      have hres := ih _ hv1 hnd1 p.1
        (by rw [hL1get p.1, if_pos rfl]; exact hdel.1)
      refine ⟨hres.1, fun k => ?_⟩
      rw [hres.2 k, hL1get p.1, if_pos rfl, hdel.2,
        List.Nodup.mem_erase_iff (SkipVec.liveIdx_nodup hwp)]
      constructor
      · rintro ⟨⟨hk1, hk2⟩, hk3⟩
        refine ⟨hk2, ?_⟩
        intro hmem
        rcases List.mem_cons.mp hmem with hEq | hmem2
        · exact hk1 (congrArg Prod.snd hEq)
        · exact hk3 hmem2
      · rintro ⟨hk2, hk3⟩
        refine ⟨⟨?_, hk2⟩, fun h => hk3 (List.mem_cons_of_mem _ h)⟩
        intro hkp
        refine hk3 ?_
        rw [show (p.1, k) = p from Prod.ext rfl hkp]
        exact List.mem_cons_self _ _
    · have hres := ih _ hv1 hnd1 t (by rw [hL1get t, if_neg ht]; exact hw0)
      refine ⟨hres.1, fun k => ?_⟩
      rw [hres.2 k, hL1get t, if_neg ht]
      constructor
      · rintro ⟨hk1, hk2⟩
        refine ⟨hk1, ?_⟩
        intro hmem
        rcases List.mem_cons.mp hmem with hEq | hmem2
        · exact ht (congrArg Prod.fst hEq)
        · exact hk2 hmem2
      · rintro ⟨hk1, hk2⟩
        exact ⟨hk1, fun h => hk2 (List.mem_cons_of_mem _ h)⟩

/-- The telescoping heart of reversibility: restoring the deleted slots in
exact reverse order reproduces the identical list of vectors. -/
theorem resFold_delFold (ps : List (Nat × Nat)) :
    ∀ L : List (SkipVec (Nat × Nat)),
    (∀ p ∈ ps, SkipVec.Wf (L.getD p.1 default) ∧
      p.2 ∈ (L.getD p.1 default).liveIdx) →
    ps.Nodup →
    resFold (delFold L ps) ps.reverse = L := by
  induction ps with
  | nil => intro L hv hnd; rfl
  | cons p ps ih =>
    intro L hv hnd
    obtain ⟨hwp, hmp⟩ := hv p (List.mem_cons_self _ _)
    have hplen : p.1 < L.length := by
      by_contra hge
      rw [List.getD_eq_default _ _ (by omega)] at hmp
      have hdl : (default : SkipVec (Nat × Nat)).liveIdx = [] := rfl
      rw [hdl] at hmp
      exact absurd hmp (List.not_mem_nil _)
    have hL1get : ∀ t2, (L.modify (fun sv => sv.delete p.2) p.1).getD t2
        default = if t2 = p.1 then (L.getD t2 default).delete p.2
        else L.getD t2 default := by
      intro t2
      rw [getD_modify_all _ _ _ _ rfl]
    have hdel := SkipVec.wf_delete hwp hmp
    have hv1 : ∀ q ∈ ps, SkipVec.Wf ((L.modify (fun sv => sv.delete p.2)
        p.1).getD q.1 default) ∧ q.2 ∈ ((L.modify (fun sv => sv.delete p.2)
        p.1).getD q.1 default).liveIdx := by
      intro q hq
      rw [hL1get q.1]
      by_cases hq1 : q.1 = p.1
      · rw [if_pos hq1, hq1]
        obtain ⟨hwq, hmq⟩ := hv q (List.mem_cons_of_mem _ hq)
        rw [hq1] at hwq hmq
        refine ⟨hdel.1, ?_⟩
        rw [hdel.2]
        refine (List.Nodup.mem_erase_iff (SkipVec.liveIdx_nodup hwp)).mpr
          ⟨?_, hmq⟩
        intro hq2
        exact (List.nodup_cons.mp hnd).1
          (by rw [show p = q from Prod.ext hq1.symm hq2.symm]; exact hq)
      · rw [if_neg hq1]
        exact hv q (List.mem_cons_of_mem _ hq)
    rw [delFold_cons, List.reverse_cons, resFold_append,
      ih _ hv1 (List.nodup_cons.mp hnd).2]
    apply List.ext_get?
    intro t
    show ((L.modify (fun sv => sv.delete p.2) p.1).modify
      (fun sv => sv.restore p.2) p.1).get? t = L.get? t
    by_cases ht : t = p.1
    · subst ht
      rw [get?_modify_eq, get?_modify_eq]
      cases hg : L.get? p.1 with
      | none => rfl
      | some sv =>
        have hgd : L.getD p.1 default = sv := by
          rw [List.getD, hg]
          rfl
        have hrd : (sv.delete p.2).restore p.2 = sv := by
          rw [← hgd]
          exact SkipVec.restore_delete_of_wf hwp hmp
        show some ((sv.delete p.2).restore p.2) = some sv
        rw [hrd]
    · rw [get?_modify_ne _ _ (fun h => ht h.symm),
        get?_modify_ne _ _ (fun h => ht h.symm)]

/-! ### Reversibility: the id sets -/

namespace ContiguousIdxVec

theorem lswap_length (l : List Nat) (i j : Nat) :
    (lswap l i j).length = l.length := by
  unfold lswap
  rw [List.length_set, List.length_set]

theorem lswap_getD (l : List Nat) (i j k : Nat)
    (hi : i < l.length) (hj : j < l.length) :
    (lswap l i j).getD k 0 =
      if k = j then l.getD i 0 else if k = i then l.getD j 0
      else l.getD k 0 := by
  unfold lswap
  by_cases hkj : k = j
  · subst hkj
    rw [if_pos rfl]
    exact getD_set_self (by rw [List.length_set]; exact hj)
  · rw [if_neg hkj, getD_set_other (fun h => hkj h.symm)]
    by_cases hki : k = i
    · subst hki
      rw [if_pos rfl]
      exact getD_set_self hi
    · rw [if_neg hki, getD_set_other (fun h => hki h.symm)]

theorem is_deleted_eq (c : ContiguousIdxVec) (j : Nat) :
    c.is_deleted j = decide (c.len ≤ c.indices.getD j 0) := rfl

/-- `ContiguousIdxVec::delete` of an alive id: still well-formed, the
alive count drops by one, and exactly that id turns deleted. -/
theorem delete_spec {c : ContiguousIdxVec} {n id : Nat} (hw : Wf c n)
    (hid : id < n) (halive : c.is_deleted id = false) :
    Wf (c.delete id) n ∧ 0 < c.len ∧ (c.delete id).len = c.len - 1 ∧
    ∀ j < n, (c.delete id).is_deleted j =
      if j = id then true else c.is_deleted j := by
  obtain ⟨hdl, hil, hln, hfwd, hbwd⟩ := hw
  have hfid := hfwd id hid
  have hidxlen : c.indices.getD id 0 < c.len := by
    unfold is_deleted at halive
    rw [decide_eq_false_iff_not] at halive
    omega
  have hlen0 : 0 < c.len := by omega
  have hblast := hbwd (c.len - 1) (by omega)
  set idx := c.indices.getD id 0 with hidx
  set lid := c.data.getD (c.len - 1) 0 with hlid
  have hdel_data : (c.delete id).data = lswap c.data idx (c.len - 1) := rfl
  have hdel_ind : (c.delete id).indices = lswap c.indices id lid := rfl
  have hdel_len : (c.delete id).len = c.len - 1 := rfl
  have hdata : ∀ k, (c.delete id).data.getD k 0 =
      if k = c.len - 1 then id else if k = idx then lid
      else c.data.getD k 0 := by
    intro k
    rw [hdel_data, lswap_getD c.data idx (c.len - 1) k (by omega) (by omega),
      hfid.2, ← hlid]
  have hind : ∀ q, (c.delete id).indices.getD q 0 =
      if q = lid then idx else if q = id then c.len - 1
      else c.indices.getD q 0 := by
    intro q
    rw [hdel_ind, lswap_getD c.indices id lid q (by omega) (by omega),
      ← hidx, hblast.2]
  have hidne : idx = c.len - 1 → id = lid := by
    intro h
    rw [← hfid.2, h]
  have hlidne : id = lid → idx = c.len - 1 := by
    intro h
    rw [hidx, h]
    exact hblast.2
  refine ⟨⟨?_, ?_, ?_, ?_, ?_⟩, hlen0, hdel_len, ?_⟩
  · rw [hdel_data, lswap_length]
    exact hdl
  · rw [hdel_ind, lswap_length]
    exact hil
  · rw [hdel_len]
    omega
  · intro q hq
    rw [hind q]
    by_cases hql : q = lid
    · rw [if_pos hql]
      refine ⟨hfid.1, ?_⟩
      rw [hdata idx]
      by_cases hie : idx = c.len - 1
      · rw [if_pos hie, hql]
        exact hidne hie
      · rw [if_neg hie, if_pos rfl, hql]
    · rw [if_neg hql]
      by_cases hqi : q = id
      · rw [if_pos hqi]
        refine ⟨by omega, ?_⟩
        rw [hdata (c.len - 1), if_pos rfl, hqi]
      · rw [if_neg hqi]
        have hfq := hfwd q hq
        refine ⟨hfq.1, ?_⟩
        have hne1 : c.indices.getD q 0 ≠ c.len - 1 := by
          intro h
          apply hql
          rw [← hfq.2, h]
        have hne2 : c.indices.getD q 0 ≠ idx := by
          intro h
          apply hqi
          rw [← hfq.2, h, hfid.2]
        rw [hdata _, if_neg hne1, if_neg hne2]
        exact hfq.2
  · intro k hk
    rw [hdata k]
    by_cases hkl : k = c.len - 1
    · rw [if_pos hkl]
      refine ⟨hid, ?_⟩
      rw [hind id]
      by_cases hidlid : id = lid
      · rw [if_pos hidlid, hkl]
        exact hlidne hidlid
      · rw [if_neg hidlid, if_pos rfl, hkl]
    · rw [if_neg hkl]
      by_cases hki : k = idx
      · rw [if_pos hki]
        refine ⟨hblast.1, ?_⟩
        rw [hind lid, if_pos rfl, hki]
      · rw [if_neg hki]
        have hbk := hbwd k hk
        refine ⟨hbk.1, ?_⟩
        have hne1 : c.data.getD k 0 ≠ lid := by
          intro h
          apply hkl
          rw [← hbk.2, h]
          exact hblast.2
        have hne2 : c.data.getD k 0 ≠ id := by
          intro h
          apply hki
          rw [← hbk.2, h]
        rw [hind _, if_neg hne1, if_neg hne2]
        exact hbk.2
  · intro j hj
    by_cases hji : j = id
    · rw [if_pos hji, is_deleted_eq, hdel_len, hind j]
      by_cases hjl : j = lid
      · rw [if_pos hjl]
        have hil2 : idx = c.len - 1 := hlidne (by rw [← hji]; exact hjl)
        exact decide_eq_true (by omega)
      · rw [if_neg hjl, if_pos hji]
        exact decide_eq_true (by omega)
    · rw [if_neg hji, is_deleted_eq, is_deleted_eq, hdel_len, hind j]
      by_cases hjl : j = lid
      · rw [if_pos hjl, hjl, hblast.2]
        have hine : idx ≠ c.len - 1 := fun h => hji (hjl.trans (hidne h).symm)
        exact decide_eq_decide.mpr (by omega)
      · rw [if_neg hjl, if_neg hji]
        have hfj := hfwd j hj
        have hne1 : c.indices.getD j 0 ≠ c.len - 1 :=
          fun h => hjl (by rw [← hfj.2, h])
        exact decide_eq_decide.mpr (by omega)

/-- `ContiguousIdxVec::restore` of a deleted id (with room): still
well-formed, the alive count grows by one, exactly that id turns alive. -/
theorem restore_spec {c : ContiguousIdxVec} {n id : Nat} (hw : Wf c n)
    (hid : id < n) (hdead : c.is_deleted id = true) (hroom : c.len < n) :
    Wf (c.restore id) n ∧ (c.restore id).len = c.len + 1 ∧
    ∀ j < n, (c.restore id).is_deleted j =
      if j = id then false else c.is_deleted j := by
  obtain ⟨hdl, hil, hln, hfwd, hbwd⟩ := hw
  have hfid := hfwd id hid
  have hidxlen : c.len ≤ c.indices.getD id 0 := by
    unfold is_deleted at hdead
    exact of_decide_eq_true hdead
  have hbal := hbwd c.len hroom
  set idx := c.indices.getD id 0 with hidx
  set ali := c.data.getD c.len 0 with hali
  have hres_data : (c.restore id).data = lswap c.data idx c.len := rfl
  have hres_ind : (c.restore id).indices = lswap c.indices id ali := rfl
  have hres_len : (c.restore id).len = c.len + 1 := rfl
  have hdata : ∀ k, (c.restore id).data.getD k 0 =
      if k = c.len then id else if k = idx then ali
      else c.data.getD k 0 := by
    intro k
    rw [hres_data, lswap_getD c.data idx c.len k (by omega) (by omega),
      hfid.2, ← hali]
  have hind2 : ∀ q, (c.restore id).indices.getD q 0 =
      if q = ali then idx else if q = id then c.len
      else c.indices.getD q 0 := by
    intro q
    rw [hres_ind, lswap_getD c.indices id ali q (by omega) (by omega),
      ← hidx, hbal.2]
  have hidne : idx = c.len → id = ali := by
    intro h
    rw [← hfid.2, h]
  have haline : id = ali → idx = c.len := by
    intro h
    rw [hidx, h]
    exact hbal.2
  refine ⟨⟨?_, ?_, ?_, ?_, ?_⟩, hres_len, ?_⟩
  · rw [hres_data, lswap_length]
    exact hdl
  · rw [hres_ind, lswap_length]
    exact hil
  · rw [hres_len]
    omega
  · intro q hq
    rw [hind2 q]
    by_cases hql : q = ali
    · rw [if_pos hql]
      refine ⟨hfid.1, ?_⟩
      rw [hdata idx]
      by_cases hie : idx = c.len
      · rw [if_pos hie, hql]
        exact hidne hie
      · rw [if_neg hie, if_pos rfl, hql]
    · rw [if_neg hql]
      by_cases hqi : q = id
      · rw [if_pos hqi]
        refine ⟨by omega, ?_⟩
        rw [hdata c.len, if_pos rfl, hqi]
      · rw [if_neg hqi]
        have hfq := hfwd q hq
        refine ⟨hfq.1, ?_⟩
        have hne1 : c.indices.getD q 0 ≠ c.len := by
          intro h
          apply hql
          rw [← hfq.2, h]
        have hne2 : c.indices.getD q 0 ≠ idx := by
          intro h
          apply hqi
          rw [← hfq.2, h, hfid.2]
        rw [hdata _, if_neg hne1, if_neg hne2]
        exact hfq.2
  · intro k hk
    rw [hdata k]
    by_cases hkl : k = c.len
    · rw [if_pos hkl]
      refine ⟨hid, ?_⟩
      rw [hind2 id]
      by_cases hidali : id = ali
      · rw [if_pos hidali, hkl]
        exact haline hidali
      · rw [if_neg hidali, if_pos rfl, hkl]
    · rw [if_neg hkl]
      by_cases hki : k = idx
      · rw [if_pos hki]
        refine ⟨hbal.1, ?_⟩
        rw [hind2 ali, if_pos rfl, hki]
      · rw [if_neg hki]
        have hbk := hbwd k hk
        refine ⟨hbk.1, ?_⟩
        have hne1 : c.data.getD k 0 ≠ ali := by
          intro h
          apply hkl
          rw [← hbk.2, h]
          exact hbal.2
        have hne2 : c.data.getD k 0 ≠ id := by
          intro h
          apply hki
          rw [← hbk.2, h]
        rw [hind2 _, if_neg hne1, if_neg hne2]
        exact hbk.2
  · intro j hj
    by_cases hji : j = id
    · rw [if_pos hji, is_deleted_eq, hres_len, hind2 j]
      by_cases hjl : j = ali
      · rw [if_pos hjl]
        have hil2 : idx = c.len := haline (by rw [← hji]; exact hjl)
        exact decide_eq_false (by omega)
      · rw [if_neg hjl, if_pos hji]
        exact decide_eq_false (by omega)
    · rw [if_neg hji, is_deleted_eq, is_deleted_eq, hres_len, hind2 j]
      by_cases hjl : j = ali
      · rw [if_pos hjl, hjl, hbal.2]
        have hine : idx ≠ c.len := fun h => hji (hjl.trans (hidne h).symm)
        exact decide_eq_decide.mpr (by omega)
      · rw [if_neg hjl, if_neg hji]
        have hfj := hfwd j hj
        have hne1 : c.indices.getD j 0 ≠ c.len :=
          fun h => hjl (by rw [← hfj.2, h])
        exact decide_eq_decide.mpr (by omega)

/-- Membership in the live prefix is exactly in-range-and-not-deleted. -/
theorem alive_mem_iff {c : ContiguousIdxVec} {n : Nat} (hw : Wf c n)
    (x : Nat) : x ∈ c.alive ↔ x < n ∧ c.is_deleted x = false := by
  obtain ⟨hdl, hil, hln, hfwd, hbwd⟩ := hw
  unfold alive
  constructor
  · intro hx
    obtain ⟨i, hi, hieq⟩ := List.mem_iff_getElem.mp hx
    rw [List.length_take] at hi
    have hilen : i < c.len := lt_of_lt_of_le hi (min_le_left _ _)
    have hin : i < n := by
      have := min_le_right c.len c.data.length
      omega
    have hget : c.data.getD i 0 = x := by
      rw [List.getD_eq_getElem c.data 0 (by omega), ← hieq,
        List.getElem_take]
    have hbi := hbwd i hin
    rw [hget] at hbi
    refine ⟨hbi.1, ?_⟩
    rw [is_deleted_eq, hbi.2]
    exact decide_eq_false (by omega)
  · rintro ⟨hxn, hxal⟩
    have hfx := hfwd x hxn
    have hklen : c.indices.getD x 0 < c.len := by
      rw [is_deleted_eq] at hxal
      rw [decide_eq_false_iff_not] at hxal
      omega
    refine List.mem_iff_getElem.mpr ⟨c.indices.getD x 0, ?_, ?_⟩
    · rw [List.length_take]
      omega
    · rw [List.getElem_take, ← List.getD_eq_getElem c.data 0 (by omega)]
      exact hfx.2

/-- The live prefix has exactly `len` entries. -/
theorem alive_length {c : ContiguousIdxVec} {n : Nat} (hw : Wf c n) :
    c.alive.length = c.len := by
  unfold alive
  rw [List.length_take, hw.1]
  have := hw.2.2.1
  omega

theorem equiv_refl {c : ContiguousIdxVec} {n : Nat} (hw : Wf c n) :
    Equiv n c c := ⟨hw, hw, rfl, fun _ _ => rfl⟩

theorem equiv_alive_mem {c c2 : ContiguousIdxVec} {n : Nat}
    (he : Equiv n c c2) (x : Nat) : x ∈ c.alive ↔ x ∈ c2.alive := by
  rw [alive_mem_iff he.1, alive_mem_iff he.2.1]
  constructor
  · rintro ⟨h1, h2⟩
    refine ⟨h1, ?_⟩
    rw [← he.2.2.2 x h1]
    exact h2
  · rintro ⟨h1, h2⟩
    refine ⟨h1, ?_⟩
    rw [he.2.2.2 x h1]
    exact h2

theorem equiv_alive_length {c c2 : ContiguousIdxVec} {n : Nat}
    (he : Equiv n c c2) : c.alive.length = c2.alive.length := by
  rw [alive_length he.1, alive_length he.2.1, he.2.2.1]

end ContiguousIdxVec

/-! ### Reversibility: the Instance operations -/

namespace Instance

theorem einc_delete_fold (ps : List (Nat × (Nat × Nat))) :
    ∀ I : Instance,
    ps.foldl (fun acc p =>
      { acc with edge_incidences :=
          acc.edge_incidences.modify (fun sv => sv.delete p.2.2) p.2.1 }) I =
    { I with edge_incidences :=
        delFold I.edge_incidences (ps.map fun p => (p.2.1, p.2.2)) } := by
  induction ps with
  | nil => intro I; rfl
  | cons p ps ih =>
    intro I
    rw [List.foldl_cons, ih, List.map_cons, delFold_cons]

theorem einc_restore_fold (ps : List (Nat × (Nat × Nat))) :
    ∀ I : Instance,
    ps.foldl (fun acc p =>
      { acc with edge_incidences :=
          acc.edge_incidences.modify (fun sv => sv.restore p.2.2) p.2.1 }) I =
    { I with edge_incidences :=
        resFold I.edge_incidences (ps.map fun p => (p.2.1, p.2.2)) } := by
  induction ps with
  | nil => intro I; rfl
  | cons p ps ih =>
    intro I
    rw [List.foldl_cons, ih]
    rfl

theorem ninc_delete_fold (ps : List (Nat × (Nat × Nat))) :
    ∀ I : Instance,
    ps.foldl (fun acc p =>
      { acc with node_incidences :=
          acc.node_incidences.modify (fun sv => sv.delete p.2.2) p.2.1 }) I =
    { I with node_incidences :=
        delFold I.node_incidences (ps.map fun p => (p.2.1, p.2.2)) } := by
  induction ps with
  | nil => intro I; rfl
  | cons p ps ih =>
    intro I
    rw [List.foldl_cons, ih, List.map_cons, delFold_cons]

theorem ninc_restore_fold (ps : List (Nat × (Nat × Nat))) :
    ∀ I : Instance,
    ps.foldl (fun acc p =>
      { acc with node_incidences :=
          acc.node_incidences.modify (fun sv => sv.restore p.2.2) p.2.1 }) I =
    { I with node_incidences :=
        resFold I.node_incidences (ps.map fun p => (p.2.1, p.2.2)) } := by
  induction ps with
  | nil => intro I; rfl
  | cons p ps ih =>
    intro I
    rw [List.foldl_cons, ih]
    rfl

theorem delete_node_eq (I : Instance) (v : Nat) :
    I.delete_node v =
      { I with nodes := I.nodes.delete v,
               edge_incidences := delFold I.edge_incidences (I.nodePairs v) }
    := by
  unfold delete_node
  rw [einc_delete_fold]
  rfl

theorem restore_node_eq (I : Instance) (v : Nat) :
    I.restore_node v =
      { I with nodes := I.nodes.restore v,
               edge_incidences :=
                 resFold I.edge_incidences (I.nodePairs v).reverse } := by
  unfold restore_node
  rw [einc_restore_fold]
  show _ = _
  rw [show (I.nodePairs v).reverse =
    (I.nodeEntries v).reverse.map (fun p => (p.2.1, p.2.2)) from
    (List.map_reverse _ _).symm]

theorem delete_edge_eq (I : Instance) (e : Nat) :
    I.delete_edge e =
      { I with edges := I.edges.delete e,
               node_incidences := delFold I.node_incidences (I.edgePairs e) }
    := by
  unfold delete_edge
  rw [ninc_delete_fold]
  rfl

theorem restore_edge_eq (I : Instance) (e : Nat) :
    I.restore_edge e =
      { I with edges := I.edges.restore e,
               node_incidences :=
                 resFold I.node_incidences (I.edgePairs e).reverse } := by
  unfold restore_edge
  rw [ninc_restore_fold]
  show _ = _
  rw [show (I.edgePairs e).reverse =
    (I.edgeEntries e).reverse.map (fun p => (p.2.1, p.2.2)) from
    (List.map_reverse _ _).symm]

theorem delete_incident_edges_eq (I : Instance) (v : Nat) :
    I.delete_incident_edges v =
      { (applyDEs { I with node_incidences :=
            I.node_incidences.set v default } (I.incEdgeIds v)) with
        node_incidences :=
          (applyDEs { I with node_incidences :=
              I.node_incidences.set v default }
            (I.incEdgeIds v)).node_incidences.set v
            (I.node_incidences.getD v default) } := by
  unfold delete_incident_edges applyDEs incEdgeIds
  rw [List.foldl_map]

theorem restore_incident_edges_eq (I : Instance) (v : Nat) :
    I.restore_incident_edges v =
      { (undoDEs { I with node_incidences :=
            I.node_incidences.set v default } (I.incEdgeIds v)) with
        node_incidences :=
          (undoDEs { I with node_incidences :=
              I.node_incidences.set v default }
            (I.incEdgeIds v)).node_incidences.set v
            (I.node_incidences.getD v default) } := by
  unfold restore_incident_edges undoDEs incEdgeIds
  rw [← List.map_reverse, List.foldl_map]

end Instance

namespace SkipVec

theorem mem_toList_iff {α : Type} [Inhabited α] (w : SkipVec α)
    (p : Nat × α) :
    p ∈ w.toList ↔ p.1 ∈ w.liveIdx ∧
      ((w.entries.get? p.1).getD default).value = p.2 := by
  unfold toList
  rw [List.mem_map]
  constructor
  · rintro ⟨j, hj, rfl⟩
    exact ⟨hj, rfl⟩
  · rintro ⟨h1, h2⟩
    exact ⟨p.1, h1, Prod.ext rfl h2⟩

theorem atVal_of_live {α : Type} [Inhabited α] {w : SkipVec α} (hw : Wf w)
    {j : Nat} (hj : j ∈ w.liveIdx) :
    w.atVal j = some (((w.entries.get? j).getD default).value) := by
  have hb := liveIdx_lt hw j hj
  unfold atVal
  cases hg : w.entries.get? j with
  | none =>
    rw [List.get?_eq_none] at hg
    omega
  | some ent => rfl

end SkipVec

namespace Instance

theorem mirrorAt_some {B : List (SkipVec (Nat × Nat))} {aliveB : Nat → Bool}
    {v j : Nat} {q : Nat × Nat} (h : MirrorAt B aliveB v j (some q)) :
    q.1 < B.length ∧ aliveB q.1 = true ∧
    q.2 ∈ (B.getD q.1 default).liveIdx ∧
    SkipVec.atVal (B.getD q.1 default) q.2 = some (v, j) := h

theorem nodePairs_mem {I : Instance} {v : Nat}
    (hw : SkipVec.Wf (I.node_incidences.getD v default)) (e k : Nat) :
    (e, k) ∈ I.nodePairs v ↔
      ∃ j ∈ (I.node_incidences.getD v default).liveIdx,
        SkipVec.atVal (I.node_incidences.getD v default) j = some (e, k) := by
  unfold nodePairs nodeEntries
  rw [List.mem_map]
  constructor
  · rintro ⟨p, hp, hpe⟩
    rw [SkipVec.mem_toList_iff] at hp
    have hpe2 : p.2 = (e, k) := hpe
    refine ⟨p.1, hp.1, ?_⟩
    rw [SkipVec.atVal_of_live hw hp.1, hp.2, hpe2]
  · rintro ⟨j, hj, hval⟩
    refine ⟨(j, (e, k)), ?_, rfl⟩
    rw [SkipVec.mem_toList_iff]
    refine ⟨hj, ?_⟩
    have h2 := SkipVec.atVal_of_live hw hj
    rw [hval] at h2
    injection h2 with h3
    exact h3.symm

theorem edgePairs_mem {I : Instance} {e : Nat}
    (hw : SkipVec.Wf (I.edge_incidences.getD e default)) (v k : Nat) :
    (v, k) ∈ I.edgePairs e ↔
      ∃ j ∈ (I.edge_incidences.getD e default).liveIdx,
        SkipVec.atVal (I.edge_incidences.getD e default) j = some (v, k) := by
  unfold edgePairs edgeEntries
  rw [List.mem_map]
  constructor
  · rintro ⟨p, hp, hpe⟩
    rw [SkipVec.mem_toList_iff] at hp
    have hpe2 : p.2 = (v, k) := hpe
    refine ⟨p.1, hp.1, ?_⟩
    rw [SkipVec.atVal_of_live hw hp.1, hp.2, hpe2]
  · rintro ⟨j, hj, hval⟩
    refine ⟨(j, (v, k)), ?_, rfl⟩
    rw [SkipVec.mem_toList_iff]
    refine ⟨hj, ?_⟩
    have h2 := SkipVec.atVal_of_live hw hj
    rw [hval] at h2
    injection h2 with h3
    exact h3.symm

/-- The mirror pairs of an alive node are valid delete targets: each names
a well-chained edge vector with that slot live; and they are pairwise
distinct (mirror slots point straight back). -/
theorem nodePairs_valid {I : Instance} (hI : INV I) {v : Nat}
    (hv : v < I.num_nodes_total)
    (halive : I.nodes.is_deleted v = false) :
    (∀ p ∈ I.nodePairs v, SkipVec.Wf (I.edge_incidences.getD p.1 default) ∧
      p.2 ∈ (I.edge_incidences.getD p.1 default).liveIdx) ∧
    (I.nodePairs v).Nodup := by
  obtain ⟨hcn, hce, hsn, hse, hmNE, hmEN⟩ := hI
  have hw := hsn v hv
  have halm : (!I.nodes.is_deleted v) = true := by
    rw [halive]
    rfl
  constructor
  · intro p hp
    obtain ⟨j, hj, hval⟩ := (nodePairs_mem hw p.1 p.2).mp hp
    have hm := hmNE v hv halm j hj
    rw [hval] at hm
    obtain ⟨hb, hal, hlive, hback⟩ := mirrorAt_some hm
    exact ⟨hse p.1 hb, hlive⟩
  · unfold nodePairs
    have hTL : (I.nodeEntries v).Nodup := by
      unfold nodeEntries SkipVec.toList
      refine List.Nodup.map_on ?_ (SkipVec.liveIdx_nodup hw)
      intro x hx y hy hxy
      exact congrArg Prod.fst hxy
    refine List.Nodup.map_on ?_ hTL
    intro p hp q hq hpq
    have hp2 := (SkipVec.mem_toList_iff
      (I.node_incidences.getD v default) p).mp hp
    have hq2 := (SkipVec.mem_toList_iff
      (I.node_incidences.getD v default) q).mp hq
    have hvp := SkipVec.atVal_of_live hw hp2.1
    have hvq := SkipVec.atVal_of_live hw hq2.1
    rw [hp2.2] at hvp
    rw [hq2.2] at hvq
    have hmp := hmNE v hv halm p.1 hp2.1
    have hmq := hmNE v hv halm q.1 hq2.1
    rw [hvp] at hmp
    rw [hvq] at hmq
    have hbp := (mirrorAt_some hmp).2.2.2
    have hbq := (mirrorAt_some hmq).2.2.2
    have hpq2 : p.2 = q.2 := hpq
    rw [hpq2] at hbp
    rw [hbp] at hbq
    injection hbq with hbq2
    have hfst : p.1 = q.1 := congrArg Prod.snd hbq2
    exact Prod.ext hfst hpq2

/-- Symmetric statement for an alive edge's mirror pairs. -/
theorem edgePairs_valid {I : Instance} (hI : INV I) {e : Nat}
    (he : e < I.num_edges_total)
    (halive : I.edges.is_deleted e = false) :
    (∀ p ∈ I.edgePairs e, SkipVec.Wf (I.node_incidences.getD p.1 default) ∧
      p.2 ∈ (I.node_incidences.getD p.1 default).liveIdx) ∧
    (I.edgePairs e).Nodup := by
  obtain ⟨hcn, hce, hsn, hse, hmNE, hmEN⟩ := hI
  have hw := hse e he
  have halm : (!I.edges.is_deleted e) = true := by
    rw [halive]
    rfl
  constructor
  · intro p hp
    obtain ⟨j, hj, hval⟩ := (edgePairs_mem hw p.1 p.2).mp hp
    have hm := hmEN e he halm j hj
    rw [hval] at hm
    obtain ⟨hb, hal, hlive, hback⟩ := mirrorAt_some hm
    exact ⟨hsn p.1 hb, hlive⟩
  · unfold edgePairs
    have hTL : (I.edgeEntries e).Nodup := by
      unfold edgeEntries SkipVec.toList
      refine List.Nodup.map_on ?_ (SkipVec.liveIdx_nodup hw)
      intro x hx y hy hxy
      exact congrArg Prod.fst hxy
    refine List.Nodup.map_on ?_ hTL
    intro p hp q hq hpq
    have hp2 := (SkipVec.mem_toList_iff
      (I.edge_incidences.getD e default) p).mp hp
    have hq2 := (SkipVec.mem_toList_iff
      (I.edge_incidences.getD e default) q).mp hq
    have hvp := SkipVec.atVal_of_live hw hp2.1
    have hvq := SkipVec.atVal_of_live hw hq2.1
    rw [hp2.2] at hvp
    rw [hq2.2] at hvq
    have hmp := hmEN e he halm p.1 hp2.1
    have hmq := hmEN e he halm q.1 hq2.1
    rw [hvp] at hmp
    rw [hvq] at hmq
    have hbp := (mirrorAt_some hmp).2.2.2
    have hbq := (mirrorAt_some hmq).2.2.2
    have hpq2 : p.2 = q.2 := hpq
    rw [hpq2] at hbp
    rw [hbp] at hbq
    injection hbq with hbq2
    have hfst : p.1 = q.1 := congrArg Prod.snd hbq2
    exact Prod.ext hfst hpq2

/-- `delete_node` of an alive node preserves the representation
invariant. -/
theorem inv_delete_node {I : Instance} (hI : INV I) {v : Nat}
    (hv : v < I.num_nodes_total)
    (halive : I.nodes.is_deleted v = false) :
    INV (I.delete_node v) := by
  obtain ⟨hpval, hpnd⟩ := nodePairs_valid hI hv halive
  obtain ⟨hcn, hce, hsn, hse, hmNE, hmEN⟩ := hI
  have halm : (!I.nodes.is_deleted v) = true := by rw [halive]; rfl
  have hN : (I.delete_node v).nodes = I.nodes.delete v := by
    rw [delete_node_eq]
  have hE : (I.delete_node v).edges = I.edges := by
    rw [delete_node_eq]
  have hNI : (I.delete_node v).node_incidences = I.node_incidences := by
    rw [delete_node_eq]
  have hEI : (I.delete_node v).edge_incidences =
      delFold I.edge_incidences (I.nodePairs v) := by
    rw [delete_node_eq]
  have hntot : (I.delete_node v).num_nodes_total = I.num_nodes_total := by
    unfold num_nodes_total
    rw [hNI]
  have hetot : (I.delete_node v).num_edges_total = I.num_edges_total := by
    unfold num_edges_total
    rw [hEI, delFold_length]
  have hds := ContiguousIdxVec.delete_spec hcn hv halive
  have hDwf := delFold_wf (I.nodePairs v) I.edge_incidences hpval hpnd
  refine ⟨?_, ?_, ?_, ?_, ?_, ?_⟩
  · rw [hN, hntot]
    exact hds.1
  · rw [hE, hetot]
    exact hce
  · intro v2 hv2
    rw [hntot] at hv2
    rw [hNI]
    exact hsn v2 hv2
  · intro e2 he2
    rw [hetot] at he2
    rw [hEI]
    exact (hDwf e2 (hse e2 he2)).1
  · rw [hNI, hEI, hN, hE]
    intro v2 hv2 hal2 j hj
    have hal2b : (!(I.nodes.delete v).is_deleted v2) = true := hal2
    have hchar := hds.2.2.2 v2 hv2
    rw [hchar] at hal2b
    by_cases hveq : v2 = v
    · rw [if_pos hveq] at hal2b
      exact absurd hal2b (by decide)
    · rw [if_neg hveq] at hal2b
      have holda : I.nodes.is_deleted v2 = false := by
        cases hod : I.nodes.is_deleted v2
        · rfl
        · rw [hod] at hal2b
          exact absurd hal2b (by decide)
      have hm := hmNE v2 hv2
        (by show (!I.nodes.is_deleted v2) = true; rw [holda]; rfl) j hj
      cases hva : SkipVec.atVal (I.node_incidences.getD v2 default) j with
      | none =>
        rw [hva] at hm
        exact hm.elim
      | some q =>
        rw [hva] at hm
        obtain ⟨hqb, hqal, hqlive, hqback⟩ := mirrorAt_some hm
        refine ⟨?_, hqal, ?_, ?_⟩
        · rw [delFold_length]
          exact hqb
        · rw [(hDwf q.1 (hse q.1 hqb)).2 q.2]
          refine ⟨hqlive, ?_⟩
          intro hpair
          obtain ⟨j2, hj2, hval2⟩ :=
            (nodePairs_mem (hsn v hv) q.1 q.2).mp hpair
          have hmv := hmNE v hv halm j2 hj2
          rw [hval2] at hmv
          have hbackv : SkipVec.atVal (I.edge_incidences.getD q.1 default)
              q.2 = some (v, j2) := (mirrorAt_some hmv).2.2.2
          rw [hqback] at hbackv
          injection hbackv with hb2
          exact hveq (congrArg Prod.fst hb2)
        · rw [delFold_atVal]
          exact hqback
  · rw [hNI, hEI, hN, hE]
    intro e2 he2 hal2 k hk
    rw [delFold_length] at he2
    have hal2b : (!I.edges.is_deleted e2) = true := hal2
    have hks := ((hDwf e2 (hse e2 he2)).2 k).mp hk
    rw [delFold_atVal]
    have hm := hmEN e2 he2 hal2b k hks.1
    cases hva : SkipVec.atVal (I.edge_incidences.getD e2 default) k with
    | none =>
      rw [hva] at hm
      exact hm.elim
    | some q =>
      rw [hva] at hm
      obtain ⟨hqb, hqal, hqlive, hqback⟩ := mirrorAt_some hm
      have hqback2 : SkipVec.atVal (I.node_incidences.getD q.1 default) q.2
          = some (e2, k) := hqback
      have hqnev : q.1 ≠ v := by
        intro hqv
        apply hks.2
        refine (nodePairs_mem (hsn v hv) e2 k).mpr ⟨q.2, ?_, ?_⟩
        · rw [← hqv]
          exact hqlive
        · rw [← hqv]
          exact hqback2
      refine ⟨hqb, ?_, hqlive, hqback2⟩
      show (!(I.nodes.delete v).is_deleted q.1) = true
      rw [hds.2.2.2 q.1 hqb, if_neg hqnev]
      exact hqal

/-- Exact roundtrip of `delete_node`/`restore_node` through any instance
with equal incidences and an equivalent id set. -/
theorem one_delete_node {I : Instance} (hI : INV I) {v : Nat}
    (hv : v < I.num_nodes_total)
    (halive : I.nodes.is_deleted v = false)
    {K : Instance} (hK : IEquiv K (I.delete_node v)) :
    IEquiv (K.restore_node v) I := by
  obtain ⟨hpval, hpnd⟩ := nodePairs_valid hI hv halive
  obtain ⟨hcn, hce, hsn, hse, hmNE, hmEN⟩ := hI
  have hN : (I.delete_node v).nodes = I.nodes.delete v := by
    rw [delete_node_eq]
  have hE : (I.delete_node v).edges = I.edges := by
    rw [delete_node_eq]
  have hNI : (I.delete_node v).node_incidences = I.node_incidences := by
    rw [delete_node_eq]
  have hEI : (I.delete_node v).edge_incidences =
      delFold I.edge_incidences (I.nodePairs v) := by
    rw [delete_node_eq]
  have hntot : (I.delete_node v).num_nodes_total = I.num_nodes_total := by
    unfold num_nodes_total
    rw [hNI]
  have hetot : (I.delete_node v).num_edges_total = I.num_edges_total := by
    unfold num_edges_total
    rw [hEI, delFold_length]
  obtain ⟨hKn, hKe, hKnodes, hKedges⟩ := hK
  rw [hNI] at hKn
  rw [hEI] at hKe
  rw [hntot, hN] at hKnodes
  rw [hetot, hE] at hKedges
  have hKpairs : K.nodePairs v = I.nodePairs v := by
    unfold nodePairs nodeEntries
    rw [hKn]
  have hds := ContiguousIdxVec.delete_spec hcn hv halive
  refine ⟨?_, ?_, ?_, ?_⟩
  · rw [restore_node_eq]
    show K.node_incidences = I.node_incidences
    exact hKn
  · rw [restore_node_eq]
    show resFold K.edge_incidences (K.nodePairs v).reverse =
      I.edge_incidences
    rw [hKpairs, hKe]
    exact resFold_delFold (I.nodePairs v) I.edge_incidences hpval hpnd
  · rw [restore_node_eq]
    show ContiguousIdxVec.Equiv I.num_nodes_total (K.nodes.restore v)
      I.nodes
    obtain ⟨hKw, hDw, hKlen, hKdel⟩ := hKnodes
    have hKdead : K.nodes.is_deleted v = true := by
      rw [hKdel v hv, hds.2.2.2 v hv, if_pos rfl]
    have hKlen2 : K.nodes.len < I.num_nodes_total := by
      rw [hKlen, hds.2.2.1]
      have h1 := hcn.2.2.1
      have h2 := hds.2.1
      omega
    have hrs := ContiguousIdxVec.restore_spec hKw hv hKdead hKlen2
    refine ⟨hrs.1, hcn, ?_, ?_⟩
    · rw [hrs.2.1, hKlen, hds.2.2.1]
      have h2 := hds.2.1
      omega
    · intro j hj
      rw [hrs.2.2 j hj]
      by_cases hjv : j = v
      · rw [if_pos hjv, hjv, halive]
      · rw [if_neg hjv, hKdel j hj, hds.2.2.2 j hj, if_neg hjv]
  · rw [restore_node_eq]
    show ContiguousIdxVec.Equiv I.num_edges_total K.edges I.edges
    exact hKedges

/-- `delete_edge` of an alive edge preserves the representation
invariant. -/
theorem inv_delete_edge {I : Instance} (hI : INV I) {e : Nat}
    (he : e < I.num_edges_total)
    (halive : I.edges.is_deleted e = false) :
    INV (I.delete_edge e) := by
  obtain ⟨hpval, hpnd⟩ := edgePairs_valid hI he halive
  obtain ⟨hcn, hce, hsn, hse, hmNE, hmEN⟩ := hI
  have halm : (!I.edges.is_deleted e) = true := by rw [halive]; rfl
  have hN : (I.delete_edge e).nodes = I.nodes := by
    rw [delete_edge_eq]
  have hE : (I.delete_edge e).edges = I.edges.delete e := by
    rw [delete_edge_eq]
  have hNI : (I.delete_edge e).node_incidences =
      delFold I.node_incidences (I.edgePairs e) := by
    rw [delete_edge_eq]
  have hEI : (I.delete_edge e).edge_incidences = I.edge_incidences := by
    rw [delete_edge_eq]
  have hntot : (I.delete_edge e).num_nodes_total = I.num_nodes_total := by
    unfold num_nodes_total
    rw [hNI, delFold_length]
  have hetot : (I.delete_edge e).num_edges_total = I.num_edges_total := by
    unfold num_edges_total
    rw [hEI]
  have hds := ContiguousIdxVec.delete_spec hce he halive
  have hDwf := delFold_wf (I.edgePairs e) I.node_incidences hpval hpnd
  refine ⟨?_, ?_, ?_, ?_, ?_, ?_⟩
  · rw [hN, hntot]
    exact hcn
  · rw [hE, hetot]
    exact hds.1
  · intro v2 hv2
    rw [hntot] at hv2
    rw [hNI]
    exact (hDwf v2 (hsn v2 hv2)).1
  · intro e2 he2
    rw [hetot] at he2
    rw [hEI]
    exact hse e2 he2
  · rw [hNI, hEI, hN, hE]
    intro v2 hv2 hal2 k hk
    rw [delFold_length] at hv2
    have hal2b : (!I.nodes.is_deleted v2) = true := hal2
    have hks := ((hDwf v2 (hsn v2 hv2)).2 k).mp hk
    rw [delFold_atVal]
    have hm := hmNE v2 hv2 hal2b k hks.1
    cases hva : SkipVec.atVal (I.node_incidences.getD v2 default) k with
    | none =>
      rw [hva] at hm
      exact hm.elim
    | some q =>
      rw [hva] at hm
      obtain ⟨hqb, hqal, hqlive, hqback⟩ := mirrorAt_some hm
      have hqback2 : SkipVec.atVal (I.edge_incidences.getD q.1 default) q.2
          = some (v2, k) := hqback
      have hqnee : q.1 ≠ e := by
        intro hqe
        apply hks.2
        refine (edgePairs_mem (hse e he) v2 k).mpr ⟨q.2, ?_, ?_⟩
        · rw [← hqe]
          exact hqlive
        · rw [← hqe]
          exact hqback2
      refine ⟨hqb, ?_, hqlive, hqback2⟩
      show (!(I.edges.delete e).is_deleted q.1) = true
      rw [hds.2.2.2 q.1 hqb, if_neg hqnee]
      exact hqal
  · rw [hNI, hEI, hN, hE]
    intro e2 he2 hal2 j hj
    have hal2b : (!(I.edges.delete e).is_deleted e2) = true := hal2
    have hchar := hds.2.2.2 e2 he2
    rw [hchar] at hal2b
    by_cases heeq : e2 = e
    · rw [if_pos heeq] at hal2b
      exact absurd hal2b (by decide)
    · rw [if_neg heeq] at hal2b
      have holda : I.edges.is_deleted e2 = false := by
        cases hod : I.edges.is_deleted e2
        · rfl
        · rw [hod] at hal2b
          exact absurd hal2b (by decide)
      have hm := hmEN e2 he2
        (by show (!I.edges.is_deleted e2) = true; rw [holda]; rfl) j hj
      cases hva : SkipVec.atVal (I.edge_incidences.getD e2 default) j with
      | none =>
        rw [hva] at hm
        exact hm.elim
      | some q =>
        rw [hva] at hm
        obtain ⟨hqb, hqal, hqlive, hqback⟩ := mirrorAt_some hm
        refine ⟨?_, hqal, ?_, ?_⟩
        · rw [delFold_length]
          exact hqb
        · rw [(hDwf q.1 (hsn q.1 hqb)).2 q.2]
          refine ⟨hqlive, ?_⟩
          intro hpair
          obtain ⟨j2, hj2, hval2⟩ :=
            (edgePairs_mem (hse e he) q.1 q.2).mp hpair
          have hmv := hmEN e he halm j2 hj2
          rw [hval2] at hmv
          have hbackv : SkipVec.atVal (I.node_incidences.getD q.1 default)
              q.2 = some (e, j2) := (mirrorAt_some hmv).2.2.2
          rw [hqback] at hbackv
          injection hbackv with hb2
          exact heeq (congrArg Prod.fst hb2)
        · rw [delFold_atVal]
          exact hqback

/-- Exact roundtrip of `delete_edge`/`restore_edge` through any instance
with equal incidences and an equivalent id set. -/
theorem one_delete_edge {I : Instance} (hI : INV I) {e : Nat}
    (he : e < I.num_edges_total)
    (halive : I.edges.is_deleted e = false)
    {K : Instance} (hK : IEquiv K (I.delete_edge e)) :
    IEquiv (K.restore_edge e) I := by
  obtain ⟨hpval, hpnd⟩ := edgePairs_valid hI he halive
  obtain ⟨hcn, hce, hsn, hse, hmNE, hmEN⟩ := hI
  have hN : (I.delete_edge e).nodes = I.nodes := by
    rw [delete_edge_eq]
  have hE : (I.delete_edge e).edges = I.edges.delete e := by
    rw [delete_edge_eq]
  have hNI : (I.delete_edge e).node_incidences =
      delFold I.node_incidences (I.edgePairs e) := by
    rw [delete_edge_eq]
  have hEI : (I.delete_edge e).edge_incidences = I.edge_incidences := by
    rw [delete_edge_eq]
  have hntot : (I.delete_edge e).num_nodes_total = I.num_nodes_total := by
    unfold num_nodes_total
    rw [hNI, delFold_length]
  have hetot : (I.delete_edge e).num_edges_total = I.num_edges_total := by
    unfold num_edges_total
    rw [hEI]
  obtain ⟨hKn, hKe, hKnodes, hKedges⟩ := hK
  rw [hNI] at hKn
  rw [hEI] at hKe
  rw [hntot, hN] at hKnodes
  rw [hetot, hE] at hKedges
  have hKpairs : K.edgePairs e = I.edgePairs e := by
    unfold edgePairs edgeEntries
    rw [hKe]
  have hds := ContiguousIdxVec.delete_spec hce he halive
  refine ⟨?_, ?_, ?_, ?_⟩
  · rw [restore_edge_eq]
    show resFold K.node_incidences (K.edgePairs e).reverse =
      I.node_incidences
    rw [hKpairs, hKn]
    exact resFold_delFold (I.edgePairs e) I.node_incidences hpval hpnd
  · rw [restore_edge_eq]
    show K.edge_incidences = I.edge_incidences
    exact hKe
  · rw [restore_edge_eq]
    show ContiguousIdxVec.Equiv I.num_nodes_total K.nodes I.nodes
    exact hKnodes
  · rw [restore_edge_eq]
    show ContiguousIdxVec.Equiv I.num_edges_total (K.edges.restore e)
      I.edges
    obtain ⟨hKw, hDw, hKlen, hKdel⟩ := hKedges
    have hKdead : K.edges.is_deleted e = true := by
      rw [hKdel e he, hds.2.2.2 e he, if_pos rfl]
    have hKlen2 : K.edges.len < I.num_edges_total := by
      rw [hKlen, hds.2.2.1]
      have h1 := hce.2.2.1
      have h2 := hds.2.1
      omega
    have hrs := ContiguousIdxVec.restore_spec hKw he hKdead hKlen2
    refine ⟨hrs.1, hce, ?_, ?_⟩
    · rw [hrs.2.1, hKlen, hds.2.2.1]
      have h2 := hds.2.1
      omega
    · intro j hj
      rw [hrs.2.2 j hj]
      by_cases hje : j = e
      · rw [if_pos hje, hje, halive]
      · rw [if_neg hje, hKdel j hj, hds.2.2.2 j hj, if_neg hje]

end Instance

theorem bool_not_true {b : Bool} (h : (!b) = true) : b = false := by
  cases b
  · rfl
  · exact absurd h (by decide)

theorem list_set_eq_self {α : Type} : ∀ (l : List α) (i : Nat) (a : α),
    l.get? i = some a → l.set i a = l
  | [], _, _, h => by simp at h
  | x :: xs, 0, a, h => by
    injection h with h2
    show a :: xs = x :: xs
    rw [h2]
  | x :: xs, i + 1, a, h => by
    show x :: xs.set i a = x :: xs
    rw [list_set_eq_self xs i a h]

theorem delFold_getD_untouched :
    ∀ (ps : List (Nat × Nat)) (L : List (SkipVec (Nat × Nat))) (t : Nat),
    (∀ p ∈ ps, p.1 ≠ t) →
    (delFold L ps).getD t default = L.getD t default := by
  intro ps
  induction ps with
  | nil => intro L t h; rfl
  | cons p ps ih =>
    intro L t h
    rw [delFold_cons, ih _ t (fun q hq => h q (List.mem_cons_of_mem _ hq)),
      getD_modify_other _ _ (h p (List.mem_cons_self _ _))]

theorem wf_default_sv : SkipVec.Wf (default : SkipVec (Nat × Nat)) := by
  decide

namespace Instance

theorem delete_edge_parts (I : Instance) (e : Nat) :
    (I.delete_edge e).nodes = I.nodes ∧
    (I.delete_edge e).edge_incidences = I.edge_incidences ∧
    (I.delete_edge e).num_nodes_total = I.num_nodes_total ∧
    (I.delete_edge e).num_edges_total = I.num_edges_total := by
  refine ⟨?_, ?_, ?_, ?_⟩
  · rw [delete_edge_eq]
  · rw [delete_edge_eq]
  · unfold num_nodes_total
    rw [delete_edge_eq]
    show (delFold I.node_incidences (I.edgePairs e)).length =
      I.node_incidences.length
    exact delFold_length _ _
  · unfold num_edges_total
    rw [delete_edge_eq]

theorem applyDEs_cons (I : Instance) (e : Nat) (es : List Nat) :
    applyDEs I (e :: es) = applyDEs (I.delete_edge e) es := rfl

theorem undoDEs_cons (K : Instance) (e : Nat) (es : List Nat) :
    undoDEs K (e :: es) = (undoDEs K es).restore_edge e := by
  unfold undoDEs
  rw [List.reverse_cons, List.foldl_append]
  rfl

theorem applyDEs_parts : ∀ (es : List Nat) (I : Instance),
    (applyDEs I es).nodes = I.nodes ∧
    (applyDEs I es).edge_incidences = I.edge_incidences ∧
    (applyDEs I es).num_nodes_total = I.num_nodes_total ∧
    (applyDEs I es).num_edges_total = I.num_edges_total := by
  intro es
  induction es with
  | nil => intro I; exact ⟨rfl, rfl, rfl, rfl⟩
  | cons e es ih =>
    intro I
    rw [applyDEs_cons]
    obtain ⟨h1, h2, h3, h4⟩ := ih (I.delete_edge e)
    obtain ⟨g1, g2, g3, g4⟩ := delete_edge_parts I e
    exact ⟨h1.trans g1, h2.trans g2, h3.trans g3, h4.trans g4⟩

/-- The opposite endpoints listed by an alive edge are alive nodes. -/
theorem edgePairs_opposite_alive {I : Instance} (hI : INV I) {e : Nat}
    (he : e < I.num_edges_total)
    (halive : I.edges.is_deleted e = false) :
    ∀ p ∈ I.edgePairs e, I.nodes.is_deleted p.1 = false := by
  obtain ⟨hcn, hce, hsn, hse, hmNE, hmEN⟩ := hI
  have halm : (!I.edges.is_deleted e) = true := by rw [halive]; rfl
  intro p hp
  have hp2 : (p.1, p.2) ∈ I.edgePairs e := hp
  obtain ⟨j, hj, hval⟩ := (edgePairs_mem (hse e he) p.1 p.2).mp hp2
  have hm := hmEN e he halm j hj
  rw [hval] at hm
  have hqal : (!I.nodes.is_deleted p.1) = true := (mirrorAt_some hm).2.1
  exact bool_not_true hqal

/-- Distinct alive edges form a valid `delete_edge` run. -/
theorem validDEs_of_alive : ∀ (es : List Nat) (I : Instance), INV I →
    es.Nodup →
    (∀ x ∈ es, x < I.num_edges_total ∧ I.edges.is_deleted x = false) →
    ValidDEs I es := by
  intro es
  induction es with
  | nil => intro I _ _ _; trivial
  | cons e es ih =>
    intro I hI hnd hal
    have he := hal e (List.mem_cons_self _ _)
    refine ⟨he, ?_⟩
    refine ih (I.delete_edge e) (inv_delete_edge hI he.1 he.2)
      (List.nodup_cons.mp hnd).2 ?_
    intro x hx
    have hxal := hal x (List.mem_cons_of_mem _ hx)
    obtain ⟨g1, g2, g3, g4⟩ := delete_edge_parts I e
    have hxe : x ≠ e := by
      intro hxeq
      exact (List.nodup_cons.mp hnd).1 (hxeq ▸ hx)
    have hds := ContiguousIdxVec.delete_spec hI.2.1 he.1 he.2
    constructor
    · rw [g4]
      exact hxal.1
    · have hEdel : (I.delete_edge e).edges = I.edges.delete e := by
        rw [delete_edge_eq]
      rw [hEdel, hds.2.2.2 x hxal.1, if_neg hxe]
      exact hxal.2

theorem inv_applyDEs : ∀ (es : List Nat) (I : Instance), INV I →
    ValidDEs I es → INV (applyDEs I es) := by
  intro es
  induction es with
  | nil => intro I hI _; exact hI
  | cons e es ih =>
    intro I hI hv
    rw [applyDEs_cons]
    exact ih (I.delete_edge e) (inv_delete_edge hI hv.1.1 hv.1.2) hv.2

/-- Roundtrip of a `delete_edge` run through any equivalent instance. -/
theorem de_roundtrip : ∀ (es : List Nat) (I K : Instance), INV I →
    ValidDEs I es → IEquiv K (applyDEs I es) → IEquiv (undoDEs K es) I := by
  intro es
  induction es with
  | nil => intro I K _ _ hK; exact hK
  | cons e es ih =>
    intro I K hI hv hK
    rw [undoDEs_cons]
    refine one_delete_edge hI hv.1.1 hv.1.2 ?_
    refine ih (I.delete_edge e) K (inv_delete_edge hI hv.1.1 hv.1.2)
      hv.2 ?_
    rw [← applyDEs_cons]
    exact hK

/-- Node incidence vectors of dead nodes are untouched by a valid
`delete_edge` run. -/
theorem applyDEs_ninc_dead : ∀ (es : List Nat) (I : Instance), INV I →
    ValidDEs I es → ∀ v, I.nodes.is_deleted v = true →
    (applyDEs I es).node_incidences.getD v default =
      I.node_incidences.getD v default := by
  intro es
  induction es with
  | nil => intro I _ _ v _; rfl
  | cons e es ih =>
    intro I hI hv v hdead
    rw [applyDEs_cons,
      ih (I.delete_edge e) (inv_delete_edge hI hv.1.1 hv.1.2) hv.2 v
        (by rw [(delete_edge_parts I e).1]; exact hdead)]
    have hNI : (I.delete_edge e).node_incidences =
        delFold I.node_incidences (I.edgePairs e) := by
      rw [delete_edge_eq]
    rw [hNI]
    refine delFold_getD_untouched _ _ _ ?_
    intro p hp hpv
    have hal := edgePairs_opposite_alive hI hv.1.1 hv.1.2 p hp
    rw [hpv, hdead] at hal
    exact Bool.noConfusion hal

end Instance

theorem get?_eq_some_getD {α : Type} [Inhabited α] (l : List α) (i : Nat)
    (h : i < l.length) : l.get? i = some (l.getD i default) := by
  cases hg : l.get? i with
  | none =>
    rw [List.get?_eq_none] at hg
    omega
  | some a =>
    rw [List.getD, hg]
    rfl

namespace Instance

/-- Replacing a dead node's incidence vector by any well-chained vector
preserves the invariant (nothing alive references a dead node). -/
theorem inv_set_ninc {I : Instance} (hI : INV I) {v : Nat}
    (hv : v < I.num_nodes_total) (hdead : I.nodes.is_deleted v = true)
    (w : SkipVec (Nat × Nat)) (hww : SkipVec.Wf w) :
    INV { I with node_incidences := I.node_incidences.set v w } := by
  obtain ⟨hcn, hce, hsn, hse, hmNE, hmEN⟩ := hI
  have hntot : ({ I with node_incidences := I.node_incidences.set v w } :
      Instance).num_nodes_total = I.num_nodes_total := by
    show (I.node_incidences.set v w).length = I.node_incidences.length
    simp
  refine ⟨?_, ?_, ?_, ?_, ?_, ?_⟩
  · rw [hntot]
    exact hcn
  · exact hce
  · intro v2 hv2
    rw [hntot] at hv2
    show SkipVec.Wf ((I.node_incidences.set v w).getD v2 default)
    by_cases hveq : v2 = v
    · subst hveq
      rw [getD_set_self hv2]
      exact hww
    · rw [getD_set_other (fun h => hveq h.symm)]
      exact hsn v2 hv2
  · intro e2 he2
    exact hse e2 he2
  · intro v2 hv2 hal2 j hj
    have hal2b : (!I.nodes.is_deleted v2) = true := hal2
    have hv2ne : v2 ≠ v := by
      intro heq
      rw [heq, hdead] at hal2b
      exact absurd hal2b (by decide)
    have hv2b : v2 < (I.node_incidences.set v w).length := hv2
    have hv2len : v2 < I.node_incidences.length := by
      rw [List.length_set] at hv2b
      exact hv2b
    have hj2 : j ∈ ((I.node_incidences.set v w).getD v2 default).liveIdx :=
      hj
    rw [getD_set_other (fun h => hv2ne h.symm)] at hj2
    show MirrorAt I.edge_incidences (fun e => !I.edges.is_deleted e) v2 j
      (SkipVec.atVal ((I.node_incidences.set v w).getD v2 default) j)
    rw [getD_set_other (fun h => hv2ne h.symm)]
    exact hmNE v2 hv2len hal2b j hj2
  · intro e2 he2 hal2 j hj
    have hal2b : (!I.edges.is_deleted e2) = true := hal2
    have he2b : e2 < I.edge_incidences.length := he2
    have hj2 : j ∈ (I.edge_incidences.getD e2 default).liveIdx := hj
    have hm := hmEN e2 he2b hal2b j hj2
    show MirrorAt (I.node_incidences.set v w)
      (fun v2 => !I.nodes.is_deleted v2) e2 j
      (SkipVec.atVal (I.edge_incidences.getD e2 default) j)
    cases hva : SkipVec.atVal (I.edge_incidences.getD e2 default) j with
    | none =>
      rw [hva] at hm
      exact hm.elim
    | some q =>
      rw [hva] at hm
      obtain ⟨hqb, hqal, hqlive, hqback⟩ := mirrorAt_some hm
      have hqal2 : (!I.nodes.is_deleted q.1) = true := hqal
      have hqne : q.1 ≠ v := by
        intro heq
        rw [heq, hdead] at hqal2
        exact absurd hqal2 (by decide)
      refine ⟨?_, hqal, ?_, ?_⟩
      · show q.1 < (I.node_incidences.set v w).length
        rw [List.length_set]
        exact hqb
      · rw [getD_set_other (fun h => hqne h.symm)]
        exact hqlive
      · rw [getD_set_other (fun h => hqne h.symm)]
        exact hqback

/-- `delete_incident_edges` on a deleted node with distinct alive incident
edges preserves the invariant. -/
theorem inv_delete_incident_edges {I : Instance} (hI : INV I) {v : Nat}
    (hop : ValidOp I (Op.delIncEdges v)) :
    INV (I.delete_incident_edges v) := by
  obtain ⟨hv, hdead, hnd, hal⟩ := hop
  have hwinc : SkipVec.Wf (I.node_incidences.getD v default) :=
    hI.2.2.1 v hv
  have hI1inv : INV { I with node_incidences := I.node_incidences.set v default } :=
    inv_set_ninc hI hv hdead default wf_default_sv
  have hndes : (I.incEdgeIds v).Nodup := hnd
  have hales : ∀ x ∈ I.incEdgeIds v, x < I.num_edges_total ∧
      I.edges.is_deleted x = false := by
    intro x hx
    obtain ⟨p, hp, rfl⟩ := List.mem_map.mp hx
    exact hal p hp
  have hvd : ValidDEs { I with node_incidences := I.node_incidences.set v default } (I.incEdgeIds v) :=
    validDEs_of_alive _ _ hI1inv hndes hales
  have hX := inv_applyDEs _ _ hI1inv hvd
  have hparts := applyDEs_parts (I.incEdgeIds v)
    { I with node_incidences := I.node_incidences.set v default }
  have hXdead : (applyDEs { I with node_incidences := I.node_incidences.set v default } (I.incEdgeIds v)).nodes.is_deleted v = true := by
    rw [hparts.1]
    exact hdead
  have hXvlt : v < (applyDEs { I with node_incidences := I.node_incidences.set v default } (I.incEdgeIds v)).num_nodes_total := by
    rw [hparts.2.2.1]
    show v < (I.node_incidences.set v default).length
    rw [List.length_set]
    exact hv
  rw [delete_incident_edges_eq]
  exact inv_set_ninc hX hXvlt hXdead (I.node_incidences.getD v default)
    hwinc

/-- Roundtrip of `delete_incident_edges`/`restore_incident_edges` through
any equivalent instance. -/
theorem one_delete_incident_edges {I : Instance} (hI : INV I) {v : Nat}
    (hop : ValidOp I (Op.delIncEdges v))
    {K : Instance} (hK : IEquiv K (I.delete_incident_edges v)) :
    IEquiv (K.restore_incident_edges v) I := by
  obtain ⟨hv, hdead, hnd, hal⟩ := hop
  set I1 : Instance := { I with node_incidences := I.node_incidences.set v default } with hI1d
  set es : List Nat := I.incEdgeIds v with hesd
  set X : Instance := applyDEs I1 es with hXd
  have hI1inv : INV I1 := inv_set_ninc hI hv hdead default wf_default_sv
  have hndes : es.Nodup := hnd
  have hales : ∀ x ∈ es, x < I.num_edges_total ∧
      I.edges.is_deleted x = false := by
    intro x hx
    obtain ⟨p, hp, rfl⟩ := List.mem_map.mp hx
    exact hal p hp
  have hvd : ValidDEs I1 es := validDEs_of_alive _ _ hI1inv hndes hales
  have hparts := applyDEs_parts es I1
  have hXv : X.node_incidences.getD v default = default := by
    rw [hXd, applyDEs_ninc_dead _ _ hI1inv hvd v hdead]
    show (I.node_incidences.set v default).getD v default = default
    exact getD_set_self hv
  have hXlenv : v < X.node_incidences.length := by
    have h1 : X.num_nodes_total = I1.num_nodes_total := hparts.2.2.1
    unfold num_nodes_total at h1
    rw [h1]
    show v < (I.node_incidences.set v default).length
    rw [List.length_set]
    exact hv
  have hntot1 : I1.num_nodes_total = I.num_nodes_total := by
    show (I.node_incidences.set v default).length =
      I.node_incidences.length
    simp
  have hDeq : I.delete_incident_edges v =
      { X with node_incidences := X.node_incidences.set v (I.node_incidences.getD v default) } :=
    delete_incident_edges_eq I v
  obtain ⟨hKn, hKe, hKnodes, hKedges⟩ := hK
  rw [hDeq] at hKn hKe hKnodes hKedges
  have hKn2 : K.node_incidences = X.node_incidences.set v
      (I.node_incidences.getD v default) := hKn
  have hKe2 : K.edge_incidences = X.edge_incidences := hKe
  have hKincv : K.node_incidences.getD v default =
      I.node_incidences.getD v default := by
    rw [hKn2]
    exact getD_set_self hXlenv
  have hKes : K.incEdgeIds v = es := by
    rw [hesd]
    unfold incEdgeIds
    rw [hKincv]
  have hK1n : K.node_incidences.set v default = X.node_incidences := by
    rw [hKn2, List.set_set]
    exact list_set_eq_self _ v default
      (by rw [get?_eq_some_getD _ _ hXlenv, hXv])
  have hsetlen : ({ X with node_incidences := X.node_incidences.set v (I.node_incidences.getD v default) } : Instance).num_nodes_total = X.num_nodes_total := by
    show (X.node_incidences.set v _).length = X.node_incidences.length
    simp
  have hKnodes2 : ContiguousIdxVec.Equiv X.num_nodes_total K.nodes
      X.nodes := by
    rw [← hsetlen]
    exact hKnodes
  have hKedges2 : ContiguousIdxVec.Equiv X.num_edges_total K.edges
      X.edges := hKedges
  have hKeq1 : IEquiv { K with node_incidences := K.node_incidences.set v default } X := by
    refine ⟨?_, ?_, ?_, ?_⟩
    · show K.node_incidences.set v default = X.node_incidences
      exact hK1n
    · show K.edge_incidences = X.edge_incidences
      exact hKe2
    · show ContiguousIdxVec.Equiv X.num_nodes_total K.nodes X.nodes
      exact hKnodes2
    · show ContiguousIdxVec.Equiv X.num_edges_total K.edges X.edges
      exact hKedges2
  have hU : IEquiv (undoDEs { K with node_incidences := K.node_incidences.set v default } es) I1 :=
    de_roundtrip es I1 _ hI1inv hvd hKeq1
  obtain ⟨hUn, hUe, hUnodes, hUedges⟩ := hU
  refine ⟨?_, ?_, ?_, ?_⟩
  · rw [restore_incident_edges_eq]
    show (undoDEs { K with node_incidences := K.node_incidences.set v default } (K.incEdgeIds v)).node_incidences.set v (K.node_incidences.getD v default) = I.node_incidences
    rw [hKes, hKincv, hUn]
    show (I.node_incidences.set v default).set v
      (I.node_incidences.getD v default) = I.node_incidences
    rw [List.set_set]
    exact list_set_eq_self _ v _ (get?_eq_some_getD _ _ hv)
  · rw [restore_incident_edges_eq]
    show (undoDEs { K with node_incidences := K.node_incidences.set v default } (K.incEdgeIds v)).edge_incidences = I.edge_incidences
    rw [hKes, hUe]
  · rw [restore_incident_edges_eq]
    show ContiguousIdxVec.Equiv I.num_nodes_total (undoDEs { K with node_incidences := K.node_incidences.set v default } (K.incEdgeIds v)).nodes I.nodes
    rw [hKes, ← hntot1]
    exact hUnodes
  · rw [restore_incident_edges_eq]
    show ContiguousIdxVec.Equiv I.num_edges_total (undoDEs { K with node_incidences := K.node_incidences.set v default } (K.incEdgeIds v)).edges I.edges
    rw [hKes]
    exact hUedges

theorem inv_applyOp {I : Instance} (hI : INV I) {op : Op}
    (hv : ValidOp I op) : INV (applyOp I op) := by
  cases op with
  | delNode v => exact inv_delete_node hI hv.1 hv.2
  | delEdge e => exact inv_delete_edge hI hv.1 hv.2
  | delIncEdges v => exact inv_delete_incident_edges hI hv

theorem one_applyOp {I : Instance} (hI : INV I) {op : Op}
    (hv : ValidOp I op) {K : Instance} (hK : IEquiv K (applyOp I op)) :
    IEquiv (undoOp K op) I := by
  cases op with
  | delNode v => exact one_delete_node hI hv.1 hv.2 hK
  | delEdge e => exact one_delete_edge hI hv.1 hv.2 hK
  | delIncEdges v => exact one_delete_incident_edges hI hv hK

theorem applyAll_cons (I : Instance) (op : Op) (ops : List Op) :
    applyAll I (op :: ops) = applyAll (applyOp I op) ops := rfl

theorem undoAll_cons (K : Instance) (op : Op) (ops : List Op) :
    undoAll K (op :: ops) = undoOp (undoAll K ops) op := by
  unfold undoAll
  rw [List.reverse_cons, List.foldl_append]
  rfl

theorem iequiv_refl {I : Instance} (hI : INV I) : IEquiv I I :=
  ⟨rfl, rfl, ContiguousIdxVec.equiv_refl hI.1,
    ContiguousIdxVec.equiv_refl hI.2.1⟩

theorem inv_applyAll : ∀ (ops : List Op) (I : Instance), INV I →
    ValidSeq I ops → INV (applyAll I ops) := by
  intro ops
  induction ops with
  | nil => intro I hI _; exact hI
  | cons op ops ih =>
    intro I hI hv
    rw [applyAll_cons]
    exact ih (applyOp I op) (inv_applyOp hI hv.1) hv.2

/-- The general roundtrip: undoing a valid delete sequence in exact
reverse order through any observably equivalent instance lands back on an
instance observably equivalent to the original. -/
theorem seq_roundtrip : ∀ (ops : List Op) (I K : Instance), INV I →
    ValidSeq I ops → IEquiv K (applyAll I ops) →
    IEquiv (undoAll K ops) I := by
  intro ops
  induction ops with
  | nil => intro I K _ _ hK; exact hK
  | cons op ops ih =>
    intro I K hI hv hK
    rw [undoAll_cons]
    refine one_applyOp hI hv.1 ?_
    refine ih (applyOp I op) K (inv_applyOp hI hv.1) hv.2 ?_
    rw [← applyAll_cons]
    exact hK

theorem full_roundtrip {I : Instance} (hI : INV I) {ops : List Op}
    (hv : ValidSeq I ops) : IEquiv (undoAll (applyAll I ops) ops) I :=
  seq_roundtrip ops I (applyAll I ops) hI hv
    (iequiv_refl (inv_applyAll ops I hI hv))

end Instance

/-- C2: for every well-formed instance and every valid sequence of
`delete_node` / `delete_edge` / `delete_incident_edges` operations
(each delete hitting an alive item, and `delete_incident_edges` applied to
an already deleted node whose listed edges are distinct and alive, as the
code requires), applying the matching restore operations in exact reverse
order reproduces the observable state: same alive node and edge sets (and
counts), identical incidence iteration orders, values and cross-references,
and identical node degrees and edge sizes. -/
theorem claim_C2_reversibility (I : Instance) (ops : List Instance.Op)
    (hI : Instance.INV I) (hv : Instance.ValidSeq I ops) :
    (∀ x, x ∈ (Instance.undoAll (Instance.applyAll I ops) ops).aliveNodes ↔
      x ∈ I.aliveNodes) ∧
    (Instance.undoAll (Instance.applyAll I ops) ops).aliveNodes.length =
      I.aliveNodes.length ∧
    (∀ x, x ∈ (Instance.undoAll (Instance.applyAll I ops) ops).aliveEdges ↔
      x ∈ I.aliveEdges) ∧
    (Instance.undoAll (Instance.applyAll I ops) ops).aliveEdges.length =
      I.aliveEdges.length ∧
    (Instance.undoAll (Instance.applyAll I ops) ops).node_incidences =
      I.node_incidences ∧
    (Instance.undoAll (Instance.applyAll I ops) ops).edge_incidences =
      I.edge_incidences ∧
    (∀ v, (Instance.undoAll (Instance.applyAll I ops) ops).nodeList v =
      I.nodeList v) ∧
    (∀ e, (Instance.undoAll (Instance.applyAll I ops) ops).edgeList e =
      I.edgeList e) ∧
    (∀ v, (Instance.undoAll (Instance.applyAll I ops) ops).node_degree v =
      I.node_degree v) ∧
    (∀ e, (Instance.undoAll (Instance.applyAll I ops) ops).edge_size e =
      I.edge_size e) ∧
    (Instance.undoAll (Instance.applyAll I ops) ops).num_nodes =
      I.num_nodes ∧
    (Instance.undoAll (Instance.applyAll I ops) ops).num_edges =
      I.num_edges := by
  have hR := Instance.full_roundtrip hI hv
  obtain ⟨hJn, hJe, hJnodes, hJedges⟩ := hR
  refine ⟨?_, ?_, ?_, ?_, hJn, hJe, ?_, ?_, ?_, ?_, ?_, ?_⟩
  · intro x
    exact ContiguousIdxVec.equiv_alive_mem hJnodes x
  · exact ContiguousIdxVec.equiv_alive_length hJnodes
  · intro x
    exact ContiguousIdxVec.equiv_alive_mem hJedges x
  · exact ContiguousIdxVec.equiv_alive_length hJedges
  · intro v2
    unfold Instance.nodeList
    rw [hJn]
  · intro e2
    unfold Instance.edgeList
    rw [hJe]
  · intro v2
    unfold Instance.node_degree
    rw [hJn]
  · intro e2
    unfold Instance.edge_size
    rw [hJe]
  · unfold Instance.num_nodes
    exact hJnodes.2.2.1
  · unfold Instance.num_edges
    exact hJedges.2.2.1

/-- Concrete check of C2 on the loaded instance with edges
`{0,1,2}, {0}`: delete node 1, delete node 0, delete all edges incident to
node 0, restore in exact reverse order; the alive sets, incidences,
degrees and sizes all return to their original values. -/
theorem claim_C2_witness :
    Instance.INV (loadD 3 2 [[0, 1, 2], [0]]) ∧
    Instance.ValidSeq (loadD 3 2 [[0, 1, 2], [0]])
      [Instance.Op.delNode 1, Instance.Op.delNode 0,
       Instance.Op.delIncEdges 0] ∧
    ((∀ x, x ∈ (Instance.undoAll (Instance.applyAll
        (loadD 3 2 [[0, 1, 2], [0]])
        [Instance.Op.delNode 1, Instance.Op.delNode 0,
         Instance.Op.delIncEdges 0])
        [Instance.Op.delNode 1, Instance.Op.delNode 0,
         Instance.Op.delIncEdges 0]).aliveNodes ↔
      x ∈ (loadD 3 2 [[0, 1, 2], [0]]).aliveNodes) ∧
     ∀ v, (Instance.undoAll (Instance.applyAll
        (loadD 3 2 [[0, 1, 2], [0]])
        [Instance.Op.delNode 1, Instance.Op.delNode 0,
         Instance.Op.delIncEdges 0])
        [Instance.Op.delNode 1, Instance.Op.delNode 0,
         Instance.Op.delIncEdges 0]).nodeList v =
      (loadD 3 2 [[0, 1, 2], [0]]).nodeList v) :=
  ⟨by decide, by decide,
    (claim_C2_reversibility (loadD 3 2 [[0, 1, 2], [0]])
      [Instance.Op.delNode 1, Instance.Op.delNode 0,
       Instance.Op.delIncEdges 0] (by decide) (by decide)).1,
    (claim_C2_reversibility (loadD 3 2 [[0, 1, 2], [0]])
      [Instance.Op.delNode 1, Instance.Op.delNode 0,
       Instance.Op.delIncEdges 0] (by decide) (by decide)).2.2.2.2.2.2.1⟩

end FindMinHS
